import Mathlib

/-!
# A shallow embedding of the MAM (Masked Authenticated Messaging) core

This file embeds the cryptographic core of the `mam.js` repository
(`dist/mam.js`, together with the TypeScript channel module and the ES
`iss-p27` / `merkleTree` modules) into Lean 4 and proves the specified
properties about it.

Conventions of the embedding:
* a JS `Int8Array` of balanced-ternary digits is a `List ℤ`;
* JS numbers used as counters, lengths or indices are `ℕ` (they are
  non-negative in every reachable state of the code); values that the code
  manipulates as signed quantities (trits, tryte values, pascal values)
  are `ℤ`;
* the 64-bit `big-integer` values of the proof-of-work diver are `ℕ`
  kept below `2 ^ 64` (its `not` is modelled as `2 ^ 64 - 1 - x`, which is
  what the JS code computes);
* in-place mutation becomes explicit state passing: functions that mutate
  a sponge return the new sponge;
* a JS function that can throw or that can fail to terminate (the pascal
  encoder on negative input, the pascal decoder's `end` scan, the
  proof-of-work search loop) returns an `Option`, with recursion fuel
  where the source loop has no structural bound.
-/

namespace Mam

/-- A trit buffer: the JS code's `Int8Array` of balanced-ternary digits. -/
abbrev Trits := List ℤ

/-- `Curl.HASH_LENGTH` (243). -/
def HASH_LENGTH : ℕ := 243

/-- `Curl.STATE_LENGTH` (`3 * Curl.HASH_LENGTH` = 729). -/
def STATE_LENGTH : ℕ := 3 * HASH_LENGTH

/-- `Curl.TRUTH_TABLE = [1, 0, -1, 2, 1, -1, 0, 2, -1, 1, 0]`. -/
def TRUTH_TABLE : Trits := [1, 0, -1, 2, 1, -1, 0, 2, -1, 1, 0]

/-- A balanced-ternary digit. -/
def IsTrit (x : ℤ) : Prop := x = -1 ∨ x = 0 ∨ x = 1

instance (x : ℤ) : Decidable (IsTrit x) := by
  unfold IsTrit; infer_instance

/-- Entries of a trit buffer are in `{-1, 0, 1}`. -/
def IsTritVec (l : Trits) : Prop := ∀ x ∈ l, IsTrit x

instance (l : Trits) : Decidable (IsTritVec l) := by
  unfold IsTritVec; infer_instance

/-- The Curl sponge: a round count (27 or 81) and a 729-trit state. -/
structure Curl where
  rounds : ℕ
  state : Trits
  deriving Repr, DecidableEq

/-- `new Curl(rounds)`: the state starts as 729 zero trits. -/
def Curl.new (rounds : ℕ) : Curl :=
  ⟨rounds, List.replicate STATE_LENGTH 0⟩

/-- `Curl.prototype.reset`. -/
def Curl.reset (c : Curl) : Curl :=
  ⟨c.rounds, List.replicate STATE_LENGTH 0⟩

/-- `Curl.prototype.rate(len)`: a copy of the first `len` state trits. -/
def Curl.rate (c : Curl) (len : ℕ := HASH_LENGTH) : Trits :=
  c.state.take len

/-- One step of the transform's scanning index: `+364` below 365, `-365`
from 365 on (this is `+364 (mod 729)` on `[0, 729)`). -/
def idxStep (j : ℕ) : ℕ :=
  if j < 365 then j + 364 else j - 365

/-- The scanning index of the transform after `n` steps, starting from 0.
It is periodic with period 729 (`curlIdx_period` below), so each of the
source's rounds reads the same index sequence. -/
def curlIdx : ℕ → ℕ
  | 0 => 0
  | n + 1 => idxStep (curlIdx n)

/-- `TRUTH_TABLE[a + (b << 2) + 5]` (the index is in `[0, 10]` whenever
`a` and `b` are trits; out of range reads default to 0, which the source
never performs on valid states). -/
def truthLookup (a b : ℤ) : ℤ :=
  TRUTH_TABLE.getD (a + 4 * b + 5).toNat 0

/-- One round of `Curl.prototype.transform`: output `i` combines the copied
state at scanning positions `curlIdx i` and `curlIdx (i+1)`. -/
def curlRound (s : Trits) : Trits :=
  (List.range STATE_LENGTH).map fun i =>
    truthLookup (s.getD (curlIdx i) 0) (s.getD (curlIdx (i + 1)) 0)

/-- `Curl.prototype.transform`: `rounds` rounds over a copy of the state.
The scanning index is threaded across the 729 outputs and across rounds,
and returns to 0 after each round (`curlIdx_period`). -/
def Curl.transform (c : Curl) : Curl :=
  ⟨c.rounds, curlRound^[c.rounds] c.state⟩

/-- `state.set(chunk)`: overwrite the first `chunk.length` entries. -/
def setPre (p s : Trits) : Trits :=
  p ++ s.drop p.length

/-- The do-while loop of `Curl.prototype.absorb`: copy up to 243 trits of
the input into the front of the state and transform, at least once, until
the remaining length is exhausted.  `trits.subarray` clamps at the end of
the buffer, hence the `drop`/`take`. -/
def Curl.absorbLoop (c : Curl) (trits : Trits) (offset length : ℕ) : Curl :=
  let limit := min length HASH_LENGTH
  let c' := Curl.transform ⟨c.rounds, setPre ((trits.drop offset).take limit) c.state⟩
  if length ≤ HASH_LENGTH then c'
  else Curl.absorbLoop c' trits (offset + limit) (length - HASH_LENGTH)
termination_by length
decreasing_by
  simp only [HASH_LENGTH] at *; omega

/-- `Curl.prototype.absorb(trits, offset, length)`. -/
def Curl.absorb (c : Curl) (trits : Trits) (offset length : ℕ) : Curl :=
  c.absorbLoop trits offset length

/-- The do-while loop of `Curl.prototype.squeeze`: emit up to 243 trits of
the state and transform, at least once; returns the squeezed trits and the
advanced sponge. -/
def Curl.squeezeLoop (c : Curl) (length : ℕ) : Trits × Curl :=
  let limit := min length HASH_LENGTH
  let out := c.state.take limit
  let c' := c.transform
  if length ≤ HASH_LENGTH then (out, c')
  else
    let r := Curl.squeezeLoop c' (length - HASH_LENGTH)
    (out ++ r.1, r.2)
termination_by length
decreasing_by
  simp only [HASH_LENGTH] at *; omega

/-- `Curl.prototype.squeeze(trits, 0, length)` writes consecutive chunks
into the output buffer; this returns that buffer. -/
def Curl.squeeze (c : Curl) (length : ℕ) : Trits × Curl :=
  c.squeezeLoop length

/-! ## TrytesHelper -/

/-- `TrytesHelper.ALPHABET = "9ABCDEFGHIJKLMNOPQRSTUVWXYZ"`. -/
def ALPHABET : List Char := "9ABCDEFGHIJKLMNOPQRSTUVWXYZ".toList

/-- `TrytesHelper.TRYTES_TRITS`, the 27 trit triples of the alphabet. -/
def TRYTES_TRITS : List Trits :=
  [[0, 0, 0], [1, 0, 0], [-1, 1, 0], [0, 1, 0], [1, 1, 0], [-1, -1, 1],
   [0, -1, 1], [1, -1, 1], [-1, 0, 1], [0, 0, 1], [1, 0, 1], [-1, 1, 1],
   [0, 1, 1], [1, 1, 1], [-1, -1, -1], [0, -1, -1], [1, -1, -1],
   [-1, 0, -1], [0, 0, -1], [1, 0, -1], [-1, 1, -1], [0, 1, -1],
   [1, 1, -1], [-1, -1, 0], [0, -1, 0], [1, -1, 0], [-1, 0, 0]]

/-- The trit triple of one tryte character
(`TRYTES_TRITS[ALPHABET.indexOf(ch)]`; the code only reaches this on
alphabet characters, which the surrounding validators enforce). -/
def charTrits (ch : Char) : Trits :=
  TRYTES_TRITS.getD (ALPHABET.indexOf ch) [0, 0, 0]

/-- `TrytesHelper.toTrits`: 3 trits per character. -/
def toTrits (value : List Char) : Trits :=
  (value.map charTrits).flatten

/-- Split a trit buffer into consecutive triples (the loop of
`TrytesHelper.fromTrits` reads `trits[i], trits[i+1], trits[i+2]` for
`i = 0, 3, ...`; a trailing partial triple compares against `undefined`
and never matches, so it is dropped). -/
def triples : Trits → List Trits
  | t0 :: t1 :: t2 :: rest => [t0, t1, t2] :: triples rest
  | _ => []

/-- The inner scan of `TrytesHelper.fromTrits`: the first alphabet index
whose triple matches, if any (no match appends nothing). -/
def tryteIdx (t : Trits) : Option ℕ :=
  (List.range 27).find? fun j => TRYTES_TRITS.getD j [] = t

/-- One triple back to (at most) one character. -/
def tryteBack (t : Trits) : List Char :=
  match tryteIdx t with
  | some j => [ALPHABET.getD j '9']
  | none => []

/-- `TrytesHelper.fromTrits`. -/
def fromTrits (trits : Trits) : List Char :=
  ((triples trits).map tryteBack).flatten

/-- `TrytesHelper.tritsValue`: little-endian balanced base 3. -/
def tritsValue : Trits → ℤ
  | [] => 0
  | t :: rest => t + 3 * tritsValue rest

/-- `TrytesHelper.isTrytes`: the regex `^[9A-Z]+$` over the alphabet. -/
def isTrytes (s : List Char) : Prop :=
  s ≠ [] ∧ ∀ c ∈ s, c ∈ ALPHABET

instance (s : List Char) : Decidable (isTrytes s) := by
  unfold isTrytes; infer_instance

/-- `TrytesHelper.isHash`: 81 alphabet characters. -/
def isHash (s : List Char) : Prop :=
  s.length = 81 ∧ ∀ c ∈ s, c ∈ ALPHABET

instance (s : List Char) : Decidable (isHash s) := by
  unfold isHash; infer_instance

/-! ## Pascal codec (`pascal.js`) -/

/-- `ZERO = [1, 0, 0, -1]`. -/
def ZERO : Trits := [1, 0, 0, -1]

/-- `roundThird`: round up to a multiple of 3. -/
def roundThird (value : ℕ) : ℕ :=
  if value % 3 = 0 then value else value + (3 - value % 3)

/-- `minTrits(input, basis)`: the fewest trits representing `input` in
balanced base 3 (the basis triples-and-adds-one per trit). -/
def minTrits (input basis : ℕ) : ℕ :=
  if input ≤ basis then 1 else 1 + minTrits input (1 + basis * 3)
termination_by input - basis
decreasing_by omega

/-- `encodedLength(value)`. -/
def encodedLength (value : ℤ) : ℕ :=
  let length := roundThird (minTrits value.natAbs 1)
  length + length / 3

/-- The recursion of `writeTrits`, producing the digit list.  The source
writes digits into a fixed array (out-of-range writes are dropped by the
`Int8Array`) and recurses on `Math.floor(input / 3)` with the JS remainder
`input % 3`; on negative input that recursion never terminates (it sticks
at `-1`), so the model takes fuel and returns `none` when it runs out. -/
def writeTritsF (fuel : ℕ) (input : ℤ) : Option Trits :=
  if input = 0 then some []
  else
    match fuel with
    | 0 => none
    | fuel + 1 =>
        let a := Int.fdiv input 3
        let r := Int.tmod input 3
        let a := if r > 1 then a + 1 else a
        let r := if r > 1 then -1 else r
        (writeTritsF fuel a).map fun rest => r :: rest

/-- Write a digit list into a zero array of length `n`, dropping
out-of-range digits (`Int8Array` write semantics). -/
def placeTrits (w : Trits) (n : ℕ) : Trits :=
  w.take n ++ List.replicate (n - w.length) 0

/-- `valueToTrits(input, trits)`: write the digits of `input`, then negate
the whole array when `input < 0`. -/
def valueToTritsF (fuel : ℕ) (input : ℤ) (n : ℕ) : Option Trits :=
  (writeTritsF fuel input).map fun w =>
    if 0 ≤ input then placeTrits w n else (placeTrits w n).map (fun t => -t)

/-- The flip-and-set loop of `pascalEncode` over the chunks before the
final one: chunk `j` (at offset `3*j`) is negated, and bit `j` of the
encoding word set, when its `tritsValue` is non-negative. -/
def encodeFlips (trits : Trits) (chunks : ℕ) : Trits × ℕ :=
  match chunks with
  | 0 => (trits, 0)
  | j + 1 =>
      let p := encodeFlips trits j
      let t := p.1
      let chunk := (t.drop (3 * j)).take 3
      if 0 ≤ tritsValue chunk then
        ((t.take (3 * j)) ++ chunk.map (fun x => -x) ++ t.drop (3 * j + 3),
         p.2 ||| (1 <<< j))
      else p

/-- `pascalEncode(value)`.  `none` exactly when the digit recursion does
not terminate, which happens for every negative `value`. -/
def pascalEncode (value : ℤ) : Option Trits :=
  if value = 0 then some ZERO
  else
    let length := roundThird (minTrits value.natAbs 1)
    match valueToTritsF (value.natAbs + 1) value (encodedLength value) with
    | none => none
    | some trits0 =>
        let p := encodeFlips trits0 (length / 3 - 1)
        let trits1 := p.1
        let encoding0 := p.2
        let v := (trits1.drop (length - 3)).take length
        let flipLast := tritsValue v < 0
        let trits2 :=
          if flipLast then
            trits1.take (length - 3) ++
              ((trits1.drop (length - 3)).take length).map (fun x => -x) ++
              trits1.drop (length - 3 + length)
          else trits1
        let encoding : ℕ :=
          if flipLast then encoding0 ||| (1 <<< (length / 3 - 1)) else encoding0
        match valueToTritsF (encoding + 1) encoding (trits2.length - length) with
        | none => none
        | some checksum => some (trits2.take length ++ checksum)

/-- The scan of pascal's `end`: the offset of the first tryte whose
`tritsValue` is positive.  The source recursion does not terminate when no
such tryte exists (it keeps slicing an empty buffer), hence fuel. -/
def endPosF : ℕ → Trits → Option ℕ
  | 0, _ => none
  | fuel + 1, input =>
      if 0 < tritsValue (input.take 3) then some 3
      else (endPosF fuel (input.drop 3)).map (3 + ·)

/-- Bit `i` of the JS expression `(encoder >> i) & 1` (32-bit two's
complement arithmetic shift; for the widths the codec reaches this is bit
`i` of the two's complement of `encoder`). -/
def jsBit (encoder : ℤ) (i : ℕ) : ℤ :=
  (encoder.emod (2 ^ (i + 1))) / 2 ^ i

/-- `pascalDecode(value)`: `(value, end)`, or `none` when the `end` scan
finds no positive tryte (the source would not terminate). -/
def pascalDecode (value : Trits) : Option (ℤ × ℕ) :=
  if value.take 4 = ZERO then some (0, 4)
  else
    match endPosF (value.length + 1) value with
    | none => none
    | some encoderStart =>
        let inputEnd := encoderStart + encoderStart / 3
        let encoder := tritsValue ((value.drop encoderStart).take (encoderStart / 3))
        let result :=
          (List.range (encoderStart / 3)).foldl
            (fun acc i =>
              let tv := tritsValue ((value.drop (i * 3)).take 3)
              acc + 27 ^ i * (if jsBit encoder i = 1 then -tv else tv))
            0
        some (result, inputEnd)

/-! ## One-time signatures (`iss-p27.js`) -/

/-- `PRIVATE_KEY_FRAGMENT_LENGTH = 27 * Curl.HASH_LENGTH`. -/
def PRIVATE_KEY_FRAGMENT_LENGTH : ℕ := 27 * HASH_LENGTH

/-- `MIN_TRYTE_VALUE`. -/
def MIN_TRYTE_VALUE : ℤ := -13

/-- `MAX_TRYTE_VALUE`. -/
def MAX_TRYTE_VALUE : ℤ := 13

/-- The carry loop of `subseed`: add one in balanced base 3 (a trit at
`MAX_TRIT_VALUE` wraps to `MIN_TRIT_VALUE` and carries). -/
def incTrits : Trits → Trits
  | [] => []
  | t :: rest => if 1 ≤ t then -1 :: incTrits rest else (t + 1) :: rest

/-- `subseed(seed, index)`: increment the seed `index` times, absorb,
squeeze one hash. -/
def subseed (seed : Trits) (index : ℕ) : Trits :=
  let pre := incTrits^[index] seed
  let sponge := (Curl.new 27).absorb pre 0 pre.length
  (sponge.squeeze HASH_LENGTH).1

/-- One `reset; absorb(x); squeeze` of the inner whitening loop of
`digestFromSubseed` (the squeezed value is the rate after the absorb). -/
def digestInner (p : Curl × Trits) (_ : ℕ) : Curl × Trits :=
  let c := p.1.reset
  let c := c.absorb p.2 0 p.2.length
  let r := c.squeeze HASH_LENGTH
  (r.2, r.1)

/-- The outer iteration of `digestFromSubseed`: squeeze a block from
`curl1`, whiten it 27 times through `curl2`, absorb it into `curl3`. -/
def digestOuter (p : Curl × Curl × Curl × Trits) (_ : ℕ) : Curl × Curl × Curl × Trits :=
  let r1 := p.1.squeeze HASH_LENGTH
  let inner := (List.range (MAX_TRYTE_VALUE - MIN_TRYTE_VALUE + 1).toNat).foldl
    digestInner (p.2.1, r1.1)
  let c3 := p.2.2.1.absorb inner.2 0 inner.2.length
  (r1.2, inner.1, c3, inner.2)

/-- `digestFromSubseed(subSeed, securityLevel)`. -/
def digestFromSubseed (subSeed : Trits) (securityLevel : ℕ) : Trits :=
  let length := securityLevel * PRIVATE_KEY_FRAGMENT_LENGTH / HASH_LENGTH
  let c1 := (Curl.new 27).absorb subSeed 0 subSeed.length
  let st := (List.range length).foldl digestOuter
    (c1, Curl.new 27, Curl.new 27, List.replicate HASH_LENGTH 0)
  (st.2.2.1.squeeze HASH_LENGTH).1

/-- `address(digests)`. -/
def address (digests : Trits) : Trits :=
  let sponge := (Curl.new 27).absorb digests 0 digests.length
  (sponge.squeeze HASH_LENGTH).1

/-- `privateKeyFromSubseed(subSeed, securityLevel)`: squeeze the raw key,
then whiten each 243-trit block with one `reset; absorb; rate`. -/
def privateKeyFromSubseed (subSeed : Trits) (securityLevel : ℕ) : Trits :=
  let keyLength := securityLevel * PRIVATE_KEY_FRAGMENT_LENGTH
  let sponge := (Curl.new 27).absorb subSeed 0 subSeed.length
  let keyTrits := (sponge.squeeze keyLength).1
  ((List.range (keyLength / HASH_LENGTH)).foldl
    (fun (p : Curl × Trits) i =>
      let c := p.1.reset
      let c := c.absorb keyTrits (i * HASH_LENGTH) HASH_LENGTH
      (c, p.2 ++ c.rate HASH_LENGTH))
    (sponge, [])).2

/-- The tryte value the signer reads from the hash for fragment `i`:
`hashTrits[3i] + 3*hashTrits[3i+1] + 9*hashTrits[3i+2]`. -/
def hashTryte (h : Trits) (i : ℕ) : ℤ :=
  h.getD (i * 3) 0 + h.getD (i * 3 + 1) 0 * 3 + h.getD (i * 3 + 2) 0 * 9

/-- `signature(hashTrits, key)`: fragment `i` of the key iterated
`MAX_TRYTE_VALUE - tryte_i` times through `reset; absorb; rate`. -/
def signature (hashTrits key : Trits) : Trits :=
  ((List.range (key.length / HASH_LENGTH)).foldl
    (fun (p : Curl × Trits) i =>
      let buffer0 := (key.drop (i * HASH_LENGTH)).take HASH_LENGTH
      let n := (MAX_TRYTE_VALUE - hashTryte hashTrits i).toNat
      let q := (List.range n).foldl
        (fun (q : Curl × Trits) _ =>
          let c := q.1.reset
          let c := c.absorb q.2 0 q.2.length
          (c, c.rate HASH_LENGTH))
        (p.1, buffer0)
      (q.1, p.2 ++ q.2))
    (Curl.new 27, [])).2

/-- `checksumSecurity(hash)`: 1, 2, 3 for the smallest zero-summing
cumulative third, else 0. -/
def checksumSecurity (hash : Trits) : ℕ :=
  if (hash.take (HASH_LENGTH / 3)).sum = 0 then 1
  else if (hash.take (2 * HASH_LENGTH / 3)).sum = 0 then 2
  else if hash.sum = 0 then 3 else 0

/-- `digestFromSignature(hash, sig)`: fragment `i` of the signature
iterated `tryte_i - MIN_TRYTE_VALUE` times, all fragments absorbed into a
reset sponge, whose rate is the digest. -/
def digestFromSignature (hash sig : Trits) : Trits :=
  let st := (List.range (sig.length / HASH_LENGTH)).foldl
    (fun (p : Curl × Trits) i =>
      let inner0 := (sig.drop (i * HASH_LENGTH)).take HASH_LENGTH
      let n := (hashTryte hash i - MIN_TRYTE_VALUE).toNat
      let q := (List.range n).foldl
        (fun (q : Curl × Trits) _ =>
          let c := q.1.reset
          let c := c.absorb q.2 0 q.2.length
          (c, c.rate HASH_LENGTH))
        (p.1, inner0)
      (q.1, p.2 ++ q.2))
    (Curl.new 27, [])
  let c := st.1.reset
  let c := c.absorb st.2 0 st.2.length
  c.rate HASH_LENGTH

/-! ## Merkle tree (`merkleTree.js`, `merkleNode.js`, `merkleHashGenerator.js`) -/

/-- A node of the Merkle tree: a leaf carries an address and a private
key; an internal node carries a left child, an optional right child and an
address (`MerkleNode` with `privateKeyTrits` present exactly on leaves,
`size` recomputed structurally). -/
inductive MNode where
  | leaf (addressTrits : Trits) (privateKeyTrits : Trits)
  | node (left : MNode) (right : Option MNode) (addressTrits : Trits)
  deriving Repr

/-- The address of a node. -/
def MNode.addr : MNode → Trits
  | .leaf a _ => a
  | .node _ _ a => a

/-- `size`: leaves are set to 1; an internal node sums its children. -/
def MNode.size : MNode → ℕ
  | .leaf _ _ => 1
  | .node l (some r) _ => l.size + r.size
  | .node l none _ => l.size

/-- `generateAddress(seedTrits, index, security)`: the leaf address and
private key. -/
def generateAddress (seedTrits : Trits) (index security : ℕ) : Trits × Trits :=
  let ss := subseed seedTrits index
  (address (digestFromSubseed ss security), privateKeyFromSubseed ss security)

/-- One pairing pass of `buildTree`: consecutive nodes are joined under a
parent whose address hashes `left.address || right.address`; an unpaired
left keeps its own address. -/
def buildPair : List MNode → List MNode
  | l :: r :: rest =>
      let sponge := (Curl.new 27).absorb l.addr 0 l.addr.length
      let sponge := sponge.absorb r.addr 0 r.addr.length
      MNode.node l (some r) (sponge.squeeze HASH_LENGTH).1 :: buildPair rest
  | [l] => [MNode.node l none l.addr]
  | [] => []

/-- The length of a pairing pass. -/
theorem buildPair_length (ns : List MNode) : (buildPair ns).length = (ns.length + 1) / 2 := by
  match ns with
  | l :: r :: rest =>
      simp only [buildPair, List.length_cons, buildPair_length rest]
      omega
  | [l] => simp [buildPair]
  | [] => rfl

/-- `buildTree(leaves)`: pair repeatedly until one node remains.  The
source never reaches an empty list (`count >= 1` everywhere it is
called); on `[]` this model returns a dummy leaf where the source would
recurse forever. -/
def buildTree (ns : List MNode) : MNode :=
  let subs := buildPair ns
  if _h : subs.length = 1 then subs.headD (MNode.leaf [] [])
  else if _h2 : ns.length ≤ 1 then MNode.leaf [] []
  else buildTree subs
termination_by ns.length
decreasing_by
  simp only [buildPair_length] at *
  omega

/-- The `MerkleTree` constructor: `count` leaves generated from
`start`, built into a tree. -/
def merkleTree (seed : List Char) (index count security : ℕ) : MNode :=
  let seedTrits := toTrits seed
  buildTree ((List.range count).map fun i =>
    let p := generateAddress seedTrits (index + i) security
    MNode.leaf p.1 p.2)

/-- One step of the static `MerkleTree.root` loop: reset, absorb
rate/chunk in the order given by bit `i` of the leaf index, double `i`. -/
def merkleRootStep (index : ℕ) (p : Curl × Trits × ℕ) (chunk : Trits) : Curl × Trits × ℕ :=
  let sponge := p.1.reset
  let rate := p.2.1
  let i := p.2.2
  let sponge :=
    if i &&& index = 0 then
      (sponge.absorb rate 0 rate.length).absorb chunk 0 chunk.length
    else
      (sponge.absorb chunk 0 chunk.length).absorb rate 0 rate.length
  (sponge, sponge.rate HASH_LENGTH, i <<< 1)

/-- Split a buffer into consecutive chunks of (at most) 243 trits
(`ceil(length / 243)` chunks, the loop shape of `MerkleTree.root`,
`mask` and `unmask`). -/
def chunks243 (payload : Trits) : List Trits :=
  if payload = [] then []
  else payload.take HASH_LENGTH :: chunks243 (payload.drop HASH_LENGTH)
termination_by payload.length
decreasing_by
  rename_i h
  have : payload.length ≠ 0 := fun hl => h (List.eq_nil_of_length_eq_zero hl)
  simp only [List.length_drop, HASH_LENGTH]
  omega

/-- The static `MerkleTree.root(rate, siblings, index)`: recalculate the
root walking the sibling chunks.  With no siblings it returns the rate of
a fresh (all-zero) sponge. -/
def merkleRoot (rate : Trits) (siblings : Trits) (index : ℕ) : Trits :=
  let st := (chunks243 siblings).foldl (merkleRootStep index) (Curl.new 27, rate, 1)
  st.1.rate HASH_LENGTH

/-- The private key of the left child, when it is a leaf (the
`root.left?.privateKeyTrits` read of `getSubtree`'s 1-leaf case). -/
def MNode.leftLeafKey : MNode → Option Trits
  | .node (.leaf _ k) _ _ => some k
  | _ => none

/-- The descent loop of `getSubtree`: walk towards leaf `index`,
recording at each internal node the sibling of the branch taken (the
node's own left child stands in when the right child is absent).  The
accumulator prepends, which realises the source's final `reverse`. -/
def subtreeGo : MNode → ℕ → List MNode → Option Trits × List MNode
  | .leaf _ k, _, acc => (some k, acc)
  | .node l r _, idx, acc =>
      let size := l.size
      if idx < size then
        subtreeGo l idx ((match r with | some rn => rn | none => l) :: acc)
      else
        match r with
        | some rn => subtreeGo rn (idx - size) (l :: acc)
        | none => (none, l :: acc)

/-- `MerkleTree.prototype.getSubtree(index)`: the leaf's private key and
the sibling path (leaf to root). -/
def getSubtree (root : MNode) (index : ℕ) : Trits × List MNode :=
  if root.size = 1 then (root.leftLeafKey.getD [], [])
  else if index < root.size then
    let p := subtreeGo root index []
    (p.1.getD [], p.2)
  else ([], [])

/-! ## Masking (`mask.js`) -/

/-- `tritSum(left, right)`: balanced-ternary addition with wraparound. -/
def tritSum (left right : ℤ) : ℤ :=
  let sum := left + right
  if sum = 2 then -1 else if sum = -2 then 1 else sum

/-- `maskHash(keyTrits)`: an 81-round sponge absorbs the key and squeezes
one hash. -/
def maskHash (keyTrits : Trits) : Trits :=
  let sponge := (Curl.new 81).absorb keyTrits 0 keyTrits.length
  (sponge.squeeze HASH_LENGTH).1

/-- The per-chunk body of `mask`: absorb the plaintext chunk, emit
`tritSum` of the chunk with the previous key chunk, and roll the key
chunk forward to the new rate. -/
def maskGo (sponge : Curl) (keyChunk : Trits) : List Trits → Trits × Curl
  | [] => ([], sponge)
  | chunk :: rest =>
      let sponge' := sponge.absorb chunk 0 chunk.length
      let state := sponge'.rate HASH_LENGTH
      let cipher := List.zipWith tritSum chunk keyChunk
      let r := maskGo sponge' (setPre (state.take chunk.length) keyChunk) rest
      (cipher ++ r.1, r.2)

/-- `mask(payload, sponge)` (the source mutates `payload` in place and
returns it; here the masked buffer and the advanced sponge). -/
def mask (payload : Trits) (sponge : Curl) : Trits × Curl :=
  maskGo sponge (sponge.rate HASH_LENGTH) (chunks243 payload)

/-- The per-chunk body of `unmask`: read the rate at the chunk start,
subtract it from the ciphertext, then absorb the recovered chunk (the
source's element loop refreshes `state` at chunk starts and absorbs at
chunk ends, which is this grouping). -/
def unmaskGo (sponge : Curl) : List Trits → Trits × Curl
  | [] => ([], sponge)
  | chunk :: rest =>
      let state := sponge.rate HASH_LENGTH
      let rec0 := List.zipWith (fun x s => tritSum x (-s)) chunk state
      let sponge' := sponge.absorb rec0 0 HASH_LENGTH
      let r := unmaskGo sponge' rest
      (rec0 ++ r.1, r.2)

/-- `unmask(payload, sponge)`. -/
def unmask (payload : Trits) (sponge : Curl) : Trits × Curl :=
  unmaskGo sponge (chunks243 payload)

/-! ## Proof-of-work (`hammingDiver.js`) -/

/-- `HammingDiver.MAX_VALUE` (`0xFFFFFFFFFFFFFFFF`). -/
def MAX_VALUE : ℕ := 0xFFFFFFFFFFFFFFFF

/-- `HammingDiver.MIN_VALUE`. -/
def MIN_VALUE : ℕ := 0

/-- `HammingDiver.HIGH_0`. -/
def HIGH_0 : ℕ := 0xB6DB6DB6DB6DB6DB

/-- `HammingDiver.HIGH_1`. -/
def HIGH_1 : ℕ := 0x8FC7E3F1F8FC7E3F

/-- `HammingDiver.HIGH_2`. -/
def HIGH_2 : ℕ := 0xFFC01FFFF803FFFF

/-- `HammingDiver.HIGH_3`. -/
def HIGH_3 : ℕ := 0x003FFFFFFFFFFFFF

/-- `HammingDiver.LOW_0`. -/
def LOW_0 : ℕ := 0xDB6DB6DB6DB6DB6D

/-- `HammingDiver.LOW_1`. -/
def LOW_1 : ℕ := 0xF1F8FC7E3F1F8FC7

/-- `HammingDiver.LOW_2`. -/
def LOW_2 : ℕ := 0x7FFFE00FFFFC01FF

/-- `HammingDiver.LOW_3`. -/
def LOW_3 : ℕ := 0xFFC0000007FFFFFF

/-- A bit-sliced state: 64 ternary lanes per slot, one slot per state
position. -/
structure BState where
  low : List ℕ
  high : List ℕ
  deriving Repr, DecidableEq

/-- `tritsToBigInt(input, length)`: `0 ↦ (MAX, MAX)`, `1 ↦ (MIN, MAX)`,
`-1 ↦ (MAX, MIN)` in every lane; positions past the input are `(MAX,
MAX)`. -/
def tritsToBigInt (input : Trits) (length : ℕ) : BState :=
  let low := input.map fun t => if t = 0 then MAX_VALUE else if t = 1 then MIN_VALUE else MAX_VALUE
  let high := input.map fun t => if t = 0 then MAX_VALUE else if t = 1 then MAX_VALUE else MIN_VALUE
  ⟨low ++ List.replicate (length - input.length) MAX_VALUE,
   high ++ List.replicate (length - input.length) MAX_VALUE⟩

/-- `prepareTrits(trits, offset)`: pack the trits and overwrite four slots
from `offset` with the counter seed words. -/
def prepareTrits (trits : Trits) (offset : ℕ) : BState :=
  let s := tritsToBigInt trits STATE_LENGTH
  ⟨(((s.low.set offset LOW_0).set (offset + 1) LOW_1).set (offset + 2) LOW_2).set (offset + 3) LOW_3,
   (((s.high.set offset HIGH_0).set (offset + 1) HIGH_1).set (offset + 2) HIGH_2).set (offset + 3) HIGH_3⟩

/-- `bitWiseNot(value)`: the 64-bit complement `2^64 - 1 - value`. -/
def bitWiseNot (value : ℕ) : ℕ :=
  2 ^ 64 - 1 - value

/-- The loop of `increment(states, fromIndex, toIndex)`: per slot
`low := high XOR low, high := low`, stopping at the first slot whose old
pair has `high AND NOT low = 0`.  Returns the new state and whether the
loop returned early (the source's return value is `toIndex - fromIndex`
on early return and one more when the loop runs off the end). -/
def incrementGo (s : BState) (i toIndex : ℕ) : BState × Bool :=
  if _h : i < toIndex then
    let lo := s.low.getD i 0
    let hi := s.high.getD i 0
    let s' : BState := ⟨s.low.set i (hi ^^^ lo), s.high.set i lo⟩
    if hi &&& bitWiseNot lo = 0 then (s', true)
    else incrementGo s' (i + 1) toIndex
  else (s, false)
termination_by toIndex - i
decreasing_by omega

/-- `increment`: the new state and the returned count. -/
def increment (s : BState) (fromIndex toIndex : ℕ) : BState × ℕ :=
  let p := incrementGo s fromIndex toIndex
  (p.1, if p.2 then toIndex - fromIndex else toIndex - fromIndex + 1)

/-- One round of `HammingDiver.transform`: reads the scratchpad copy at
the same threaded scanning index as `Curl.transform`. -/
def hRound (s : BState) : BState :=
  let ps := (List.range STATE_LENGTH).map fun i =>
    let alpha := s.low.getD (curlIdx i) 0
    let beta := s.high.getD (curlIdx i) 0
    let gamma := s.high.getD (curlIdx (i + 1)) 0
    let lowXorBeta := (s.low.getD (curlIdx (i + 1)) 0) ^^^ beta
    let delta := (alpha ||| bitWiseNot gamma) &&& lowXorBeta
    (bitWiseNot delta, (alpha ^^^ gamma) ||| delta)
  ⟨ps.map Prod.fst, ps.map Prod.snd⟩

/-- `HammingDiver.transform`: `HammingDiver.ROUNDS` (27) rounds. -/
def hTransform (s : BState) : BState :=
  hRound^[27] s

/-- The `k` loop of `check` for one lane and one third: `-1` when the low
bit is clear, else `+1` when the high bit is clear, else 0, summed over
slots `[81*j, 81*(j+1))`. -/
def laneThirdSum (s : BState) (lane j : ℕ) : ℤ :=
  ((List.range 81).map fun k =>
    if (s.low.getD (j * 81 + k) 0).testBit lane = false then (-1 : ℤ)
    else if (s.high.getD (j * 81 + k) 0).testBit lane = false then 1
    else 0).sum

/-- The `j` loop of `check` for one lane: accumulate third sums; a zero
cumulative sum before the last third rejects the lane (the source sets
`sum = 1` and breaks), the lane passes when the final cumulative sum is
zero. -/
def laneCheckGo (s : BState) (lane securityLevel : ℕ) (j : ℕ) (sum : ℤ) : Bool :=
  if _h : j < securityLevel then
    let sum' := sum + laneThirdSum s lane j
    if sum' = 0 ∧ j + 1 < securityLevel then false
    else laneCheckGo s lane securityLevel (j + 1) sum'
  else sum = 0
termination_by securityLevel - j
decreasing_by omega

/-- Whether `check` accepts a lane. -/
def laneCheck (s : BState) (lane securityLevel : ℕ) : Bool :=
  laneCheckGo s lane securityLevel 0 0

/-- The lane scan of `check`: the first lane in `[0, 64)` that passes,
else 0 (a success in lane 0 is indistinguishable from failure, as in the
source). -/
def hCheckGo (s : BState) (securityLevel i : ℕ) : ℕ :=
  if _h : i < 64 then
    if laneCheck s i securityLevel then i else hCheckGo s securityLevel (i + 1)
  else 0
termination_by 64 - i
decreasing_by omega

/-- `check(securityLevel, low, high)`. -/
def hCheck (s : BState) (securityLevel : ℕ) : ℕ :=
  hCheckGo s securityLevel 0

/-- `trinaryGet(low, high, arrLength, index)`: decode lane `index`. -/
def trinaryGet (s : BState) (arrLength lane : ℕ) : Trits :=
  (List.range arrLength).map fun i =>
    let l := (s.low.getD i 0 >>> lane) &&& 1
    let h := (s.high.getD i 0 >>> lane) &&& 1
    if l = 1 ∧ h = 0 then (-1 : ℤ)
    else if l = 0 ∧ h = 1 then 1
    else 0

/-- One iteration of the `search` while loop (fuelled): increment the
counter, update `size`, transform a copy, check; recurse while the check
reports no lane. -/
def searchGo (fuel : ℕ) (s : BState) (securityLevel offset size : ℕ) : Option Trits :=
  match fuel with
  | 0 => none
  | fuel + 1 =>
      let p := increment s (offset + size * 2 / 3) (offset + size)
      let s' := p.1
      let size' := min (roundThird (offset + size * 2 / 3 + p.2)) HASH_LENGTH - offset
      let t := hTransform s'
      let index := hCheck t securityLevel
      if index = 0 then searchGo fuel s' securityLevel offset size'
      else some (trinaryGet s' size' index)

/-- `HammingDiver.search(trits, securityLevel, length, offset)`, with
fuel for the unbounded while loop. -/
def hammingSearch (fuel : ℕ) (trits : Trits) (securityLevel length offset : ℕ) : Option Trits :=
  let s := prepareTrits trits offset
  searchGo fuel s securityLevel offset (min length HASH_LENGTH - offset)

/-! ## Channel state, message builder (`channel.js`) and parser (`parser.js`) -/

/-- `MamMode`: the strings `"public"`, `"private"`, `"restricted"`. -/
inductive MamMode where
  | pub
  | priv
  | restricted
  deriving Repr, DecidableEq

/-- `IMamChannelState`.  The numeric fields are `ℕ`: every state the code
creates or advances keeps them non-negative. -/
structure ChannelState where
  seed : List Char
  mode : MamMode
  sideKey : Option (List Char)
  security : ℕ
  start : ℕ
  count : ℕ
  nextCount : ℕ
  index : ℕ
  nextRoot : Option (List Char)
  deriving Repr, DecidableEq

/-- `IMamMessage`. -/
structure MamMessage where
  payload : List Char
  root : List Char
  address : List Char
  deriving Repr, DecidableEq

/-- `validateModeKey(mode, sideKey)` (`guards.js`): `true` when the
mode/side-key combination is accepted. -/
def validateModeKey (mode : MamMode) (sideKey : Option (List Char)) : Prop :=
  (mode = MamMode.restricted →
    ∃ k, sideKey = some k ∧ isTrytes k ∧ k.length ≤ 81) ∧
  (mode ≠ MamMode.restricted → sideKey = none ∨ sideKey = some [])

instance (mode : MamMode) (sideKey : Option (List Char)) :
    Decidable (validateModeKey mode sideKey) := by
  unfold validateModeKey; infer_instance

/-- `createChannel(seed, security, mode, sideKey)`: validations, then the
initial state with the side key padded to 81 trytes with `'9'`. -/
def createChannel (seed : List Char) (security : ℕ) (mode : MamMode)
    (sideKey : Option (List Char)) : Option ChannelState :=
  if isHash seed ∧ 1 ≤ security ∧ security ≤ 3 ∧ validateModeKey mode sideKey then
    some
      { seed := seed
        mode := mode
        sideKey :=
          if mode = MamMode.restricted then
            some ((sideKey.getD []) ++ List.replicate (81 - (sideKey.getD []).length) '9')
          else none
        security := security
        start := 0
        count := 1
        nextCount := 1
        index := 0
        nextRoot := none }
  else none

/-- `channelRoot(channelState)` (model of the happy path; the source
throws on `count <= 0` or `security` out of range). -/
def channelRoot (st : ChannelState) : List Char :=
  fromTrits (merkleTree st.seed st.start st.count st.security).addr

/-- The side key trits the builder and the parser absorb:
`sideKey ?? "9".repeat(81)` converted to trits. -/
def channelKeyTrits (sideKey : Option (List Char)) : Trits :=
  toTrits (sideKey.getD (List.replicate 81 '9'))

/-- The part of `createMessage` before the nonce search: the trees, the
pascal header, the absorbs and the masking of `nextRoot || message`.
Returns the payload so far and the sponge. -/
def buildPre (st : ChannelState) (message : List Char) : Trits × Curl :=
  let tree := merkleTree st.seed st.start st.count st.security
  let nextRootTrits := (merkleTree st.seed (st.start + st.count) st.nextCount st.security).addr
  let messageTrits := toTrits message
  let indexTrits := (pascalEncode st.index).getD []
  let messageLengthTrits := (pascalEncode messageTrits.length).getD []
  let sideKeyTrits := channelKeyTrits st.sideKey
  let sponge := (Curl.new 27).absorb sideKeyTrits 0 sideKeyTrits.length
  let sponge := sponge.absorb tree.addr 0 tree.addr.length
  let payload := indexTrits ++ messageLengthTrits
  let sponge := sponge.absorb payload 0 payload.length
  let m := mask (nextRootTrits ++ messageTrits) sponge
  (payload ++ m.1, m.2)

/-- The channel-state advance at the end of `createMessage`. -/
def advanceState (st : ChannelState) (nextRootTrits : Trits) : ChannelState :=
  if st.index = st.count - 1 then
    { st with start := st.nextCount + st.start, index := 0,
              nextRoot := some (fromTrits nextRootTrits) }
  else
    { st with index := st.index + 1, nextRoot := some (fromTrits nextRootTrits) }

/-- The part of `createMessage` after the nonce search, for a given
nonce: mask the nonce, sign, attach siblings, pad, and advance the
state. -/
def buildMessage (st : ChannelState) (message : List Char) (nonce : Trits) :
    MamMessage × ChannelState :=
  let tree := merkleTree st.seed st.start st.count st.security
  let nextRootTrits := (merkleTree st.seed (st.start + st.count) st.nextCount st.security).addr
  let subtree := getSubtree tree st.index
  let pre := buildPre st message
  let mn := mask nonce pre.2
  let payload1 := pre.1 ++ mn.1
  let sig := signature (mn.2.rate HASH_LENGTH) subtree.1
  let subtreeTrits := (subtree.2.map MNode.addr).flatten
  let siblingsCount := subtreeTrits.length / HASH_LENGTH
  let me := mask (sig ++ (pascalEncode siblingsCount).getD [] ++ subtreeTrits) mn.2
  let payload2 := payload1 ++ me.1
  let payload := payload2 ++ List.replicate ((3 - payload2.length % 3) % 3) 0
  let messageAddress := if st.mode = MamMode.pub then tree.addr else maskHash tree.addr
  (⟨fromTrits payload, fromTrits tree.addr, fromTrits messageAddress⟩,
   advanceState st nextRootTrits)

/-- `createMessage(channelState, message)`: validate the message, search
for the nonce on the rate of the pre-nonce sponge, then build.  `none`
when the message is not trytes or the fuelled search does not return. -/
def createMessageF (fuel : ℕ) (st : ChannelState) (message : List Char) :
    Option (MamMessage × ChannelState) :=
  if isTrytes message then
    match hammingSearch fuel ((buildPre st message).2.rate STATE_LENGTH)
        st.security (HASH_LENGTH / 3) 0 with
    | some nonce => some (buildMessage st message nonce)
    | none => none
  else none

/-- `parseMessage(payload, root, channelKey)`: `none` where the source
throws (invalid checksum security, root mismatch) or fails to terminate
(malformed pascal data). -/
def parseMessageF (payload root : List Char) (channelKey : Option (List Char)) :
    Option (List Char × List Char) :=
  let payloadTrits := toTrits payload
  let rootTrits := toTrits root
  let keyTrits := channelKeyTrits channelKey
  match pascalDecode payloadTrits with
  | none => none
  | some (index, indexEnd) =>
    match pascalDecode (payloadTrits.drop indexEnd) with
    | none => none
    | some (messageLength, lengthEnd) =>
      let nextRootStart := indexEnd + lengthEnd
      let messageStart := nextRootStart + HASH_LENGTH
      let messageEnd := messageStart + messageLength.toNat
      let sponge := (Curl.new 27).absorb keyTrits 0 keyTrits.length
      let sponge := sponge.absorb rootTrits 0 rootTrits.length
      let sponge := sponge.absorb payloadTrits 0 nextRootStart
      let u1 := unmask ((payloadTrits.drop nextRootStart).take HASH_LENGTH) sponge
      let nextRoot := u1.1
      let u2 := unmask ((payloadTrits.drop messageStart).take messageLength.toNat) u1.2
      let message := u2.1
      let u3 := unmask ((payloadTrits.drop messageEnd).take (HASH_LENGTH / 3)) u2.2
      let nonce := u3.1
      let hmac := u3.2.rate HASH_LENGTH
      let securityLevel := checksumSecurity hmac
      if securityLevel = 0 then none
      else
        let u4 := unmask (payloadTrits.drop (messageEnd + nonce.length)) u3.2
        let decryptedMetadata := u4.1
        let sig := decryptedMetadata.take (securityLevel * PRIVATE_KEY_FRAGMENT_LENGTH)
        let digest := digestFromSignature hmac sig
        let sponge2 := (Curl.new 27).absorb digest 0 digest.length
        match pascalDecode (decryptedMetadata.drop (securityLevel * PRIVATE_KEY_FRAGMENT_LENGTH)) with
        | none => none
        | some (siblingsCount, siblingsEnd) =>
          let recalculated0 := sponge2.rate HASH_LENGTH
          let recalculatedRoot :=
            if siblingsCount = 0 then recalculated0
            else
              let siblingsStart := securityLevel * PRIVATE_KEY_FRAGMENT_LENGTH + siblingsEnd
              merkleRoot recalculated0
                ((decryptedMetadata.drop siblingsStart).take (siblingsCount.toNat * HASH_LENGTH))
                index.toNat
          if fromTrits recalculatedRoot = root then some (fromTrits message, fromTrits nextRoot)
          else none

/-! ## Basic facts about the sponge -/

theorem curlIdx_eq (n : ℕ) : curlIdx n = 364 * n % 729 := by
  induction n with
  | zero => rfl
  | succ n ih =>
      rw [curlIdx, ih, idxStep]
      rcases Nat.lt_or_ge (364 * n % 729) 365 with h | h
      · rw [if_pos h]; omega
      · rw [if_neg (by omega)]; omega

theorem curlIdx_lt (n : ℕ) : curlIdx n < 729 := by
  rw [curlIdx_eq]; omega

theorem curlIdx_period : curlIdx 729 = 0 := by
  rw [curlIdx_eq]

theorem IsTritVec.getD {s : Trits} (h : IsTritVec s) (i : ℕ) :
    IsTrit (s.getD i 0) := by
  rcases lt_or_le i s.length with hi | hi
  · rw [List.getD_eq_getElem s 0 hi]
    exact h _ (List.getElem_mem hi)
  · rw [List.getD_eq_default s 0 hi]
    decide

theorem truthLookup_trit {a b : ℤ} (ha : IsTrit a) (hb : IsTrit b) :
    IsTrit (truthLookup a b) := by
  rcases ha with h | h | h <;> rcases hb with h' | h' | h' <;> subst h h' <;> decide

theorem curlRound_length (s : Trits) : (curlRound s).length = STATE_LENGTH := by
  simp [curlRound]

theorem curlRound_trits {s : Trits} (h : IsTritVec s) : IsTritVec (curlRound s) := by
  intro x hx
  simp only [curlRound, List.mem_map] at hx
  obtain ⟨i, -, rfl⟩ := hx
  exact truthLookup_trit (h.getD _) (h.getD _)

theorem iterate_curlRound_length (n : ℕ) (s : Trits) :
    (curlRound^[n] s).length = if n = 0 then s.length else STATE_LENGTH := by
  cases n with
  | zero => simp
  | succ n =>
      rw [Function.iterate_succ_apply']
      simp [curlRound_length]

theorem iterate_curlRound_trits {s : Trits} (h : IsTritVec s) (n : ℕ) :
    IsTritVec (curlRound^[n] s) := by
  induction n with
  | zero => simpa
  | succ n ih => rw [Function.iterate_succ_apply']; exact curlRound_trits ih

/-- A well-formed sponge: 729 trits of state. -/
def GoodCurl (c : Curl) : Prop :=
  c.state.length = STATE_LENGTH ∧ IsTritVec c.state

instance (c : Curl) : Decidable (GoodCurl c) := by
  unfold GoodCurl; infer_instance

theorem GoodCurl.new (rounds : ℕ) : GoodCurl (Curl.new rounds) := by
  constructor
  · simp [Curl.new]
  · intro x hx
    simp only [Curl.new, List.mem_replicate] at hx
    right; left; exact hx.2

theorem GoodCurl.reset (c : Curl) : GoodCurl c.reset :=
  GoodCurl.new c.rounds

theorem GoodCurl.transform {c : Curl} (h : GoodCurl c) : GoodCurl c.transform := by
  refine ⟨?_, iterate_curlRound_trits h.2 _⟩
  rw [Curl.transform, iterate_curlRound_length]
  split <;> simp [h.1]

theorem setPre_length {p s : Trits} (h : p.length ≤ s.length) :
    (setPre p s).length = s.length := by
  simp [setPre]
  omega

theorem setPre_trits {p s : Trits} (hp : IsTritVec p) (hs : IsTritVec s) :
    IsTritVec (setPre p s) := by
  intro x hx
  rcases List.mem_append.mp hx with h | h
  · exact hp _ h
  · exact hs _ (List.mem_of_mem_drop h)

theorem take_trits {s : Trits} (h : IsTritVec s) (n : ℕ) : IsTritVec (s.take n) :=
  fun x hx => h x (List.mem_of_mem_take hx)

theorem drop_trits {s : Trits} (h : IsTritVec s) (n : ℕ) : IsTritVec (s.drop n) :=
  fun x hx => h x (List.mem_of_mem_drop hx)

theorem append_trits {a b : Trits} (ha : IsTritVec a) (hb : IsTritVec b) :
    IsTritVec (a ++ b) := by
  intro x hx
  rcases List.mem_append.mp hx with h | h
  · exact ha _ h
  · exact hb _ h

theorem replicate_zero_trits (n : ℕ) : IsTritVec (List.replicate n (0 : ℤ)) := by
  intro x hx
  right; left; exact (List.mem_replicate.mp hx).2

/-- `absorbLoop` for a final (or only) piece: one overwrite and one
transform. -/
theorem absorbLoop_le {c : Curl} {trits : Trits} {offset length : ℕ}
    (h : length ≤ HASH_LENGTH) :
    c.absorbLoop trits offset length =
      Curl.transform ⟨c.rounds, setPre ((trits.drop offset).take length) c.state⟩ := by
  rw [Curl.absorbLoop]
  simp [h, min_eq_left h]

/-- `absorbLoop` for a long buffer: one chunk, then the rest. -/
theorem absorbLoop_gt {c : Curl} {trits : Trits} {offset length : ℕ}
    (h : HASH_LENGTH < length) :
    c.absorbLoop trits offset length =
      (Curl.transform ⟨c.rounds, setPre ((trits.drop offset).take HASH_LENGTH) c.state⟩).absorbLoop
        trits (offset + HASH_LENGTH) (length - HASH_LENGTH) := by
  rw [Curl.absorbLoop]
  have h1 : ¬ length ≤ HASH_LENGTH := by omega
  simp [h1, min_eq_right (le_of_lt h)]

theorem GoodCurl.absorb {c : Curl} (h : GoodCurl c) {trits : Trits}
    (ht : IsTritVec trits) (offset length : ℕ) :
    GoodCurl (c.absorb trits offset length) := by
  rw [Curl.absorb]
  induction length using Nat.strong_induction_on generalizing c offset with
  | _ length ih =>
    rcases le_or_lt length HASH_LENGTH with hle | hgt
    · rw [absorbLoop_le hle]
      refine GoodCurl.transform ⟨?_, ?_⟩
      · rw [setPre_length]
        · exact h.1
        · rw [h.1]
          have := List.length_take_le length (trits.drop offset)
          have h2 : STATE_LENGTH = 729 := by decide
          have h3 : HASH_LENGTH = 243 := by decide
          omega
      · exact setPre_trits (take_trits (drop_trits ht _) _) h.2
    · rw [absorbLoop_gt hgt]
      refine ih _ (by simp only [HASH_LENGTH] at *; omega) ?_ _
      refine GoodCurl.transform ⟨?_, ?_⟩
      · rw [setPre_length]
        · exact h.1
        · rw [h.1]
          have := List.length_take_le HASH_LENGTH (trits.drop offset)
          have h2 : STATE_LENGTH = 729 := by decide
          have h3 : HASH_LENGTH = 243 := by decide
          omega
      · exact setPre_trits (take_trits (drop_trits ht _) _) h.2

theorem Curl.absorb_rounds (c : Curl) (trits : Trits) (offset length : ℕ) :
    (c.absorb trits offset length).rounds = c.rounds := by
  rw [Curl.absorb]
  induction length using Nat.strong_induction_on generalizing c offset with
  | _ length ih =>
    rcases le_or_lt length HASH_LENGTH with hle | hgt
    · rw [absorbLoop_le hle, Curl.transform]
    · rw [absorbLoop_gt hgt]
      rw [ih _ (by simp only [HASH_LENGTH] at *; omega)]
      rfl

theorem squeezeLoop_le {c : Curl} {length : ℕ} (h : length ≤ HASH_LENGTH) :
    c.squeezeLoop length = (c.state.take length, c.transform) := by
  rw [Curl.squeezeLoop]
  simp [h, min_eq_left h]

theorem squeezeLoop_gt {c : Curl} {length : ℕ} (h : HASH_LENGTH < length) :
    c.squeezeLoop length =
      (c.state.take HASH_LENGTH ++ (c.transform.squeezeLoop (length - HASH_LENGTH)).1,
       (c.transform.squeezeLoop (length - HASH_LENGTH)).2) := by
  rw [Curl.squeezeLoop]
  have h1 : ¬ length ≤ HASH_LENGTH := by omega
  simp [h1, min_eq_right (le_of_lt h)]

/-! ## Facts about the trit/tryte codec -/

theorem charTrits_length (ch : Char) : (charTrits ch).length = 3 := by
  rw [charTrits]
  have h : ∀ x ∈ TRYTES_TRITS, List.length x = 3 := by decide
  rcases lt_or_le (ALPHABET.indexOf ch) TRYTES_TRITS.length with hi | hi
  · rw [List.getD_eq_getElem _ _ hi]
    exact h _ (List.getElem_mem hi)
  · rw [List.getD_eq_default _ _ hi]
    rfl

theorem charTrits_trits (ch : Char) : IsTritVec (charTrits ch) := by
  rw [charTrits]
  have h : ∀ x ∈ TRYTES_TRITS, IsTritVec x := by decide
  rcases lt_or_le (ALPHABET.indexOf ch) TRYTES_TRITS.length with hi | hi
  · rw [List.getD_eq_getElem _ _ hi]
    exact h _ (List.getElem_mem hi)
  · rw [List.getD_eq_default _ _ hi]
    decide

theorem toTrits_nil : toTrits [] = [] := rfl

theorem toTrits_cons (ch : Char) (s : List Char) :
    toTrits (ch :: s) = charTrits ch ++ toTrits s := by
  simp [toTrits]

theorem toTrits_append (a b : List Char) :
    toTrits (a ++ b) = toTrits a ++ toTrits b := by
  simp [toTrits]

theorem toTrits_length (s : List Char) : (toTrits s).length = 3 * s.length := by
  induction s with
  | nil => rfl
  | cons ch s ih =>
      rw [toTrits_cons, List.length_append, ih, charTrits_length, List.length_cons]
      ring

theorem toTrits_trits (s : List Char) : IsTritVec (toTrits s) := by
  induction s with
  | nil => intro x hx; cases hx
  | cons ch s ih =>
      rw [toTrits_cons]
      exact append_trits (charTrits_trits ch) ih

theorem toTrits_replicate9 (n : ℕ) :
    toTrits (List.replicate n '9') = List.replicate (3 * n) 0 := by
  induction n with
  | zero => rfl
  | succ n ih =>
      rw [List.replicate_succ, toTrits_cons, ih]
      show List.replicate 3 (0 : ℤ) ++ _ = _
      rw [← List.replicate_add, show 3 + 3 * n = 3 * (n + 1) by ring]

theorem triples_cons3 (a b c : ℤ) (t : Trits) :
    triples (a :: b :: c :: t) = [a, b, c] :: triples t := rfl

theorem triples_append (a b : Trits) (h : a.length % 3 = 0) :
    triples (a ++ b) = triples a ++ triples b := by
  match a with
  | [] => rfl
  | [x] => simp at h
  | [x, y] => simp at h
  | x :: y :: z :: rest =>
      simp only [List.length_cons] at h
      rw [List.cons_append, List.cons_append, List.cons_append,
        triples_cons3, triples_cons3, triples_append rest b (by omega), List.cons_append]

/-- Round trip on one valid triple: `toTrits (tryteBack [a, b, c]) = [a, b, c]`. -/
theorem toTrits_tryteBack {a b c : ℤ} (ha : IsTrit a) (hb : IsTrit b) (hc : IsTrit c) :
    toTrits (tryteBack [a, b, c]) = [a, b, c] := by
  rcases ha with rfl | rfl | rfl <;> rcases hb with rfl | rfl | rfl <;>
    rcases hc with rfl | rfl | rfl <;> decide

theorem toTrits_fromTrits {t : Trits} (ht : IsTritVec t) (h3 : t.length % 3 = 0) :
    toTrits (fromTrits t) = t := by
  match t with
  | [] => rfl
  | [x] => simp at h3
  | [x, y] => simp at h3
  | a :: b :: c :: rest =>
      have ha : IsTrit a := ht a (by simp)
      have hb : IsTrit b := ht b (by simp)
      have hc : IsTrit c := ht c (by simp)
      have hrest : IsTritVec rest := fun x hx => ht x (by simp [hx])
      simp only [List.length_cons] at h3
      rw [fromTrits, triples_cons3, List.map_cons, List.flatten_cons, ← fromTrits,
        toTrits_append, toTrits_tryteBack ha hb hc,
        toTrits_fromTrits hrest (by omega)]
      rfl

/-- Round trip on one alphabet character. -/
theorem tryteBack_charTrits {ch : Char} (h : ch ∈ ALPHABET) :
    tryteBack (charTrits ch) = [ch] := by
  fin_cases h <;> decide

theorem fromTrits_toTrits {s : List Char} (h : ∀ c ∈ s, c ∈ ALPHABET) :
    fromTrits (toTrits s) = s := by
  induction s with
  | nil => rfl
  | cons ch s ih =>
      have h1 : ch ∈ ALPHABET := h ch (by simp)
      have h2 : (charTrits ch).length % 3 = 0 := by rw [charTrits_length]
      rw [toTrits_cons, fromTrits, triples_append _ _ h2, List.map_append, List.flatten_append,
        ← fromTrits, ← fromTrits, ih fun c hc => h c (by simp [hc])]
      have hx : fromTrits (charTrits ch) = tryteBack (charTrits ch) := by
        obtain ⟨a, b, c, hm⟩ := List.length_eq_three.mp (charTrits_length ch)
        rw [hm, fromTrits]
        simp [triples]
      rw [hx, tryteBack_charTrits h1, List.singleton_append]

/-! ## Facts about the pascal codec -/

theorem tritsValue_append (a b : Trits) :
    tritsValue (a ++ b) = tritsValue a + 3 ^ a.length * tritsValue b := by
  induction a with
  | nil => simp [tritsValue]
  | cons t rest ih =>
      rw [List.cons_append, tritsValue, ih, tritsValue]
      rw [List.length_cons]
      ring

theorem tritsValue_replicate_zero (n : ℕ) : tritsValue (List.replicate n 0) = 0 := by
  induction n with
  | zero => rfl
  | succ n ih => rw [List.replicate_succ, tritsValue, ih]; ring

theorem tritsValue_neg (u : Trits) : tritsValue (u.map fun t => -t) = -tritsValue u := by
  induction u with
  | nil => rfl
  | cons t rest ih => rw [List.map_cons, tritsValue, ih, tritsValue]; ring

theorem tritsValue_pos_of_last {u : Trits} (hu : IsTritVec u) (h : u.getLast? = some 1) :
    0 < tritsValue u := by
  match u with
  | [] => simp at h
  | [t] =>
      simp only [List.getLast?_singleton, Option.some_inj] at h
      subst h
      decide
  | t :: s :: rest =>
      have ht : IsTrit t := hu t (by simp)
      have hrest : IsTritVec (s :: rest) := fun x hx => hu x (by simp [hx])
      have hl : (s :: rest).getLast? = some 1 := by
        rw [List.getLast?_cons_cons] at h
        exact h
      have hp := tritsValue_pos_of_last hrest hl
      rw [tritsValue]
      rcases ht with rfl | rfl | rfl <;> omega

/-- `minTrits v b ≤ k + 1` exactly when `2v ≤ (2b+1)·3^k - 1`. -/
theorem minTrits_le_iff (k : ℕ) : ∀ b v : ℕ,
    (minTrits v b ≤ k + 1 ↔ 2 * v + 1 ≤ (2 * b + 1) * 3 ^ k) := by
  induction k with
  | zero =>
      intro b v
      rw [minTrits]
      constructor
      · intro h
        by_contra hc
        rw [if_neg (by omega)] at h
        have : 1 ≤ minTrits v (1 + b * 3) := by
          rw [minTrits]; split <;> omega
        omega
      · intro h
        rw [if_pos (by omega)]
  | succ k ih =>
      intro b v
      rw [minTrits]
      rcases le_or_lt v b with hvb | hvb
      · rw [if_pos hvb]
        constructor
        · intro _
          have h1 : (1 : ℕ) ≤ 3 ^ (k + 1) := Nat.one_le_pow _ _ (by omega)
          have h2 : (2 * b + 1) * 1 ≤ (2 * b + 1) * 3 ^ (k + 1) :=
            Nat.mul_le_mul_left _ h1
          omega
        · intro _; omega
      · rw [if_neg (by omega)]
        have := ih (1 + b * 3) v
        constructor
        · intro h
          have h2 : minTrits v (1 + b * 3) ≤ k + 1 := by omega
          have h3 := this.mp h2
          calc 2 * v + 1 ≤ (2 * (1 + b * 3) + 1) * 3 ^ k := h3
            _ = (2 * b + 1) * 3 ^ (k + 1) := by ring
        · intro h
          have h3 : 2 * v + 1 ≤ (2 * (1 + b * 3) + 1) * 3 ^ k := by
            calc 2 * v + 1 ≤ (2 * b + 1) * 3 ^ (k + 1) := h
              _ = (2 * (1 + b * 3) + 1) * 3 ^ k := by ring
          have := this.mpr h3
          omega

theorem minTrits_pos (v b : ℕ) : 1 ≤ minTrits v b := by
  rw [minTrits]; split
  · omega
  · omega

/-- `minTrits v 1 ≤ n ↔ 2v + 1 ≤ 3^n` for `n ≥ 1`. -/
theorem minTrits_one_le_iff {v n : ℕ} (hn : 1 ≤ n) :
    minTrits v 1 ≤ n ↔ 2 * v + 1 ≤ 3 ^ n := by
  obtain ⟨k, rfl⟩ : ∃ k, n = k + 1 := ⟨n - 1, by omega⟩
  rw [minTrits_le_iff k 1 v]
  constructor
  · intro h; calc 2 * v + 1 ≤ (2 * 1 + 1) * 3 ^ k := h
      _ = 3 ^ (k + 1) := by ring
  · intro h; calc 2 * v + 1 ≤ 3 ^ (k + 1) := h
      _ = (2 * 1 + 1) * 3 ^ k := by ring

/-- The balanced shift of the digit recursion: `(v+1)/3`. -/
theorem minTrits_one_step {v : ℕ} (hv : 2 ≤ v) :
    minTrits v 1 = 1 + minTrits ((v + 1) / 3) 1 := by
  set u := (v + 1) / 3 with hu
  have hb : 3 * u - 1 ≤ v ∧ v ≤ 3 * u + 1 := by omega
  have hu1 : 1 ≤ u := by omega
  have hL := minTrits_pos u 1
  set L := minTrits u 1 with hL'
  have h1 : 2 * u + 1 ≤ 3 ^ L := (minTrits_one_le_iff hL).mp le_rfl
  have h2 : ¬ (L ≥ 2 ∧ 2 * u + 1 ≤ 3 ^ (L - 1)) := by
    rintro ⟨hL2, hc⟩
    have := (minTrits_one_le_iff (by omega : 1 ≤ L - 1)).mpr hc
    omega
  have hup : minTrits v 1 ≤ 1 + L := by
    rw [minTrits_one_le_iff (by omega)]
    calc 2 * v + 1 ≤ 2 * (3 * u + 1) + 1 := by omega
      _ = 3 * (2 * u + 1) := by ring
      _ ≤ 3 * 3 ^ L := by omega
      _ = 3 ^ (1 + L) := by rw [pow_add]; ring
  have hlow : ¬ minTrits v 1 ≤ L := by
    rw [minTrits_one_le_iff (by omega)]
    rcases Nat.lt_or_ge L 2 with hL2 | hL2
    · interval_cases L
      · simp
        omega
    · intro hc
      have h3 : 3 ^ (L - 1) < 2 * u + 1 := by omega
      have h4 : 3 ^ L = 3 * 3 ^ (L - 1) := by
        rw [← pow_succ']
        congr 1
        omega
      -- 2v + 1 ≥ 2(3u - 1) + 1 = 6u - 1 and 2u ≥ 3^(L-1) (parity) gives 2v+1 > 3^L
      have hodd : ¬ 2 ∣ (3 : ℕ) ^ (L - 1) := by
        intro hd
        have := Nat.Prime.dvd_of_dvd_pow (p := 2) (by norm_num) hd
        omega
      have h5 : 3 ^ (L - 1) + 1 ≤ 2 * u := by
        rcases Nat.even_or_odd (3 ^ (L - 1)) with he | ho
        · exact absurd he.two_dvd hodd
        · omega
      omega
  omega

/-- The digit list of a non-negative value: it exists given enough fuel,
its balanced value is the input, it is made of trits, its length is
`minTrits v 1` (for `v ≥ 1`) and its top digit is 1. -/
theorem writeTritsF_spec : ∀ v : ℕ, 1 ≤ v → ∀ fuel : ℕ, v < fuel →
    ∃ w, writeTritsF fuel (v : ℤ) = some w ∧ tritsValue w = v ∧ IsTritVec w ∧
      w.length = minTrits v 1 ∧ w.getLast? = some 1 := by
  intro v hv
  induction v using Nat.strong_induction_on with
  | _ v ih =>
    intro fuel hfuel
    obtain ⟨f, rfl⟩ : ∃ f, fuel = f + 1 := ⟨fuel - 1, by omega⟩
    have hv0 : (v : ℤ) ≠ 0 := by
      simp only [ne_eq, Nat.cast_eq_zero]
      omega
    have hnext : Int.fdiv (v : ℤ) 3 = ((v / 3 : ℕ) : ℤ) := by
      rw [Int.fdiv_eq_ediv _ (by omega)]
      omega
    have hmod : Int.tmod (v : ℤ) 3 = ((v % 3 : ℕ) : ℤ) := by
      rw [Int.tmod_eq_emod (by positivity) (by norm_num)]
      omega
    have hwf : writeTritsF (f + 1) (v : ℤ) =
        (writeTritsF f (if Int.tmod (v : ℤ) 3 > 1 then Int.fdiv (v : ℤ) 3 + 1 else Int.fdiv (v : ℤ) 3)).map
          fun rest => (if Int.tmod (v : ℤ) 3 > 1 then -1 else Int.tmod (v : ℤ) 3) :: rest := by
      rw [writeTritsF, if_neg hv0]
    by_cases hone : v = 1
    · subst hone
      refine ⟨[1], ?_, by decide, by decide, by rw [minTrits]; rfl, rfl⟩
      rw [hwf]
      norm_num [hnext, hmod]
      rw [show Int.tmod 1 3 = 1 from rfl, show Int.fdiv 1 3 = 0 from rfl]
      norm_num
      rw [writeTritsF.eq_def]
      norm_num
    · -- v ≥ 2: recurse on u = (v+1)/3 ≥ 1
      have hv2 : 2 ≤ v := by omega
      set u := (v + 1) / 3 with hu
      have hu1 : 1 ≤ u := by omega
      have hulv : u < v := by omega
      have huf : u < f := by omega
      obtain ⟨w, hw, hval, htr, hlen, hlast⟩ := ih u hulv hu1 f huf
      -- the digit emitted
      have hstep : (if Int.tmod (v : ℤ) 3 > 1 then Int.fdiv (v : ℤ) 3 + 1 else Int.fdiv (v : ℤ) 3) = (u : ℤ) ∧
          (if Int.tmod (v : ℤ) 3 > 1 then (-1 : ℤ) else Int.tmod (v : ℤ) 3) = (v : ℤ) - 3 * u := by
      -- v % 3 = 0, 1: digit v % 3, next v / 3 = u; v % 3 = 2: digit -1, next v/3 + 1 = u
        rw [hnext, hmod]
        have h3 : v % 3 < 3 := Nat.mod_lt _ (by omega)
        have hdm := Nat.div_add_mod v 3
        interval_cases h : v % 3
        · constructor
          · rw [if_neg (by omega)]; congr 1; omega
          · rw [if_neg (by omega)]; push_cast; omega
        · constructor
          · rw [if_neg (by omega)]; congr 1; omega
          · rw [if_neg (by omega)]; push_cast; omega
        · constructor
          · rw [if_pos (by omega)]; push_cast; omega
          · rw [if_pos (by omega)]; push_cast; omega
      refine ⟨(if Int.tmod (v : ℤ) 3 > 1 then -1 else Int.tmod (v : ℤ) 3) :: w, ?_, ?_, ?_, ?_, ?_⟩
      · rw [hwf, hstep.1, hw]; rfl
      · rw [tritsValue, hstep.2, hval]; push_cast; ring
      · intro x hx
        rcases List.mem_cons.mp hx with rfl | hx
        · rw [hstep.2]
          have hb1 : 3 * u ≤ v + 1 := by omega
          have hb2 : v ≤ 3 * u + 1 := by omega
          unfold IsTrit
          omega
        · exact htr x hx
      · rw [List.length_cons, hlen, minTrits_one_step hv2, ← hu]
        omega
      · rw [List.getLast?_cons, hlast]
        simp

theorem foldl_add_map (k : ℕ) (g : ℕ → ℤ) :
    (List.range k).foldl (fun acc i => acc + g i) 0 = ((List.range k).map g).sum := by
  suffices h : ∀ (l : List ℕ) (a : ℤ), l.foldl (fun acc i => acc + g i) a = a + (l.map g).sum by
    rw [h]; ring
  intro l
  induction l with
  | nil => intro a; simp
  | cons x xs ih => intro a; rw [List.foldl_cons, ih]; simp; ring

/-- The per-chunk value sum the decoder reconstructs is the balanced value
of the concatenation. -/
theorem chunkSum : ∀ (k : ℕ) (u : Trits), u.length = 3 * k →
    (((List.range k).map fun i => 27 ^ i * tritsValue ((u.drop (i * 3)).take 3)).sum : ℤ)
      = tritsValue u := by
  intro k
  induction k with
  | zero =>
      intro u hu
      have h : u = [] := List.eq_nil_of_length_eq_zero (by omega)
      subst h
      rfl
  | succ k ih =>
      intro u hu
      match u with
      | a :: b :: c :: u' =>
          have hu' : u'.length = 3 * k := by
            simp only [List.length_cons] at hu; omega
          rw [List.range_succ_eq_map, List.map_cons, List.map_map, List.sum_cons]
          have h0 : ((a :: b :: c :: u').drop (0 * 3)).take 3 = [a, b, c] := rfl
          have hsh : ∀ i : ℕ, ((a :: b :: c :: u').drop ((i + 1) * 3)).take 3
              = (u'.drop (i * 3)).take 3 := by
            intro i
            congr 1
            have h1 : ((a :: b :: c :: u').drop 3).drop (i * 3) = (a :: b :: c :: u').drop (3 + i * 3) :=
              List.drop_drop _ _ _
            rw [show (i + 1) * 3 = 3 + i * 3 by ring, ← h1]
            rfl
          have hrw : (List.range k).map ((fun i => 27 ^ i * tritsValue (((a :: b :: c :: u').drop (i * 3)).take 3)) ∘ Nat.succ)
              = (List.range k).map fun i => 27 * (27 ^ i * tritsValue ((u'.drop (i * 3)).take 3)) := by
            refine List.map_congr_left fun i _ => ?_
            show 27 ^ (i + 1) * tritsValue (((a :: b :: c :: u').drop ((i + 1) * 3)).take 3) = _
            rw [hsh i, pow_succ]
            ring
          rw [h0, hrw, List.sum_map_mul_left, ih u' hu']
          show 1 * tritsValue [a, b, c] + 27 * tritsValue u' = tritsValue (a :: b :: c :: u')
          simp only [tritsValue]
          ring

theorem jsBit_natCast (e : ℕ) (i : ℕ) :
    jsBit (e : ℤ) i = if e.testBit i then 1 else 0 := by
  rw [jsBit]
  have h1 : ((e : ℤ)).emod (2 ^ (i + 1)) = ((e % 2 ^ (i + 1) : ℕ) : ℤ) := by
    push_cast; rfl
  have h2 : (((e % 2 ^ (i + 1) : ℕ) : ℤ)) / ((2 : ℤ) ^ i) = ((e % 2 ^ (i + 1) / 2 ^ i : ℕ) : ℤ) := by
    push_cast; rfl
  rw [h1, h2, pow_succ, Nat.mod_mul_right_div_self, Nat.testBit_to_div_mod]
  rcases Nat.mod_two_eq_zero_or_one (e / 2 ^ i) with h | h <;> simp [h]

/-- One chunk after the encoder's sign pass: negated when its value was
non-negative. -/
def flipChunk (c : Trits) : Trits :=
  if 0 ≤ tritsValue c then c.map fun x => -x else c

/-- The first `k` chunks of the working array after the sign pass. -/
def flippedPre (t : Trits) (k : ℕ) : Trits :=
  ((List.range k).map fun j => flipChunk ((t.drop (3 * j)).take 3)).flatten

theorem flipChunk_length (c : Trits) : (flipChunk c).length = c.length := by
  rw [flipChunk]; split <;> simp

theorem flippedPre_length {t : Trits} {k : ℕ} (h : 3 * k ≤ t.length) :
    (flippedPre t k).length = 3 * k := by
  induction k with
  | zero => rfl
  | succ k ih =>
      rw [flippedPre, List.range_succ, List.map_append, List.flatten_append]
      rw [List.length_append]
      rw [flippedPre] at ih
      rw [ih (by omega)]
      simp only [List.map_cons, List.map_nil, List.flatten_cons, List.flatten_nil,
        List.append_nil, flipChunk_length]
      rw [List.length_take, List.length_drop]
      omega

theorem flippedPre_succ (t : Trits) (k : ℕ) :
    flippedPre t (k + 1) = flippedPre t k ++ flipChunk ((t.drop (3 * k)).take 3) := by
  rw [flippedPre, List.range_succ, List.map_append, List.flatten_append, flippedPre]
  simp

/-- The state of the sign pass: processed chunks flipped in place, the
rest untouched, and the encoding word's bits recording the flips. -/
theorem encodeFlips_spec {t : Trits} {k : ℕ} (h : 3 * k ≤ t.length) :
    (encodeFlips t k).1 = flippedPre t k ++ t.drop (3 * k) ∧
      (encodeFlips t k).2 < 2 ^ k ∧
      (∀ j, ((encodeFlips t k).2).testBit j =
        (decide (j < k) && decide (0 ≤ tritsValue ((t.drop (3 * j)).take 3)))) := by
  induction k with
  | zero =>
      refine ⟨by simp [encodeFlips, flippedPre], by simp [encodeFlips], fun j => by
        simp [encodeFlips]⟩
  | succ k ih =>
      obtain ⟨ih1, ih2, ih3⟩ := ih (by omega)
      have hlenA : (flippedPre t k).length = 3 * k := flippedPre_length (by omega)
      have hchunk : (((encodeFlips t k).1).drop (3 * k)).take 3 = (t.drop (3 * k)).take 3 := by
        rw [ih1]
        rw [show 3 * k = (flippedPre t k).length + 0 by omega, List.drop_append]
        simp
      rw [encodeFlips]
      set p := encodeFlips t k with hp
      by_cases hval : 0 ≤ tritsValue ((t.drop (3 * k)).take 3)
      · rw [if_pos (by rw [show p.1 = (encodeFlips t k).1 from rfl, hchunk]; exact hval)]
        simp only
        refine ⟨?_, ?_, ?_⟩
        · rw [show p.1 = (encodeFlips t k).1 from rfl, hchunk, ih1, flippedPre_succ]
          have htake : ((flippedPre t k ++ t.drop (3 * k)).take (3 * k)) = flippedPre t k := by
            rw [show 3 * k = (flippedPre t k).length from hlenA.symm, List.take_left]
          have hdrop : ((flippedPre t k ++ t.drop (3 * k)).drop (3 * k + 3)) = t.drop (3 * (k + 1)) := by
            rw [show 3 * k + 3 = (flippedPre t k).length + 3 by omega, List.drop_append,
              List.drop_drop, show 3 * k + 3 = 3 * (k + 1) by ring]
          rw [htake, hdrop, flipChunk, if_pos hval]
        · have h1 : p.2 < 2 ^ (k + 1) := lt_of_lt_of_le ih2 (by
            have : (2 : ℕ) ^ k ≤ 2 ^ (k + 1) := Nat.pow_le_pow_right (by omega) (by omega)
            omega)
          have h2 : 1 <<< k < 2 ^ (k + 1) := by
            rw [Nat.shiftLeft_eq, one_mul]
            exact Nat.pow_lt_pow_right (by omega) (by omega)
          exact Nat.or_lt_two_pow h1 h2
        · intro j
          rw [Nat.testBit_lor, ih3, Nat.testBit_shiftLeft]
          rcases Nat.lt_trichotomy j k with hj | rfl | hj
          · have e3 : ¬ (k ≤ j) := by omega
            simp [hj, e3, Nat.lt_succ_of_lt hj]
          · have e1 : ¬ (j < j) := by omega
            have e2 : (1 : ℕ).testBit (j - j) = true := by
              rw [Nat.sub_self]; rfl
            simp [e1, e2, hval]
          · have e1 : ¬ (j < k) := by omega
            have e2 : ¬ (j < k + 1) := by omega
            have e3 : (1 : ℕ).testBit (j - k) = false := by
              rw [Nat.testBit_to_div_mod]
              have h4 : (1 : ℕ) / 2 ^ (j - k) = 0 :=
                Nat.div_eq_of_lt (Nat.one_lt_two_pow (by omega))
              simp [h4]
            simp [e1, e2, e3]
      · rw [if_neg (by rw [show p.1 = (encodeFlips t k).1 from rfl, hchunk]; exact hval)]
        refine ⟨?_, ?_, ?_⟩
        · rw [show p.1 = (encodeFlips t k).1 from rfl, ih1, flippedPre_succ, flipChunk,
            if_neg hval]
          rw [List.append_assoc]
          congr 1
          conv_lhs => rw [← List.take_append_drop 3 (t.drop (3 * k))]
          rw [List.drop_drop, show 3 * k + 3 = 3 * (k + 1) by ring]
        · exact lt_of_lt_of_le ih2 (Nat.pow_le_pow_right (by omega) (by omega))
        · intro j
          rw [ih3]
          rcases Nat.lt_trichotomy j k with hj | rfl | hj
          · simp [hj, Nat.lt_succ_of_lt hj]
          · simp [hval]
          · have h1 : ¬ (j < k) := by omega
            have h2 : ¬ (j < k + 1) := by omega
            simp [h1, h2]

/-- The digit recursion never terminates on negative input: each step
stays negative because `Math.floor` rounds down and the JS remainder of a
negative value is never `2`. -/
theorem writeTritsF_neg : ∀ (fuel : ℕ) (input : ℤ), input < 0 → writeTritsF fuel input = none := by
  intro fuel
  induction fuel with
  | zero =>
      intro input h
      rw [writeTritsF, if_neg (by omega)]
  | succ f ih =>
      intro input h
      have hwf : writeTritsF (f + 1) input =
          (writeTritsF f (if Int.tmod input 3 > 1 then Int.fdiv input 3 + 1 else Int.fdiv input 3)).map
            fun rest => (if Int.tmod input 3 > 1 then -1 else Int.tmod input 3) :: rest := by
        rw [writeTritsF, if_neg (by omega)]
      have hm : ¬ (Int.tmod input 3 > 1) := by
        have h1 : Int.tmod input 3 = -(Int.tmod (-input) 3) := by
          rw [Int.tmod_def, Int.tmod_def, Int.neg_tdiv]
          ring
        have h2 : 0 ≤ Int.tmod (-input) 3 := by
          rw [Int.tmod_eq_emod (by omega) (by norm_num)]
          omega
        omega
      have hd : Int.fdiv input 3 < 0 := by
        rw [Int.fdiv_eq_ediv _ (by omega)]
        omega
      rw [hwf]
      simp only [if_neg hm]
      rw [ih _ hd]
      rfl

theorem placeTrits_eq {w : Trits} {n : ℕ} (h : w.length ≤ n) :
    placeTrits w n = w ++ List.replicate (n - w.length) 0 := by
  rw [placeTrits, List.take_of_length_le h]

theorem placeTrits_length {w : Trits} {n : ℕ} (h : w.length ≤ n) :
    (placeTrits w n).length = n := by
  rw [placeTrits_eq h, List.length_append, List.length_replicate]
  omega

theorem tritsValue_placeTrits {w : Trits} {n : ℕ} (h : w.length ≤ n) :
    tritsValue (placeTrits w n) = tritsValue w := by
  rw [placeTrits_eq h, tritsValue_append, tritsValue_replicate_zero]
  ring

theorem placeTrits_trits {w : Trits} {n : ℕ} (hw : IsTritVec w) : IsTritVec (placeTrits w n) :=
  append_trits (take_trits hw n) (replicate_zero_trits _)

/-- `valueToTrits` on a positive value with enough room: the digit list
followed by zero padding. -/
theorem valueToTritsF_nat (v : ℕ) (hv : 1 ≤ v) (n : ℕ) (hn : minTrits v 1 ≤ n) :
    ∃ w, writeTritsF (v + 1) (v : ℤ) = some w ∧
      valueToTritsF (v + 1) (v : ℤ) n = some (w ++ List.replicate (n - w.length) 0) ∧
      tritsValue w = v ∧ IsTritVec w ∧ w.length = minTrits v 1 ∧ w.getLast? = some 1 := by
  obtain ⟨w, hw, hval, htr, hlen, hlast⟩ := writeTritsF_spec v hv (v + 1) (by omega)
  refine ⟨w, hw, ?_, hval, htr, hlen, hlast⟩
  have h0 : (0 : ℤ) ≤ (v : ℤ) := by positivity
  rw [valueToTritsF, hw]
  simp only [Option.map_some', if_pos h0]
  rw [placeTrits_eq (by omega)]

/-- `valueToTrits 0` is all padding. -/
theorem valueToTritsF_zero (fuel n : ℕ) :
    valueToTritsF (fuel + 1) 0 n = some (List.replicate n 0) := by
  rw [valueToTritsF, writeTritsF, if_pos rfl]
  simp only [Option.map_some', if_pos (le_refl (0 : ℤ))]
  rw [placeTrits_eq (by simp)]
  rfl

/-- Reading a 3-trit chunk inside the left part of an append. -/
theorem chunk_append {A B : Trits} {n : ℕ} (h : n + 3 ≤ A.length) :
    ((A ++ B).drop n).take 3 = (A.drop n).take 3 := by
  rw [List.drop_append_eq_append_drop, show n - A.length = 0 by omega, List.drop_zero,
    List.take_append_eq_append_take, List.length_drop,
    show 3 - (A.length - n) = 0 by omega, List.take_zero, List.append_nil]

/-- Reading a 3-trit chunk inside a take. -/
theorem chunk_take {l : Trits} {n k : ℕ} (h : k + 3 ≤ n) :
    ((l.take n).drop k).take 3 = (l.drop k).take 3 := by
  rw [List.drop_take n k l, List.take_take]
  congr 1
  omega

theorem flipChunk_value (c : Trits) :
    tritsValue (flipChunk c) = if 0 ≤ tritsValue c then -tritsValue c else tritsValue c := by
  by_cases h : 0 ≤ tritsValue c
  · rw [flipChunk, if_pos h, if_pos h, tritsValue_neg]
  · rw [flipChunk, if_neg h, if_neg h]

theorem flipChunk_value_nonpos (c : Trits) : tritsValue (flipChunk c) ≤ 0 := by
  rw [flipChunk_value]
  split <;> omega

/-- Chunk `i` of the flipped prefix is the flip of chunk `i` of the
original array. -/
theorem flippedPre_chunk : ∀ (k : ℕ) {t : Trits}, 3 * k ≤ t.length → ∀ i < k,
    ((flippedPre t k).drop (3 * i)).take 3 = flipChunk ((t.drop (3 * i)).take 3) := by
  intro k
  induction k with
  | zero => intro t _ i hi; omega
  | succ k ih =>
      intro t ht i hi
      rw [flippedPre_succ]
      rcases Nat.lt_or_ge i k with hik | hik
      · rw [chunk_append (by rw [flippedPre_length (by omega)]; omega)]
        exact ih (by omega) i hik
      · have hik' : i = k := by omega
        subst hik'
        have hdl : (flippedPre t i ++ flipChunk ((t.drop (3 * i)).take 3)).drop (3 * i)
            = flipChunk ((t.drop (3 * i)).take 3) := by
          rw [show 3 * i = (flippedPre t i).length from (flippedPre_length (by omega)).symm]
          exact List.drop_left _ _
        rw [hdl]
        have hlen : ((t.drop (3 * i)).take 3).length = 3 := by
          rw [List.length_take, List.length_drop]
          omega
        exact List.take_of_length_le (by rw [flipChunk_length, hlen])

/-- The `end` scan, when the first `j` trytes are non-positive and tryte
`j` is positive: it stops right after tryte `j`. -/
theorem endPosF_spec : ∀ (j : ℕ) (u : Trits) (fuel : ℕ), j < fuel →
    (∀ i < j, tritsValue ((u.drop (3 * i)).take 3) ≤ 0) →
    0 < tritsValue ((u.drop (3 * j)).take 3) →
    endPosF fuel u = some (3 * (j + 1)) := by
  intro j
  induction j with
  | zero =>
      intro u fuel hf _ hpos
      obtain ⟨f, rfl⟩ : ∃ f, fuel = f + 1 := ⟨fuel - 1, by omega⟩
      rw [endPosF, if_pos (by simpa using hpos)]
  | succ j ih =>
      intro u fuel hf hle hpos
      obtain ⟨f, rfl⟩ : ∃ f, fuel = f + 1 := ⟨fuel - 1, by omega⟩
      have hc0 : ¬ (0 < tritsValue (u.take 3)) := by
        have := hle 0 (by omega)
        simpa using this
      have hsh : ∀ i : ℕ, ((u.drop 3).drop (3 * i)).take 3 = (u.drop (3 * (i + 1))).take 3 := by
        intro i
        rw [List.drop_drop, show 3 + 3 * i = 3 * (i + 1) by ring]
      have hrec := ih (u.drop 3) f (by omega)
        (fun i hij => by rw [hsh i]; exact hle (i + 1) (by omega))
        (by rw [hsh j]; exact hpos)
      rw [endPosF, if_neg hc0, hrec]
      show some (3 + 3 * (j + 1)) = some (3 * (j + 1 + 1))
      congr 1
      ring

theorem IsTrit.neg {x : ℤ} (h : IsTrit x) : IsTrit (-x) := by
  rcases h with rfl | rfl | rfl
  · exact Or.inr (Or.inr (by norm_num))
  · exact Or.inr (Or.inl (by norm_num))
  · exact Or.inl rfl

theorem pascalEncode_zero : pascalEncode 0 = some ZERO := by
  rw [pascalEncode, if_pos rfl]

theorem pascalDecode_ZERO (rest : Trits) : pascalDecode (ZERO ++ rest) = some (0, 4) := by
  rw [pascalDecode, if_pos (show (ZERO ++ rest).take 4 = ZERO from rfl)]

/-- `pascalEncode` on a positive value: it succeeds, the output's length is
`encodedLength`, the output is made of trits, and `pascalDecode` recovers
the value and the offset from the output followed by anything. -/
theorem pascalEncode_spec (v : ℕ) (hv : 1 ≤ v) :
    ∃ E, pascalEncode (v : ℤ) = some E ∧ E.length = encodedLength (v : ℤ) ∧
      IsTritVec E ∧
      ∀ rest : Trits, pascalDecode (E ++ rest) = some ((v : ℤ), E.length) := by
  have hv0 : (v : ℤ) ≠ 0 := by
    simp only [ne_eq, Nat.cast_eq_zero]
    omega
  have hna : ((v : ℤ)).natAbs = v := Int.natAbs_ofNat v
  set L := minTrits v 1 with hL
  have hL1 : 1 ≤ L := minTrits_pos v 1
  set n := roundThird L with hn
  have hn3 : n % 3 = 0 := by
    rw [hn, roundThird]
    split <;> omega
  have hLn : L ≤ n ∧ n ≤ L + 2 := by
    rw [hn, roundThird]
    split <;> omega
  set m := n / 3 with hm
  have hnm : n = 3 * m := by omega
  have hm1 : 1 ≤ m := by omega
  have hEL : encodedLength (v : ℤ) = n + m := by
    show roundThird (minTrits ((v : ℤ)).natAbs 1) + roundThird (minTrits ((v : ℤ)).natAbs 1) / 3
      = n + m
    rw [hna, ← hL, ← hn, ← hm]
  obtain ⟨w, hw, hvt, hwval, hwtr, hwlen, hwlast⟩ :=
    valueToTritsF_nat v hv (n + m) (by rw [← hL]; omega)
  have hwL : w.length = L := by rw [hwlen, ← hL]
  set t0 : Trits := w ++ List.replicate (n + m - w.length) 0 with ht0
  have ht0len : t0.length = n + m := by
    rw [ht0, List.length_append, List.length_replicate]
    omega
  have ht0tr : IsTritVec t0 := append_trits hwtr (replicate_zero_trits _)
  obtain ⟨hef1, hef2, hef3⟩ := encodeFlips_spec (t := t0) (k := m - 1) (by rw [ht0len]; omega)
  set t1 := (encodeFlips t0 (m - 1)).1 with ht1
  set e0 := (encodeFlips t0 (m - 1)).2 with he0
  have hfplen : (flippedPre t0 (m - 1)).length = 3 * (m - 1) :=
    flippedPre_length (by rw [ht0len]; omega)
  have ht1len : t1.length = n + m := by
    rw [hef1, List.length_append, hfplen, List.length_drop, ht0len]
    omega
  have ht1tr : IsTritVec t1 := by
    rw [hef1]
    refine append_trits ?_ (drop_trits ht0tr _)
    intro x hx
    rw [flippedPre, List.mem_flatten] at hx
    obtain ⟨c, hc1, hc2⟩ := hx
    rw [List.mem_map] at hc1
    obtain ⟨j, _, rfl⟩ := hc1
    have hch : IsTritVec ((t0.drop (3 * j)).take 3) := take_trits (drop_trits ht0tr _) _
    rw [flipChunk] at hc2
    split at hc2
    · rw [List.mem_map] at hc2
      obtain ⟨y, hy1, rfl⟩ := hc2
      exact (hch y hy1).neg
    · exact hch x hc2
  have hdrop1 : t1.drop (n - 3) = t0.drop (n - 3) := by
    have h1 : t1.drop ((flippedPre t0 (m - 1)).length) = t0.drop (3 * (m - 1)) := by
      rw [hef1, List.drop_left]
    rw [show n - 3 = (flippedPre t0 (m - 1)).length from by rw [hfplen]; omega, h1, hfplen]
  have hdrop0 : t0.drop (n - 3) = w.drop (n - 3) ++ List.replicate (n + m - w.length) 0 := by
    rw [ht0, List.drop_append_eq_append_drop, show n - 3 - w.length = 0 by omega, List.drop_zero]
  have hsne : w.drop (n - 3) ≠ [] := by
    intro hcon
    have := congrArg List.length hcon
    rw [List.length_drop] at this
    simp only [List.length_nil] at this
    omega
  have hslast : (w.drop (n - 3)).getLast? = some 1 := by
    have hw2 := hwlast
    rw [show w = w.take (n - 3) ++ w.drop (n - 3) from (List.take_append_drop _ w).symm,
      List.getLast?_append] at hw2
    cases hbl : (w.drop (n - 3)).getLast? with
    | none => exact absurd (List.getLast?_eq_none_iff.mp hbl) hsne
    | some x =>
        rw [hbl] at hw2
        have h5 : (some x : Option ℤ) = some 1 := hw2
        exact h5
  have hspos : 0 < tritsValue (w.drop (n - 3)) :=
    tritsValue_pos_of_last (drop_trits hwtr _) hslast
  have hfinv : tritsValue ((t1.drop (n - 3)).take n) = tritsValue (w.drop (n - 3)) := by
    rw [hdrop1, hdrop0, List.take_append_eq_append_take,
      List.take_of_length_le (by rw [List.length_drop]; omega),
      tritsValue_append, List.take_replicate, tritsValue_replicate_zero]
    ring
  have hnoflip : ¬ tritsValue ((t1.drop (n - 3)).take n) < 0 := by
    rw [hfinv]
    omega
  have hcsx : ∃ cs, valueToTritsF (e0 + 1) (e0 : ℤ) m = some cs ∧ cs.length = m ∧
      tritsValue cs = (e0 : ℤ) ∧ IsTritVec cs := by
    rcases Nat.eq_zero_or_pos e0 with he | he
    · refine ⟨List.replicate m 0, ?_, by simp, by rw [tritsValue_replicate_zero, he]; simp,
        replicate_zero_trits m⟩
      rw [he]
      simp only [Nat.cast_zero]
      exact valueToTritsF_zero 0 m
    · have hmin : minTrits e0 1 ≤ m := by
        rw [minTrits_one_le_iff (by omega)]
        have h2m : e0 < 2 ^ (m - 1) := hef2
        have h3 : (2 : ℕ) ^ m ≤ 3 ^ m := Nat.pow_le_pow_left (by omega) m
        have h2 : 2 * 2 ^ (m - 1) = 2 ^ m := by
          rw [← pow_succ']
          congr 1
          omega
        omega
      obtain ⟨wc, _, hvtc, hcval, hctr, hclen, _⟩ := valueToTritsF_nat e0 he m hmin
      refine ⟨wc ++ List.replicate (m - wc.length) 0, hvtc, ?_, ?_,
        append_trits hctr (replicate_zero_trits _)⟩
      · rw [List.length_append, List.length_replicate]
        omega
      · rw [tritsValue_append, tritsValue_replicate_zero, hcval]
        ring
  obtain ⟨cs, hcs1, hcs2, hcs3, hcs4⟩ := hcsx
  set E := t1.take n ++ cs with hE
  have hElen : E.length = n + m := by
    rw [hE, List.length_append, List.length_take, ht1len, hcs2]
    omega
  have hEtr : IsTritVec E := append_trits (take_trits ht1tr _) hcs4
  have henc : pascalEncode (v : ℤ) = some E := by
    rw [pascalEncode, if_neg hv0, hna, ← hL, ← hn, hEL, hvt]
    dsimp only
    rw [← hm, ← ht1, ← he0]
    simp only [if_neg hnoflip]
    rw [ht1len, show n + m - n = m by omega, hcs1]
  refine ⟨E, henc, by rw [hElen, hEL], hEtr, ?_⟩
  intro rest
  have hEchunk : ∀ i < m, (((E ++ rest).drop (3 * i)).take 3) = ((t1.drop (3 * i)).take 3) := by
    intro i hi
    rw [hE, List.append_assoc, chunk_append (by rw [List.length_take, ht1len]; omega)]
    exact chunk_take (by omega)
  have hflipchunk : ∀ i < m - 1,
      (t1.drop (3 * i)).take 3 = flipChunk ((t0.drop (3 * i)).take 3) := by
    intro i hi
    rw [hef1, chunk_append (by rw [hfplen]; omega)]
    exact flippedPre_chunk (m - 1) (by rw [ht0len]; omega) i hi
  have hlastchunk : tritsValue ((t1.drop (3 * (m - 1))).take 3) = tritsValue (w.drop (n - 3)) := by
    rw [show 3 * (m - 1) = n - 3 by omega, hdrop1, hdrop0, List.take_append_eq_append_take,
      List.take_of_length_le (by rw [List.length_drop]; omega),
      tritsValue_append, List.take_replicate, tritsValue_replicate_zero]
    ring
  have hlastchunk0 : tritsValue ((t0.drop (3 * (m - 1))).take 3) = tritsValue (w.drop (n - 3)) := by
    rw [show 3 * (m - 1) = n - 3 by omega, hdrop0, List.take_append_eq_append_take,
      List.take_of_length_le (by rw [List.length_drop]; omega),
      tritsValue_append, List.take_replicate, tritsValue_replicate_zero]
    ring
  have hscan' : endPosF ((E ++ rest).length + 1) (E ++ rest) = some n := by
    have hscan := endPosF_spec (m - 1) (E ++ rest) ((E ++ rest).length + 1)
      (by rw [List.length_append, hElen]; omega)
      (fun i hi => by
        rw [hEchunk i (by omega), hflipchunk i hi]
        exact flipChunk_value_nonpos _)
      (by
        rw [hEchunk (m - 1) (by omega), hlastchunk]
        exact hspos)
    rw [hscan]
    congr 1
    omega
  have hZ : ¬ ((E ++ rest).take 4 = ZERO) := by
    intro hcon
    rcases Nat.lt_or_ge m 2 with hm2 | hm2
    · have hm1' : m = 1 := by omega
      have he00 : e0 = 0 := by
        have h1 : e0 < 2 ^ (m - 1) := hef2
        rw [hm1'] at h1
        norm_num at h1
        omega
      have hcl1 : cs.length = 1 := by rw [hcs2, hm1']
      obtain ⟨c, hc⟩ := List.length_eq_one.mp hcl1
      have hc0 : c = 0 := by
        have h2 := hcs3
        rw [hc, he00] at h2
        simpa [tritsValue] using h2
      have hE4 : (E ++ rest).take 4 = E := by
        rw [List.take_append_eq_append_take, List.take_of_length_le (by omega),
          show 4 - E.length = 0 by omega, List.take_zero, List.append_nil]
      rw [hE4] at hcon
      have h3 := congrArg List.getLast? hcon
      rw [hE, hc, hc0, List.getLast?_append] at h3
      simp [ZERO] at h3
    · have hv0' : tritsValue (((E ++ rest).drop (3 * 0)).take 3) ≤ 0 := by
        rw [hEchunk 0 (by omega), hflipchunk 0 (by omega)]
        exact flipChunk_value_nonpos _
      rw [show (3 : ℕ) * 0 = 0 by ring, List.drop_zero] at hv0'
      rw [show (E ++ rest).take 3 = ((E ++ rest).take 4).take 3 from by
          rw [List.take_take]; norm_num, hcon] at hv0'
      norm_num [ZERO, tritsValue] at hv0'
  have hencod : (((E ++ rest).drop n).take m) = cs := by
    have h1 := List.drop_left (t1.take n) (cs ++ rest)
    rw [List.length_take, ht1len, min_eq_left (by omega)] at h1
    rw [hE, List.append_assoc, h1, List.take_append_eq_append_take,
      List.take_of_length_le (by omega), show m - cs.length = 0 by omega,
      List.take_zero, List.append_nil]
  rw [pascalDecode, if_neg hZ, hscan']
  dsimp only
  rw [← hm, hencod, hcs3]
  have hsum : ((List.range m).map fun i => 27 ^ i *
      (if jsBit ((e0 : ℕ) : ℤ) i = 1
        then -tritsValue (((E ++ rest).drop (i * 3)).take 3)
        else tritsValue (((E ++ rest).drop (i * 3)).take 3))).sum = (v : ℤ) := by
    have hmapeq : ((List.range m).map fun i => 27 ^ i *
        (if jsBit ((e0 : ℕ) : ℤ) i = 1
          then -tritsValue (((E ++ rest).drop (i * 3)).take 3)
          else tritsValue (((E ++ rest).drop (i * 3)).take 3)))
        = (List.range m).map fun i => 27 ^ i * tritsValue (((t0.take n).drop (i * 3)).take 3) := by
      refine List.map_congr_left fun i hi => ?_
      rw [List.mem_range] at hi
      rw [show i * 3 = 3 * i by ring, hEchunk i hi, chunk_take (by omega),
        jsBit_natCast, hef3 i]
      rcases Nat.lt_or_ge i (m - 1) with him | him
      · rw [hflipchunk i him]
        by_cases h0i : 0 ≤ tritsValue ((t0.drop (3 * i)).take 3)
        · rw [if_pos (by simp [him, h0i]), flipChunk_value, if_pos h0i]
          ring
        · rw [if_neg (by simp [h0i]), flipChunk_value, if_neg h0i]
      · have hieq : i = m - 1 := by omega
        subst hieq
        rw [if_neg (by simp), hlastchunk, hlastchunk0]
    rw [hmapeq, chunkSum m (t0.take n) (by rw [List.length_take, ht0len]; omega)]
    rw [ht0, List.take_append_eq_append_take, List.take_of_length_le (by omega),
      tritsValue_append, List.take_replicate, tritsValue_replicate_zero, hwval]
    ring
  rw [foldl_add_map m fun i => 27 ^ i *
      (if jsBit ((e0 : ℕ) : ℤ) i = 1
        then -tritsValue (((E ++ rest).drop (i * 3)).take 3)
        else tritsValue (((E ++ rest).drop (i * 3)).take 3))]
  rw [hsum, hElen]

/-- `pascalEncode` diverges (modelled as `none`) on every negative value:
the digit recursion of `writeTrits` never reaches 0 from below. -/
theorem pascalEncode_neg (v : ℤ) (hv : v < 0) : pascalEncode v = none := by
  rw [pascalEncode, if_neg (by omega), valueToTritsF, writeTritsF_neg _ _ hv]
  rfl

/-! ## Facts about masking -/

theorem rate_length {c : Curl} (hc : GoodCurl c) : (c.rate HASH_LENGTH).length = HASH_LENGTH := by
  rw [Curl.rate, List.length_take, hc.1]
  decide

theorem rate_trits {c : Curl} (hc : GoodCurl c) : IsTritVec (c.rate HASH_LENGTH) :=
  take_trits hc.2 _

theorem tritSum_roundtrip {x y : ℤ} (hx : IsTrit x) (hy : IsTrit y) :
    tritSum (tritSum x y) (-y) = x := by
  rcases hx with rfl | rfl | rfl <;> rcases hy with rfl | rfl | rfl <;> decide

/-- Unmasking a masked buffer against the same key recovers the buffer. -/
theorem zip_unmask_mask : ∀ (a b : Trits), IsTritVec a → IsTritVec b → a.length ≤ b.length →
    List.zipWith (fun x s => tritSum x (-s)) (List.zipWith tritSum a b) b = a := by
  intro a
  induction a with
  | nil => intro b _ _ _; rfl
  | cons x a' ih =>
      intro b ha hb hlen
      cases b with
      | nil => simp at hlen
      | cons y b' =>
          rw [List.zipWith_cons_cons, List.zipWith_cons_cons,
            tritSum_roundtrip (ha x (by simp)) (hb y (by simp)),
            ih b' (fun z hz => ha z (by simp [hz])) (fun z hz => hb z (by simp [hz]))
              (by simpa using hlen)]

theorem chunks243_nil : chunks243 [] = [] := by
  rw [chunks243, if_pos rfl]

theorem take_append_len {α : Type} {A B : List α} {n : ℕ} (h : A.length = n) :
    (A ++ B).take n = A := by
  rw [← h]
  exact List.take_left A B

theorem drop_append_len {α : Type} {A B : List α} {n : ℕ} (h : A.length = n) :
    (A ++ B).drop n = B := by
  rw [← h]
  exact List.drop_left A B

theorem chunks243_cons {p : Trits} (h : p ≠ []) :
    chunks243 p = p.take HASH_LENGTH :: chunks243 (p.drop HASH_LENGTH) := by
  rw [chunks243, if_neg h]

theorem maskGo_nil (c : Curl) (k : Trits) : maskGo c k [] = ([], c) := rfl

theorem maskGo_cons (c : Curl) (k chunk : Trits) (rest : List Trits) :
    maskGo c k (chunk :: rest) =
      (List.zipWith tritSum chunk k ++
        (maskGo (c.absorb chunk 0 chunk.length)
          (setPre (((c.absorb chunk 0 chunk.length).rate HASH_LENGTH).take chunk.length) k)
          rest).1,
       (maskGo (c.absorb chunk 0 chunk.length)
          (setPre (((c.absorb chunk 0 chunk.length).rate HASH_LENGTH).take chunk.length) k)
          rest).2) := rfl

theorem unmaskGo_nil (c : Curl) : unmaskGo c [] = ([], c) := rfl

theorem unmaskGo_cons (c : Curl) (chunk : Trits) (rest : List Trits) :
    unmaskGo c (chunk :: rest) =
      (List.zipWith (fun x s => tritSum x (-s)) chunk (c.rate HASH_LENGTH) ++
        (unmaskGo (c.absorb (List.zipWith (fun x s => tritSum x (-s)) chunk (c.rate HASH_LENGTH))
          0 HASH_LENGTH) rest).1,
       (unmaskGo (c.absorb (List.zipWith (fun x s => tritSum x (-s)) chunk (c.rate HASH_LENGTH))
          0 HASH_LENGTH) rest).2) := rfl

/-- Absorbing a short buffer with the full rate length equals absorbing it
with its own length (the `subarray` clamps at the end of the buffer). -/
theorem absorb_clamp {c : Curl} {chunk : Trits} (h : chunk.length ≤ HASH_LENGTH) :
    c.absorb chunk 0 HASH_LENGTH = c.absorb chunk 0 chunk.length := by
  rw [Curl.absorb, Curl.absorb, absorbLoop_le (le_refl _), absorbLoop_le h]
  have h1 : (chunk.drop 0).take HASH_LENGTH = (chunk.drop 0).take chunk.length := by
    rw [List.drop_zero, List.take_of_length_le h, List.take_length]
  rw [h1]

/-- `unmask` run from the same sponge state undoes `mask`: the recovered
buffer is the original payload and the two sponges advance identically. -/
theorem mask_unmask_bounded : ∀ (N : ℕ) (p : Trits), p.length ≤ N → IsTritVec p →
    ∀ c : Curl, GoodCurl c →
    (unmask (mask p c).1 c).1 = p ∧ (unmask (mask p c).1 c).2 = (mask p c).2 := by
  intro N
  induction N with
  | zero =>
      intro p hpN _ c _
      have hpe : p = [] := List.eq_nil_of_length_eq_zero (by omega)
      subst hpe
      have h1 : mask [] c = ([], c) := by rw [mask, chunks243_nil, maskGo_nil]
      have h2 : unmask [] c = ([], c) := by rw [unmask, chunks243_nil, unmaskGo_nil]
      rw [h1, h2]
      exact ⟨rfl, rfl⟩
  | succ N ih =>
      intro p hpN hp c hc
      by_cases hpe : p = []
      · subst hpe
        have h1 : mask [] c = ([], c) := by rw [mask, chunks243_nil, maskGo_nil]
        have h2 : unmask [] c = ([], c) := by rw [unmask, chunks243_nil, unmaskGo_nil]
        rw [h1, h2]
        exact ⟨rfl, rfl⟩
      · have hkey_len : (c.rate HASH_LENGTH).length = HASH_LENGTH := rate_length hc
        have hkey_tr : IsTritVec (c.rate HASH_LENGTH) := rate_trits hc
        have hchunk_tr : IsTritVec (p.take HASH_LENGTH) := take_trits hp _
        have hc' : GoodCurl (c.absorb (p.take HASH_LENGTH) 0 (p.take HASH_LENGTH).length) :=
          GoodCurl.absorb hc hchunk_tr 0 _
        have hcipher_len : (List.zipWith tritSum (p.take HASH_LENGTH) (c.rate HASH_LENGTH)).length
            = (p.take HASH_LENGTH).length := by
          rw [List.length_zipWith, hkey_len, List.length_take]
          omega
        rcases le_or_lt p.length HASH_LENGTH with hple | hpgt
        · -- single, possibly partial, chunk
          have htake : p.take HASH_LENGTH = p := List.take_of_length_le hple
          have hdrop : p.drop HASH_LENGTH = [] := List.drop_eq_nil_of_le hple
          have hm : mask p c = (List.zipWith tritSum p (c.rate HASH_LENGTH),
              c.absorb p 0 p.length) := by
            rw [mask, chunks243_cons hpe, maskGo_cons, hdrop, chunks243_nil, maskGo_nil, htake]
            simp
          rw [hm]
          have hclen : (List.zipWith tritSum p (c.rate HASH_LENGTH)).length = p.length := by
            rw [List.length_zipWith, hkey_len]
            omega
          have hcne : List.zipWith tritSum p (c.rate HASH_LENGTH) ≠ [] := by
            intro hcon
            have := congrArg List.length hcon
            rw [hclen] at this
            simp only [List.length_nil] at this
            exact hpe (List.eq_nil_of_length_eq_zero this)
          have hrec : List.zipWith (fun x s => tritSum x (-s))
              (List.zipWith tritSum p (c.rate HASH_LENGTH)) (c.rate HASH_LENGTH) = p :=
            zip_unmask_mask p _ hp hkey_tr (by omega)
          have hu : unmask (List.zipWith tritSum p (c.rate HASH_LENGTH)) c
              = (p, c.absorb p 0 p.length) := by
            rw [unmask, chunks243_cons hcne,
              List.take_of_length_le (by omega), List.drop_eq_nil_of_le (by omega),
              chunks243_nil, unmaskGo_cons, unmaskGo_nil, hrec, absorb_clamp hple]
            simp
          rw [hu]
          exact ⟨rfl, rfl⟩
        · -- full first chunk, recurse on the rest
          have hchunk_len : (p.take HASH_LENGTH).length = HASH_LENGTH := by
            rw [List.length_take]
            omega
          have hkey' : setPre ((((c.absorb (p.take HASH_LENGTH) 0 (p.take HASH_LENGTH).length).rate
              HASH_LENGTH)).take (p.take HASH_LENGTH).length) (c.rate HASH_LENGTH)
              = (c.absorb (p.take HASH_LENGTH) 0 (p.take HASH_LENGTH).length).rate HASH_LENGTH := by
            rw [List.take_of_length_le (le_of_eq (by rw [rate_length hc', hchunk_len])), setPre,
              List.drop_eq_nil_of_le (le_of_eq (by rw [hkey_len, rate_length hc'])),
              List.append_nil]
          have hm : mask p c = (List.zipWith tritSum (p.take HASH_LENGTH) (c.rate HASH_LENGTH) ++
              (mask (p.drop HASH_LENGTH)
                (c.absorb (p.take HASH_LENGTH) 0 (p.take HASH_LENGTH).length)).1,
              (mask (p.drop HASH_LENGTH)
                (c.absorb (p.take HASH_LENGTH) 0 (p.take HASH_LENGTH).length)).2) := by
            rw [mask, chunks243_cons hpe, maskGo_cons, hkey', mask]
          have hih := ih (p.drop HASH_LENGTH)
            (by rw [List.length_drop]; simp only [HASH_LENGTH] at *; omega)
            (drop_trits hp _) _ hc'
          have hcfull : (List.zipWith tritSum (p.take HASH_LENGTH) (c.rate HASH_LENGTH)).length
              = HASH_LENGTH := by rw [hcipher_len, hchunk_len]
          have hcne : (List.zipWith tritSum (p.take HASH_LENGTH) (c.rate HASH_LENGTH)) ++
              (mask (p.drop HASH_LENGTH)
                (c.absorb (p.take HASH_LENGTH) 0 (p.take HASH_LENGTH).length)).1 ≠ [] := by
            intro hcon
            have := congrArg List.length hcon
            rw [List.length_append, hcfull] at this
            simp only [List.length_nil, HASH_LENGTH] at this
            omega
          have htk : ((List.zipWith tritSum (p.take HASH_LENGTH) (c.rate HASH_LENGTH)) ++
              (mask (p.drop HASH_LENGTH)
                (c.absorb (p.take HASH_LENGTH) 0 (p.take HASH_LENGTH).length)).1).take HASH_LENGTH
              = List.zipWith tritSum (p.take HASH_LENGTH) (c.rate HASH_LENGTH) :=
            take_append_len hcfull
          have hdk : ((List.zipWith tritSum (p.take HASH_LENGTH) (c.rate HASH_LENGTH)) ++
              (mask (p.drop HASH_LENGTH)
                (c.absorb (p.take HASH_LENGTH) 0 (p.take HASH_LENGTH).length)).1).drop HASH_LENGTH
              = (mask (p.drop HASH_LENGTH)
                (c.absorb (p.take HASH_LENGTH) 0 (p.take HASH_LENGTH).length)).1 :=
            drop_append_len hcfull
          have hrec : List.zipWith (fun x s => tritSum x (-s))
              (List.zipWith tritSum (p.take HASH_LENGTH) (c.rate HASH_LENGTH))
              (c.rate HASH_LENGTH) = p.take HASH_LENGTH :=
            zip_unmask_mask _ _ hchunk_tr hkey_tr (by omega)
          have hu : unmask ((List.zipWith tritSum (p.take HASH_LENGTH) (c.rate HASH_LENGTH)) ++
              (mask (p.drop HASH_LENGTH)
                (c.absorb (p.take HASH_LENGTH) 0 (p.take HASH_LENGTH).length)).1) c
              = (p.take HASH_LENGTH ++
                  (unmask (mask (p.drop HASH_LENGTH)
                    (c.absorb (p.take HASH_LENGTH) 0 (p.take HASH_LENGTH).length)).1
                    (c.absorb (p.take HASH_LENGTH) 0 (p.take HASH_LENGTH).length)).1,
                 (unmask (mask (p.drop HASH_LENGTH)
                    (c.absorb (p.take HASH_LENGTH) 0 (p.take HASH_LENGTH).length)).1
                    (c.absorb (p.take HASH_LENGTH) 0 (p.take HASH_LENGTH).length)).2) := by
            rw [unmask, chunks243_cons hcne, htk, hdk, unmaskGo_cons, hrec,
              absorb_clamp (le_of_eq hchunk_len), unmask]
          rw [hm, hu, hih.1, hih.2, List.take_append_drop]
          exact ⟨rfl, rfl⟩

/-- The mask/unmask inverse without the length bound. -/
theorem mask_unmask (p : Trits) (hp : IsTritVec p) (c : Curl) (hc : GoodCurl c) :
    (unmask (mask p c).1 c).1 = p ∧ (unmask (mask p c).1 c).2 = (mask p c).2 :=
  mask_unmask_bounded p.length p (le_refl _) hp c hc

/-! ## Facts about the one-time signatures -/

/-- Concatenation of `k` fragments. -/
def concatFrags (g : ℕ → Trits) (k : ℕ) : Trits :=
  ((List.range k).map g).flatten

/-- One `reset; absorb; rate` step, the fragment-hash all the ISS loops
iterate. -/
def fragHash (x : Trits) : Trits :=
  ((Curl.new 27).absorb x 0 x.length).rate HASH_LENGTH

theorem concatFrags_zero (g : ℕ → Trits) : concatFrags g 0 = [] := rfl

theorem concatFrags_succ (g : ℕ → Trits) (k : ℕ) :
    concatFrags g (k + 1) = concatFrags g k ++ g k := by
  rw [concatFrags, List.range_succ, List.map_append, List.flatten_append, concatFrags]
  simp

theorem concatFrags_succ_front (g : ℕ → Trits) (k : ℕ) :
    concatFrags g (k + 1) = g 0 ++ concatFrags (fun i => g (i + 1)) k := by
  rw [concatFrags, List.range_succ_eq_map, List.map_cons, List.flatten_cons, List.map_map,
    concatFrags]
  rfl

theorem concatFrags_length {g : ℕ → Trits} {k : ℕ}
    (h : ∀ i < k, (g i).length = HASH_LENGTH) :
    (concatFrags g k).length = HASH_LENGTH * k := by
  induction k with
  | zero => rfl
  | succ k ih =>
      rw [concatFrags_succ, List.length_append, ih (fun i hi => h i (by omega)),
        h k (by omega)]
      ring

/-- Reading a `w`-wide fragment inside the left part of an append. -/
theorem frag_append {A B : Trits} {n w : ℕ} (h : n + w ≤ A.length) :
    ((A ++ B).drop n).take w = (A.drop n).take w := by
  rw [List.drop_append_eq_append_drop, show n - A.length = 0 by omega, List.drop_zero,
    List.take_append_eq_append_take, List.length_drop,
    show w - (A.length - n) = 0 by omega, List.take_zero, List.append_nil]

/-- Extracting fragment `i` of a concatenation of 243-trit fragments. -/
theorem concatFrags_frag {g : ℕ → Trits} {k : ℕ}
    (h : ∀ i < k, (g i).length = HASH_LENGTH) :
    ∀ i < k, ((concatFrags g k).drop (i * HASH_LENGTH)).take HASH_LENGTH = g i := by
  induction k with
  | zero => intro i hi; omega
  | succ k ih =>
      intro i hi
      rw [concatFrags_succ]
      rcases Nat.lt_or_ge i k with hik | hik
      · rw [frag_append (by
          rw [concatFrags_length (fun j hj => h j (by omega))]
          have := h i (by omega)
          nlinarith)]
        exact ih (fun j hj => h j (by omega)) i hik
      · have hieq : i = k := by omega
        subst hieq
        have hlen : (concatFrags g i).length = HASH_LENGTH * i :=
          concatFrags_length (fun j hj => h j (by omega))
        rw [show i * HASH_LENGTH = (concatFrags g i).length by rw [hlen]; ring,
          List.drop_left]
        exact List.take_of_length_le (le_of_eq (h i (by omega)))

/-- `absorbLoop` only looks at the buffer from `offset` on. -/
theorem absorbLoop_drop : ∀ (length : ℕ) (c : Curl) (trits : Trits) (offset : ℕ),
    c.absorbLoop trits offset length = c.absorbLoop (trits.drop offset) 0 length := by
  intro length
  induction length using Nat.strong_induction_on with
  | _ length ih =>
    intro c trits offset
    rcases le_or_lt length HASH_LENGTH with hle | hgt
    · rw [absorbLoop_le hle, absorbLoop_le hle, List.drop_zero]
    · rw [absorbLoop_gt hgt, absorbLoop_gt hgt, List.drop_zero,
        ih _ (by simp only [HASH_LENGTH] at *; omega) _ trits (offset + HASH_LENGTH),
        ih _ (by simp only [HASH_LENGTH] at *; omega) _ (trits.drop offset) (0 + HASH_LENGTH),
        List.drop_drop, Nat.zero_add]

/-- Absorbing a full 243-trit block followed by more input equals two
sequential absorbs. -/
theorem absorb_chunk_append {c : Curl} {a b : Trits} (ha : a.length = HASH_LENGTH)
    (hb : b ≠ []) :
    c.absorb (a ++ b) 0 (a.length + b.length) = (c.absorb a 0 a.length).absorb b 0 b.length := by
  have hbpos : 1 ≤ b.length := by
    cases b with
    | nil => exact absurd rfl hb
    | cons x xs => simp
  rw [Curl.absorb, Curl.absorb, Curl.absorb,
    absorbLoop_gt (by omega), absorbLoop_le (le_of_eq ha)]
  rw [List.drop_zero, List.drop_zero, List.take_length, take_append_len ha]
  rw [absorbLoop_drop, Nat.zero_add, drop_append_len ha,
    show a.length + b.length - HASH_LENGTH = b.length by omega]

/-- Absorbing the concatenation of 243-trit fragments equals absorbing
them one after the other. -/
theorem absorb_concat : ∀ (k : ℕ), 1 ≤ k → ∀ (g : ℕ → Trits),
    (∀ i < k, (g i).length = HASH_LENGTH) → ∀ c : Curl,
    c.absorb (concatFrags g k) 0 (concatFrags g k).length =
      (List.range k).foldl (fun c i => c.absorb (g i) 0 (g i).length) c := by
  intro k
  induction k with
  | zero => omega
  | succ k ih =>
      intro _ g hg c
      rcases Nat.eq_zero_or_pos k with rfl | hk
      · rw [show concatFrags g 1 = g 0 ++ [] from rfl, List.append_nil]
        rfl
      · have hbne : concatFrags (fun i => g (i + 1)) k ≠ [] := by
          intro hcon
          have h2 := congrArg List.length hcon
          rw [concatFrags_length (fun j hj => hg (j + 1) (by omega))] at h2
          simp only [List.length_nil, HASH_LENGTH] at h2
          omega
        rw [concatFrags_succ_front, List.length_append,
          absorb_chunk_append (hg 0 (by omega)) hbne,
          ih hk (fun i => g (i + 1)) (fun i hi => hg (i + 1) (by omega)),
          List.range_succ_eq_map, List.foldl_cons, List.foldl_map]

theorem transform_rounds (c : Curl) : c.transform.rounds = c.rounds := rfl

theorem reset_rounds (c : Curl) : c.reset.rounds = c.rounds := rfl

theorem GoodCurl.iterate_transform {c : Curl} (h : GoodCurl c) (n : ℕ) :
    GoodCurl (Curl.transform^[n] c) := by
  induction n with
  | zero => exact h
  | succ n ih =>
      rw [Function.iterate_succ_apply']
      exact ih.transform

theorem concatFrags_congr {g h : ℕ → Trits} {k : ℕ} (he : ∀ i < k, g i = h i) :
    concatFrags g k = concatFrags h k := by
  rw [concatFrags, concatFrags]
  congr 1
  exact List.map_congr_left fun i hi => he i (List.mem_range.mp hi)

/-- `reset; absorb(x, 0, x.length); rate` from any 27-round sponge is the
fragment hash. -/
theorem reset_absorb_rate {c : Curl} (h : c.rounds = 27) (x : Trits) :
    (c.reset.absorb x 0 x.length).rate HASH_LENGTH = fragHash x := by
  rw [show c.reset = Curl.new 27 from by rw [Curl.reset, Curl.new, h], fragHash]

/-- `reset; absorb(buf, off, 243); rate` is the fragment hash of the
243-trit fragment of `buf` at `off`. -/
theorem absorb_offset_rate {c : Curl} (h : c.rounds = 27) (buf : Trits) (off : ℕ) :
    (c.reset.absorb buf off HASH_LENGTH).rate HASH_LENGTH
      = fragHash ((buf.drop off).take HASH_LENGTH) := by
  rw [show c.reset = Curl.new 27 from by rw [Curl.reset, Curl.new, h], fragHash]
  have hx : ((buf.drop off).take HASH_LENGTH).length ≤ HASH_LENGTH := by
    rw [List.length_take]
    omega
  rw [Curl.absorb, Curl.absorb, absorbLoop_le (le_refl _), absorbLoop_le hx,
    List.drop_zero, List.take_length]

theorem reset_absorb_rounds (c : Curl) (x : Trits) (off len : ℕ) :
    (c.reset.absorb x off len).rounds = c.rounds := by
  rw [Curl.absorb_rounds, reset_rounds]

theorem fragHash_good {x : Trits} (hx : IsTritVec x) :
    GoodCurl ((Curl.new 27).absorb x 0 x.length) :=
  GoodCurl.absorb (GoodCurl.new 27) hx 0 _

theorem fragHash_length {x : Trits} (hx : IsTritVec x) : (fragHash x).length = HASH_LENGTH :=
  rate_length (fragHash_good hx)

theorem fragHash_trits {x : Trits} (hx : IsTritVec x) : IsTritVec (fragHash x) :=
  rate_trits (fragHash_good hx)

theorem fragHash_iterate {x : Trits} (hx : IsTritVec x) (hlen : x.length = HASH_LENGTH) :
    ∀ n : ℕ, IsTritVec (fragHash^[n] x) ∧ (fragHash^[n] x).length = HASH_LENGTH := by
  intro n
  induction n with
  | zero => exact ⟨hx, hlen⟩
  | succ n ih =>
      rw [Function.iterate_succ_apply']
      exact ⟨fragHash_trits ih.1, fragHash_length ih.1⟩

/-- Squeezing `243·k` trits: the concatenation of the `k` state blocks,
the sponge transformed between blocks. -/
theorem squeeze_concat : ∀ (k : ℕ), 1 ≤ k → ∀ c : Curl,
    (c.squeeze (HASH_LENGTH * k)).1 =
      concatFrags (fun i => (Curl.transform^[i] c).state.take HASH_LENGTH) k ∧
    (c.squeeze (HASH_LENGTH * k)).2 = Curl.transform^[k] c := by
  intro k
  induction k with
  | zero => omega
  | succ k ih =>
      intro _ c
      rcases Nat.eq_zero_or_pos k with rfl | hk
      · rw [show HASH_LENGTH * 1 = HASH_LENGTH by ring, Curl.squeeze,
          squeezeLoop_le (le_refl _)]
        constructor
        · show c.state.take HASH_LENGTH
            = (Curl.transform^[0] c).state.take HASH_LENGTH ++ []
          rw [Function.iterate_zero_apply, List.append_nil]
        · show c.transform = Curl.transform^[1] c
          rw [Function.iterate_one]
      · have hgt : HASH_LENGTH < HASH_LENGTH * (k + 1) := by
          simp only [HASH_LENGTH]
          omega
        have harith : HASH_LENGTH * (k + 1) - HASH_LENGTH = HASH_LENGTH * k := by
          rw [Nat.mul_succ]
          omega
        obtain ⟨ih1, ih2⟩ := ih hk c.transform
        rw [Curl.squeeze] at ih1 ih2
        rw [Curl.squeeze, squeezeLoop_gt hgt, harith]
        constructor
        · show c.state.take HASH_LENGTH ++ (c.transform.squeezeLoop (HASH_LENGTH * k)).1 = _
          rw [ih1, concatFrags_succ_front, Function.iterate_zero_apply]
          congr 1
        · show (c.transform.squeezeLoop (HASH_LENGTH * k)).2 = _
          rw [ih2, ← Function.iterate_succ_apply]

/-- The inner whitening loop of `signature` and `digestFromSignature`:
`k` iterations of `reset; absorb; rate`. -/
theorem whitenRate_fold (k : ℕ) (c : Curl) (x : Trits) (h : c.rounds = 27) :
    ((List.range k).foldl
      (fun (q : Curl × Trits) _ =>
        let c := q.1.reset
        let c := c.absorb q.2 0 q.2.length
        (c, c.rate HASH_LENGTH)) (c, x)).2 = fragHash^[k] x ∧
    ((List.range k).foldl
      (fun (q : Curl × Trits) _ =>
        let c := q.1.reset
        let c := c.absorb q.2 0 q.2.length
        (c, c.rate HASH_LENGTH)) (c, x)).1.rounds = 27 := by
  induction k with
  | zero => exact ⟨rfl, h⟩
  | succ k ih =>
      obtain ⟨ih1, ih2⟩ := ih
      rw [List.range_succ, List.foldl_append, List.foldl_cons, List.foldl_nil]
      set Q := (List.range k).foldl
        (fun (q : Curl × Trits) _ =>
          let c := q.1.reset
          let c := c.absorb q.2 0 q.2.length
          (c, c.rate HASH_LENGTH)) (c, x) with hQ
      constructor
      · show (Q.1.reset.absorb Q.2 0 Q.2.length).rate HASH_LENGTH = fragHash^[k + 1] x
        rw [reset_absorb_rate ih2, ih1]
        exact (Function.iterate_succ_apply' fragHash k x).symm
      · show (Q.1.reset.absorb Q.2 0 Q.2.length).rounds = 27
        rw [reset_absorb_rounds]
        exact ih2

/-- The inner whitening loop of `digestFromSubseed` (squeeze flavour). -/
theorem digestInner_fold (k : ℕ) (c : Curl) (x : Trits) (h : c.rounds = 27) :
    ((List.range k).foldl digestInner (c, x)).2 = fragHash^[k] x ∧
    ((List.range k).foldl digestInner (c, x)).1.rounds = 27 := by
  induction k with
  | zero => exact ⟨rfl, h⟩
  | succ k ih =>
      obtain ⟨ih1, ih2⟩ := ih
      rw [List.range_succ, List.foldl_append, List.foldl_cons, List.foldl_nil]
      set Q := (List.range k).foldl digestInner (c, x) with hQ
      constructor
      · show ((Q.1.reset.absorb Q.2 0 Q.2.length).squeeze HASH_LENGTH).1 = fragHash^[k + 1] x
        rw [Curl.squeeze, squeezeLoop_le (le_refl _)]
        show (Q.1.reset.absorb Q.2 0 Q.2.length).rate HASH_LENGTH = fragHash^[k + 1] x
        rw [reset_absorb_rate ih2, ih1]
        exact (Function.iterate_succ_apply' fragHash k x).symm
      · show ((Q.1.reset.absorb Q.2 0 Q.2.length).squeeze HASH_LENGTH).2.rounds = 27
        rw [Curl.squeeze, squeezeLoop_le (le_refl _)]
        show (Q.1.reset.absorb Q.2 0 Q.2.length).transform.rounds = 27
        rw [transform_rounds, reset_absorb_rounds]
        exact ih2

/-- The key-whitening loop of `privateKeyFromSubseed`. -/
theorem keyFold_spec (keyTrits : Trits) : ∀ (k : ℕ) (c0 : Curl), c0.rounds = 27 →
    ((List.range k).foldl
      (fun (p : Curl × Trits) i =>
        let c := p.1.reset
        let c := c.absorb keyTrits (i * HASH_LENGTH) HASH_LENGTH
        (c, p.2 ++ c.rate HASH_LENGTH)) (c0, [])).2
      = concatFrags (fun i => fragHash ((keyTrits.drop (i * HASH_LENGTH)).take HASH_LENGTH)) k ∧
    ((List.range k).foldl
      (fun (p : Curl × Trits) i =>
        let c := p.1.reset
        let c := c.absorb keyTrits (i * HASH_LENGTH) HASH_LENGTH
        (c, p.2 ++ c.rate HASH_LENGTH)) (c0, [])).1.rounds = 27 := by
  intro k
  induction k with
  | zero => intro c0 h; exact ⟨rfl, h⟩
  | succ k ih =>
      intro c0 h
      obtain ⟨ih1, ih2⟩ := ih c0 h
      rw [List.range_succ, List.foldl_append, List.foldl_cons, List.foldl_nil]
      set P := (List.range k).foldl
        (fun (p : Curl × Trits) i =>
          let c := p.1.reset
          let c := c.absorb keyTrits (i * HASH_LENGTH) HASH_LENGTH
          (c, p.2 ++ c.rate HASH_LENGTH)) (c0, []) with hP
      constructor
      · show P.2 ++ (P.1.reset.absorb keyTrits (k * HASH_LENGTH) HASH_LENGTH).rate HASH_LENGTH = _
        rw [ih1, absorb_offset_rate ih2, concatFrags_succ]
      · show (P.1.reset.absorb keyTrits (k * HASH_LENGTH) HASH_LENGTH).rounds = 27
        rw [reset_absorb_rounds]
        exact ih2

/-- `privateKeyFromSubseed`: the concatenation of the whitened squeeze
blocks of the subseed sponge. -/
theorem privateKey_spec (ss : Trits) (hss : IsTritVec ss) (L : ℕ) (hL : 1 ≤ L) :
    privateKeyFromSubseed ss L =
      concatFrags (fun i => fragHash
        ((Curl.transform^[i] ((Curl.new 27).absorb ss 0 ss.length)).state.take HASH_LENGTH))
        (L * 27) := by
  have hKL : L * PRIVATE_KEY_FRAGMENT_LENGTH = HASH_LENGTH * (L * 27) := by
    simp only [PRIVATE_KEY_FRAGMENT_LENGTH, HASH_LENGTH]
    ring
  have hdiv : L * PRIVATE_KEY_FRAGMENT_LENGTH / HASH_LENGTH = L * 27 := by
    rw [hKL]
    exact Nat.mul_div_cancel_left _ (by norm_num [HASH_LENGTH])
  have hrounds : ((Curl.new 27).absorb ss 0 ss.length).rounds = 27 := by
    rw [Curl.absorb_rounds]
    rfl
  have hgood : GoodCurl ((Curl.new 27).absorb ss 0 ss.length) :=
    GoodCurl.absorb (GoodCurl.new 27) hss 0 _
  have hKlen : ∀ i : ℕ,
      ((Curl.transform^[i] ((Curl.new 27).absorb ss 0 ss.length)).state.take HASH_LENGTH).length
        = HASH_LENGTH := by
    intro i
    rw [List.length_take, (GoodCurl.iterate_transform hgood i).1]
    decide
  rw [privateKeyFromSubseed]
  dsimp only
  rw [hdiv, hKL,
    (keyFold_spec (((Curl.new 27).absorb ss 0 ss.length).squeeze (HASH_LENGTH * (L * 27))).1
      (L * 27) ((Curl.new 27).absorb ss 0 ss.length) hrounds).1]
  apply concatFrags_congr
  intro i hi
  congr 1
  rw [(squeeze_concat (L * 27) (by omega) ((Curl.new 27).absorb ss 0 ss.length)).1]
  exact concatFrags_frag (fun j _ => hKlen j) i hi

/-- The fragment loop of `signature`. -/
theorem signatureFold_spec (hashTrits key : Trits) : ∀ (k : ℕ) (c0 : Curl), c0.rounds = 27 →
    ((List.range k).foldl
      (fun (p : Curl × Trits) i =>
        let buffer0 := (key.drop (i * HASH_LENGTH)).take HASH_LENGTH
        let n := (MAX_TRYTE_VALUE - hashTryte hashTrits i).toNat
        let q := (List.range n).foldl
          (fun (q : Curl × Trits) _ =>
            let c := q.1.reset
            let c := c.absorb q.2 0 q.2.length
            (c, c.rate HASH_LENGTH))
          (p.1, buffer0)
        (q.1, p.2 ++ q.2)) (c0, [])).2
      = concatFrags (fun i => fragHash^[(MAX_TRYTE_VALUE - hashTryte hashTrits i).toNat]
          ((key.drop (i * HASH_LENGTH)).take HASH_LENGTH)) k ∧
    ((List.range k).foldl
      (fun (p : Curl × Trits) i =>
        let buffer0 := (key.drop (i * HASH_LENGTH)).take HASH_LENGTH
        let n := (MAX_TRYTE_VALUE - hashTryte hashTrits i).toNat
        let q := (List.range n).foldl
          (fun (q : Curl × Trits) _ =>
            let c := q.1.reset
            let c := c.absorb q.2 0 q.2.length
            (c, c.rate HASH_LENGTH))
          (p.1, buffer0)
        (q.1, p.2 ++ q.2)) (c0, [])).1.rounds = 27 := by
  intro k
  induction k with
  | zero => intro c0 h; exact ⟨rfl, h⟩
  | succ k ih =>
      intro c0 h
      obtain ⟨ih1, ih2⟩ := ih c0 h
      rw [List.range_succ, List.foldl_append, List.foldl_cons, List.foldl_nil]
      set P := (List.range k).foldl
        (fun (p : Curl × Trits) i =>
          let buffer0 := (key.drop (i * HASH_LENGTH)).take HASH_LENGTH
          let n := (MAX_TRYTE_VALUE - hashTryte hashTrits i).toNat
          let q := (List.range n).foldl
            (fun (q : Curl × Trits) _ =>
              let c := q.1.reset
              let c := c.absorb q.2 0 q.2.length
              (c, c.rate HASH_LENGTH))
            (p.1, buffer0)
          (q.1, p.2 ++ q.2)) (c0, []) with hP
      obtain ⟨w1, w2⟩ := whitenRate_fold ((MAX_TRYTE_VALUE - hashTryte hashTrits k).toNat) P.1
        ((key.drop (k * HASH_LENGTH)).take HASH_LENGTH) ih2
      constructor
      · show P.2 ++ ((List.range ((MAX_TRYTE_VALUE - hashTryte hashTrits k).toNat)).foldl
            (fun (q : Curl × Trits) _ =>
              let c := q.1.reset
              let c := c.absorb q.2 0 q.2.length
              (c, c.rate HASH_LENGTH))
            (P.1, (key.drop (k * HASH_LENGTH)).take HASH_LENGTH)).2 = _
        rw [ih1, w1, concatFrags_succ]
      · show ((List.range ((MAX_TRYTE_VALUE - hashTryte hashTrits k).toNat)).foldl
            (fun (q : Curl × Trits) _ =>
              let c := q.1.reset
              let c := c.absorb q.2 0 q.2.length
              (c, c.rate HASH_LENGTH))
            (P.1, (key.drop (k * HASH_LENGTH)).take HASH_LENGTH)).1.rounds = 27
        exact w2

/-- `signature` in closed form: fragment `i` of the key iterated
`13 - tryte_i` times. -/
theorem signature_spec (h key : Trits) :
    signature h key = concatFrags (fun i =>
      fragHash^[(MAX_TRYTE_VALUE - hashTryte h i).toNat]
        ((key.drop (i * HASH_LENGTH)).take HASH_LENGTH)) (key.length / HASH_LENGTH) := by
  rw [signature]
  exact (signatureFold_spec h key (key.length / HASH_LENGTH) (Curl.new 27) rfl).1

/-- The fragment loop of `digestFromSignature`. -/
theorem dfsFold_spec (hash sig : Trits) : ∀ (k : ℕ) (c0 : Curl), c0.rounds = 27 →
    ((List.range k).foldl
      (fun (p : Curl × Trits) i =>
        let inner0 := (sig.drop (i * HASH_LENGTH)).take HASH_LENGTH
        let n := (hashTryte hash i - MIN_TRYTE_VALUE).toNat
        let q := (List.range n).foldl
          (fun (q : Curl × Trits) _ =>
            let c := q.1.reset
            let c := c.absorb q.2 0 q.2.length
            (c, c.rate HASH_LENGTH))
          (p.1, inner0)
        (q.1, p.2 ++ q.2)) (c0, [])).2
      = concatFrags (fun i => fragHash^[(hashTryte hash i - MIN_TRYTE_VALUE).toNat]
          ((sig.drop (i * HASH_LENGTH)).take HASH_LENGTH)) k ∧
    ((List.range k).foldl
      (fun (p : Curl × Trits) i =>
        let inner0 := (sig.drop (i * HASH_LENGTH)).take HASH_LENGTH
        let n := (hashTryte hash i - MIN_TRYTE_VALUE).toNat
        let q := (List.range n).foldl
          (fun (q : Curl × Trits) _ =>
            let c := q.1.reset
            let c := c.absorb q.2 0 q.2.length
            (c, c.rate HASH_LENGTH))
          (p.1, inner0)
        (q.1, p.2 ++ q.2)) (c0, [])).1.rounds = 27 := by
  intro k
  induction k with
  | zero => intro c0 h; exact ⟨rfl, h⟩
  | succ k ih =>
      intro c0 h
      obtain ⟨ih1, ih2⟩ := ih c0 h
      rw [List.range_succ, List.foldl_append, List.foldl_cons, List.foldl_nil]
      set P := (List.range k).foldl
        (fun (p : Curl × Trits) i =>
          let inner0 := (sig.drop (i * HASH_LENGTH)).take HASH_LENGTH
          let n := (hashTryte hash i - MIN_TRYTE_VALUE).toNat
          let q := (List.range n).foldl
            (fun (q : Curl × Trits) _ =>
              let c := q.1.reset
              let c := c.absorb q.2 0 q.2.length
              (c, c.rate HASH_LENGTH))
            (p.1, inner0)
          (q.1, p.2 ++ q.2)) (c0, []) with hP
      obtain ⟨w1, w2⟩ := whitenRate_fold ((hashTryte hash k - MIN_TRYTE_VALUE).toNat) P.1
        ((sig.drop (k * HASH_LENGTH)).take HASH_LENGTH) ih2
      constructor
      · show P.2 ++ ((List.range ((hashTryte hash k - MIN_TRYTE_VALUE).toNat)).foldl
            (fun (q : Curl × Trits) _ =>
              let c := q.1.reset
              let c := c.absorb q.2 0 q.2.length
              (c, c.rate HASH_LENGTH))
            (P.1, (sig.drop (k * HASH_LENGTH)).take HASH_LENGTH)).2 = _
        rw [ih1, w1, concatFrags_succ]
      · show ((List.range ((hashTryte hash k - MIN_TRYTE_VALUE).toNat)).foldl
            (fun (q : Curl × Trits) _ =>
              let c := q.1.reset
              let c := c.absorb q.2 0 q.2.length
              (c, c.rate HASH_LENGTH))
            (P.1, (sig.drop (k * HASH_LENGTH)).take HASH_LENGTH)).1.rounds = 27
        exact w2

/-- `digestFromSignature` in closed form: one fragment hash of the
concatenation of the re-iterated signature fragments. -/
theorem digestFromSignature_spec (hash sig : Trits) :
    digestFromSignature hash sig = fragHash (concatFrags (fun i =>
      fragHash^[(hashTryte hash i - MIN_TRYTE_VALUE).toNat]
        ((sig.drop (i * HASH_LENGTH)).take HASH_LENGTH)) (sig.length / HASH_LENGTH)) := by
  obtain ⟨h1, h2⟩ := dfsFold_spec hash sig (sig.length / HASH_LENGTH) (Curl.new 27) rfl
  rw [digestFromSignature]
  dsimp only
  rw [reset_absorb_rate h2, h1]

/-- The outer loop of `digestFromSubseed`: the squeeze sponge advances by
transforms, the whitening sponge keeps 27 rounds, and the collector sponge
absorbs the 27-fold fragment hash of each squeeze block. -/
theorem digestOuterFold_spec : ∀ (k : ℕ) (c1 c2 c3 : Curl) (x : Trits), c2.rounds = 27 →
    ((List.range k).foldl digestOuter (c1, c2, c3, x)).1 = Curl.transform^[k] c1 ∧
    ((List.range k).foldl digestOuter (c1, c2, c3, x)).2.1.rounds = 27 ∧
    ((List.range k).foldl digestOuter (c1, c2, c3, x)).2.2.1 =
      (List.range k).foldl (fun c i =>
        c.absorb (fragHash^[27] ((Curl.transform^[i] c1).state.take HASH_LENGTH)) 0
          (fragHash^[27] ((Curl.transform^[i] c1).state.take HASH_LENGTH)).length) c3 := by
  intro k
  induction k with
  | zero => intro c1 c2 c3 x h; exact ⟨rfl, h, rfl⟩
  | succ k ih =>
      intro c1 c2 c3 x h
      obtain ⟨ih1, ih2, ih3⟩ := ih c1 c2 c3 x h
      rw [List.range_succ, List.foldl_append, List.foldl_cons, List.foldl_nil,
        List.foldl_append, List.foldl_cons, List.foldl_nil]
      set S := (List.range k).foldl digestOuter (c1, c2, c3, x) with hS
      have hcnt : (MAX_TRYTE_VALUE - MIN_TRYTE_VALUE + 1).toNat = 27 := by decide
      have hr1 : (S.1.squeeze HASH_LENGTH).1 = (Curl.transform^[k] c1).state.take HASH_LENGTH := by
        rw [Curl.squeeze, squeezeLoop_le (le_refl _), ih1]
      have hinner := digestInner_fold ((MAX_TRYTE_VALUE - MIN_TRYTE_VALUE + 1).toNat) S.2.1
        (S.1.squeeze HASH_LENGTH).1 ih2
      refine ⟨?_, ?_, ?_⟩
      · show (S.1.squeeze HASH_LENGTH).2 = Curl.transform^[k + 1] c1
        rw [Curl.squeeze, squeezeLoop_le (le_refl _)]
        show S.1.transform = Curl.transform^[k + 1] c1
        rw [ih1]
        exact (Function.iterate_succ_apply' Curl.transform k c1).symm
      · show ((List.range ((MAX_TRYTE_VALUE - MIN_TRYTE_VALUE + 1).toNat)).foldl digestInner
            (S.2.1, (S.1.squeeze HASH_LENGTH).1)).1.rounds = 27
        exact hinner.2
      · show S.2.2.1.absorb
            ((List.range ((MAX_TRYTE_VALUE - MIN_TRYTE_VALUE + 1).toNat)).foldl digestInner
              (S.2.1, (S.1.squeeze HASH_LENGTH).1)).2 0
            ((List.range ((MAX_TRYTE_VALUE - MIN_TRYTE_VALUE + 1).toNat)).foldl digestInner
              (S.2.1, (S.1.squeeze HASH_LENGTH).1)).2.length = _
        rw [hinner.1, hcnt, hr1, ih3]

/-- `digestFromSubseed` in closed form: one fragment hash of the
concatenation of the whitened squeeze blocks, each iterated 27 times. -/
theorem digestFromSubseed_spec (ss : Trits) (hss : IsTritVec ss) (L : ℕ) (hL : 1 ≤ L) :
    digestFromSubseed ss L = fragHash (concatFrags (fun i =>
      fragHash^[27]
        ((Curl.transform^[i] ((Curl.new 27).absorb ss 0 ss.length)).state.take HASH_LENGTH))
      (L * 27)) := by
  have hdiv : L * PRIVATE_KEY_FRAGMENT_LENGTH / HASH_LENGTH = L * 27 := by
    rw [show L * PRIVATE_KEY_FRAGMENT_LENGTH = HASH_LENGTH * (L * 27) from by
      simp only [PRIVATE_KEY_FRAGMENT_LENGTH, HASH_LENGTH]; ring]
    exact Nat.mul_div_cancel_left _ (by norm_num [HASH_LENGTH])
  have hgood : GoodCurl ((Curl.new 27).absorb ss 0 ss.length) :=
    GoodCurl.absorb (GoodCurl.new 27) hss 0 _
  have hg : ∀ i < L * 27,
      (fragHash^[27]
        ((Curl.transform^[i] ((Curl.new 27).absorb ss 0 ss.length)).state.take
          HASH_LENGTH)).length = HASH_LENGTH := by
    intro i _
    refine (fragHash_iterate (take_trits (GoodCurl.iterate_transform hgood i).2 _) ?_ 27).2
    rw [List.length_take, (GoodCurl.iterate_transform hgood i).1]
    decide
  obtain ⟨h1, h2, h3⟩ := digestOuterFold_spec (L * 27) ((Curl.new 27).absorb ss 0 ss.length)
    (Curl.new 27) (Curl.new 27) (List.replicate HASH_LENGTH 0) rfl
  rw [digestFromSubseed]
  rw [hdiv, h3, ← absorb_concat (L * 27) (by omega) _ hg (Curl.new 27)]
  rw [Curl.squeeze, squeezeLoop_le (le_refl _)]
  rfl

theorem concatFrags_trits {g : ℕ → Trits} {k : ℕ} (hg : ∀ i < k, IsTritVec (g i)) :
    IsTritVec (concatFrags g k) := by
  intro x hx
  rw [concatFrags, List.mem_flatten] at hx
  obtain ⟨l, hl, hxl⟩ := hx
  rw [List.mem_map] at hl
  obtain ⟨i, hi, rfl⟩ := hl
  rw [List.mem_range] at hi
  exact hg i hi x hxl

/-- The verifier inverts the signer: `digestFromSignature` applied to a
signature made with `privateKeyFromSubseed` recovers the subseed's
digest; the signature is a trit vector of the key's length. -/
theorem sig_digest_eq (h ss : Trits) (hss : IsTritVec ss) (L : ℕ) (hL1 : 1 ≤ L)
    (htv : ∀ i < L * 27, MIN_TRYTE_VALUE ≤ hashTryte h i ∧ hashTryte h i ≤ MAX_TRYTE_VALUE) :
    digestFromSignature h (signature h (privateKeyFromSubseed ss L))
      = digestFromSubseed ss L ∧
    (signature h (privateKeyFromSubseed ss L)).length = HASH_LENGTH * (L * 27) ∧
    IsTritVec (signature h (privateKeyFromSubseed ss L)) := by
  have hgood : GoodCurl ((Curl.new 27).absorb ss 0 ss.length) :=
    GoodCurl.absorb (GoodCurl.new 27) hss 0 _
  have hKtr : ∀ i : ℕ, IsTritVec
      ((Curl.transform^[i] ((Curl.new 27).absorb ss 0 ss.length)).state.take HASH_LENGTH) :=
    fun i => take_trits (GoodCurl.iterate_transform hgood i).2 _
  have hKlen : ∀ i : ℕ,
      ((Curl.transform^[i] ((Curl.new 27).absorb ss 0 ss.length)).state.take HASH_LENGTH).length
        = HASH_LENGTH := by
    intro i
    rw [List.length_take, (GoodCurl.iterate_transform hgood i).1]
    decide
  have hkey := privateKey_spec ss hss L hL1
  have hkeyfraglen : ∀ i < L * 27,
      ((fun i => fragHash
        ((Curl.transform^[i] ((Curl.new 27).absorb ss 0 ss.length)).state.take HASH_LENGTH)) i).length
        = HASH_LENGTH := fun i _ => fragHash_length (hKtr i)
  have hkeylen : (privateKeyFromSubseed ss L).length = HASH_LENGTH * (L * 27) := by
    rw [hkey]
    exact concatFrags_length hkeyfraglen
  have hkeydiv : (privateKeyFromSubseed ss L).length / HASH_LENGTH = L * 27 := by
    rw [hkeylen]
    exact Nat.mul_div_cancel_left _ (by norm_num [HASH_LENGTH])
  have hkeyfrag : ∀ i < L * 27,
      ((privateKeyFromSubseed ss L).drop (i * HASH_LENGTH)).take HASH_LENGTH
        = fragHash
          ((Curl.transform^[i] ((Curl.new 27).absorb ss 0 ss.length)).state.take HASH_LENGTH) := by
    intro i hi
    rw [hkey]
    exact concatFrags_frag hkeyfraglen i hi
  have hsig' := signature_spec h (privateKeyFromSubseed ss L)
  rw [hkeydiv] at hsig'
  have hsig : signature h (privateKeyFromSubseed ss L) = concatFrags (fun i =>
      fragHash^[(MAX_TRYTE_VALUE - hashTryte h i).toNat + 1]
        ((Curl.transform^[i] ((Curl.new 27).absorb ss 0 ss.length)).state.take HASH_LENGTH))
      (L * 27) := by
    rw [hsig']
    apply concatFrags_congr
    intro i hi
    rw [hkeyfrag i hi]
    exact (Function.iterate_succ_apply fragHash _ _).symm
  have hsigfraglen : ∀ i < L * 27,
      ((fun i => fragHash^[(MAX_TRYTE_VALUE - hashTryte h i).toNat + 1]
        ((Curl.transform^[i] ((Curl.new 27).absorb ss 0 ss.length)).state.take HASH_LENGTH)) i).length
        = HASH_LENGTH :=
    fun i _ => (fragHash_iterate (hKtr i) (hKlen i) _).2
  have hsiglen : (signature h (privateKeyFromSubseed ss L)).length = HASH_LENGTH * (L * 27) := by
    rw [hsig]
    exact concatFrags_length hsigfraglen
  have hsigdiv : (signature h (privateKeyFromSubseed ss L)).length / HASH_LENGTH = L * 27 := by
    rw [hsiglen]
    exact Nat.mul_div_cancel_left _ (by norm_num [HASH_LENGTH])
  have hsigfrag : ∀ i < L * 27,
      ((signature h (privateKeyFromSubseed ss L)).drop (i * HASH_LENGTH)).take HASH_LENGTH
        = fragHash^[(MAX_TRYTE_VALUE - hashTryte h i).toNat + 1]
          ((Curl.transform^[i] ((Curl.new 27).absorb ss 0 ss.length)).state.take HASH_LENGTH) := by
    intro i hi
    rw [hsig]
    exact concatFrags_frag hsigfraglen i hi
  have hdfs := digestFromSignature_spec h (signature h (privateKeyFromSubseed ss L))
  rw [hsigdiv] at hdfs
  refine ⟨?_, hsiglen, ?_⟩
  · rw [hdfs, digestFromSubseed_spec ss hss L hL1]
    congr 1
    apply concatFrags_congr
    intro i hi
    rw [hsigfrag i hi, ← Function.iterate_add_apply]
    congr 1
    obtain ⟨htv1, htv2⟩ := htv i hi
    simp only [MIN_TRYTE_VALUE, MAX_TRYTE_VALUE] at htv1 htv2 ⊢
    omega
  · rw [hsig]
    exact concatFrags_trits fun i hi => (fragHash_iterate (hKtr i) (hKlen i) _).1

/-- C3: for a 243-trit hash whose tryte values lie in `[-13, 13]`, a
subseed and a security level in `{1, 2, 3}`, verifying a signature made
with `privateKeyFromSubseed` recovers exactly the digest of the subseed:
`digestFromSignature(h, signature(h, key)) = digestFromSubseed(ss, L)`. -/
theorem claim_C3_signature_roundtrip (h ss : Trits) (hh : IsTritVec h)
    (hlen : h.length = HASH_LENGTH) (hss : IsTritVec ss) (L : ℕ) (hL1 : 1 ≤ L) (hL3 : L ≤ 3)
    (htv : ∀ i < L * 27, MIN_TRYTE_VALUE ≤ hashTryte h i ∧ hashTryte h i ≤ MAX_TRYTE_VALUE) :
    digestFromSignature h (signature h (privateKeyFromSubseed ss L))
      = digestFromSubseed ss L :=
  (sig_digest_eq h ss hss L hL1 htv).1

set_option maxRecDepth 8192

theorem claim_C3_signature_roundtrip_witness :
    digestFromSignature (List.replicate HASH_LENGTH (0 : ℤ))
        (signature (List.replicate HASH_LENGTH (0 : ℤ)) (privateKeyFromSubseed [] 1))
      = digestFromSubseed [] 1 :=
  claim_C3_signature_roundtrip (List.replicate HASH_LENGTH 0) [] (by decide)
    (by rw [List.length_replicate]) (by decide) 1 (by decide) (by decide) (by decide)

/-! ## Facts about the bit-sliced Hamming diver -/

theorem getD_map_range {α : Type} (f : ℕ → α) {n i : ℕ} (h : i < n) (d : α) :
    ((List.range n).map f).getD i d = f i := by
  rw [List.getD_eq_getElem?_getD, List.getElem?_map, List.getElem?_range h]
  rfl

/-- One lane of a bit-sliced state encodes a trit buffer: the low bit is
clear exactly on `1`, the high bit exactly on `-1`, and every word fits in
64 bits. -/
def SliceRep (s : BState) (w : Trits) (lane : ℕ) : Prop :=
  s.low.length = STATE_LENGTH ∧ s.high.length = STATE_LENGTH ∧
  (∀ i < STATE_LENGTH, s.low.getD i 0 < 2 ^ 64 ∧ s.high.getD i 0 < 2 ^ 64) ∧
  ∀ i < STATE_LENGTH,
    (s.low.getD i 0).testBit lane = decide (w.getD i 0 ≠ 1) ∧
    (s.high.getD i 0).testBit lane = decide (w.getD i 0 ≠ -1)

theorem bitWiseNot_lt (v : ℕ) : bitWiseNot v < 2 ^ 64 := by
  rw [bitWiseNot]
  omega

theorem bitWiseNot_testBit {v lane : ℕ} (hv : v < 2 ^ 64) (hl : lane < 64) :
    (bitWiseNot v).testBit lane = !v.testBit lane := by
  rw [bitWiseNot, show (2 : ℕ) ^ 64 - 1 - v = 2 ^ 64 - (v + 1) by omega,
    Nat.testBit_two_pow_sub_succ hv, decide_eq_true hl, Bool.true_and]

theorem shift_and_one (x lane : ℕ) :
    (x >>> lane) &&& 1 = if x.testBit lane then 1 else 0 := by
  rw [Nat.and_one_is_mod, Nat.shiftRight_eq_div_pow, Nat.testBit_to_div_mod]
  rcases Nat.mod_two_eq_zero_or_one (x / 2 ^ lane) with h | h <;> simp [h]

/-- The per-lane truth of one bit-sliced round step against the Curl truth
table, on the `0 ↦ (1,1)`, `1 ↦ (0,1)`, `-1 ↦ (1,0)` encoding. -/
theorem slice_round_core {a b : ℤ} (ha : IsTrit a) (hb : IsTrit b) :
    ((!((decide (a ≠ 1) || !decide (b ≠ -1)) && (decide (b ≠ 1) != decide (a ≠ -1))))
        = decide (truthLookup a b ≠ 1)) ∧
    (((decide (a ≠ 1) != decide (b ≠ -1)) ||
        ((decide (a ≠ 1) || !decide (b ≠ -1)) && (decide (b ≠ 1) != decide (a ≠ -1))))
        = decide (truthLookup a b ≠ -1)) := by
  rcases ha with rfl | rfl | rfl <;> rcases hb with rfl | rfl | rfl <;> exact ⟨by decide, by decide⟩

theorem hRound_low_getD (s : BState) {i : ℕ} (h : i < STATE_LENGTH) :
    (hRound s).low.getD i 0 =
      bitWiseNot ((s.low.getD (curlIdx i) 0 ||| bitWiseNot (s.high.getD (curlIdx (i + 1)) 0)) &&&
        (s.low.getD (curlIdx (i + 1)) 0 ^^^ s.high.getD (curlIdx i) 0)) := by
  rw [hRound]
  dsimp only
  rw [List.map_map, getD_map_range _ h]
  rfl

theorem hRound_high_getD (s : BState) {i : ℕ} (h : i < STATE_LENGTH) :
    (hRound s).high.getD i 0 =
      (s.low.getD (curlIdx i) 0 ^^^ s.high.getD (curlIdx (i + 1)) 0) |||
        ((s.low.getD (curlIdx i) 0 ||| bitWiseNot (s.high.getD (curlIdx (i + 1)) 0)) &&&
          (s.low.getD (curlIdx (i + 1)) 0 ^^^ s.high.getD (curlIdx i) 0)) := by
  rw [hRound]
  dsimp only
  rw [List.map_map, getD_map_range _ h]
  rfl

theorem hRound_length (s : BState) :
    (hRound s).low.length = STATE_LENGTH ∧ (hRound s).high.length = STATE_LENGTH := by
  rw [hRound]
  constructor <;> simp

theorem curlRound_getD (w : Trits) {i : ℕ} (h : i < STATE_LENGTH) :
    (curlRound w).getD i 0
      = truthLookup (w.getD (curlIdx i) 0) (w.getD (curlIdx (i + 1)) 0) := by
  rw [curlRound, getD_map_range _ h]

/-- One bit-sliced round tracks one Curl round on every lane. -/
theorem hRound_rep {s : BState} {w : Trits} {lane : ℕ} (hl : lane < 64)
    (hw : IsTritVec w) (hrep : SliceRep s w lane) :
    SliceRep (hRound s) (curlRound w) lane := by
  obtain ⟨hl1, hl2, hbd, hbits⟩ := hrep
  have hb : ∀ j < STATE_LENGTH, s.low.getD j 0 < 2 ^ 64 ∧ s.high.getD j 0 < 2 ^ 64 := hbd
  refine ⟨(hRound_length s).1, (hRound_length s).2, ?_, ?_⟩
  · intro i hi
    rw [hRound_low_getD s hi, hRound_high_getD s hi]
    have h1 := hb _ (curlIdx_lt i)
    have h2 := hb _ (curlIdx_lt (i + 1))
    constructor
    · exact bitWiseNot_lt _
    · exact Nat.or_lt_two_pow (Nat.xor_lt_two_pow h1.1 h2.2)
        (Nat.and_lt_two_pow _ (Nat.xor_lt_two_pow h2.1 h1.2))
  · intro i hi
    rw [hRound_low_getD s hi, hRound_high_getD s hi, curlRound_getD w hi]
    have h1 := hb _ (curlIdx_lt i)
    have h2 := hb _ (curlIdx_lt (i + 1))
    have e1 := hbits _ (curlIdx_lt i)
    have e2 := hbits _ (curlIdx_lt (i + 1))
    have hd : ((s.low.getD (curlIdx i) 0 ||| bitWiseNot (s.high.getD (curlIdx (i + 1)) 0)) &&&
        (s.low.getD (curlIdx (i + 1)) 0 ^^^ s.high.getD (curlIdx i) 0)) < 2 ^ 64 :=
      Nat.and_lt_two_pow _ (Nat.xor_lt_two_pow h2.1 h1.2)
    have hcore := slice_round_core (hw.getD (curlIdx i)) (hw.getD (curlIdx (i + 1)))
    constructor
    · rw [bitWiseNot_testBit hd hl, Nat.testBit_and, Nat.testBit_or,
        bitWiseNot_testBit h2.2 hl, Nat.testBit_xor, e1.1, e1.2, e2.1, e2.2]
      exact hcore.1
    · rw [Nat.testBit_or, Nat.testBit_xor, Nat.testBit_and, Nat.testBit_or,
        bitWiseNot_testBit h2.2 hl, Nat.testBit_xor, e1.1, e1.2, e2.1, e2.2]
      exact hcore.2

theorem hRound_iterate_rep {s : BState} {w : Trits} {lane : ℕ} (hl : lane < 64)
    (hw : IsTritVec w) (hrep : SliceRep s w lane) (n : ℕ) :
    SliceRep (hRound^[n] s) (curlRound^[n] w) lane := by
  induction n with
  | zero => exact hrep
  | succ n ih =>
      rw [Function.iterate_succ_apply', Function.iterate_succ_apply']
      exact hRound_rep hl (iterate_curlRound_trits hw n) ih

/-- `MAX_VALUE` is all 64 bits set, `MIN_VALUE` none. -/
theorem max_value_testBit {lane : ℕ} (hl : lane < 64) : MAX_VALUE.testBit lane = true := by
  rw [show MAX_VALUE = 2 ^ 64 - 1 by decide, Nat.testBit_two_pow_sub_one]
  simpa using hl

/-- The all-lane encoding of a trit buffer represents it on every lane. -/
theorem tritsToBigInt_rep {u : Trits} (hu : IsTritVec u) (hlen : u.length = STATE_LENGTH)
    {lane : ℕ} (hl : lane < 64) : SliceRep (tritsToBigInt u STATE_LENGTH) u lane := by
  have hmapl : ∀ (f : ℤ → ℕ) (i : ℕ), i < STATE_LENGTH →
      ((u.map f ++ List.replicate (STATE_LENGTH - u.length) MAX_VALUE).getD i 0) = f (u.getD i 0) := by
    intro f i hi
    have hiu : i < u.length := by omega
    rw [List.getD_eq_getElem?_getD, List.getElem?_append_left (by rw [List.length_map]; omega),
      List.getElem?_map, List.getElem?_eq_getElem hiu, List.getD_eq_getElem u 0 hiu]
    rfl
  refine ⟨?_, ?_, ?_, ?_⟩
  · show (u.map _ ++ List.replicate _ _).length = STATE_LENGTH
    rw [List.length_append, List.length_map, List.length_replicate]
    omega
  · show (u.map _ ++ List.replicate _ _).length = STATE_LENGTH
    rw [List.length_append, List.length_map, List.length_replicate]
    omega
  · intro i hi
    rw [show (tritsToBigInt u STATE_LENGTH).low
        = u.map (fun t => if t = 0 then MAX_VALUE else if t = 1 then MIN_VALUE else MAX_VALUE)
          ++ List.replicate (STATE_LENGTH - u.length) MAX_VALUE from rfl,
      show (tritsToBigInt u STATE_LENGTH).high
        = u.map (fun t => if t = 0 then MAX_VALUE else if t = 1 then MAX_VALUE else MIN_VALUE)
          ++ List.replicate (STATE_LENGTH - u.length) MAX_VALUE from rfl,
      hmapl _ i hi, hmapl _ i hi]
    rcases hu.getD i with h | h | h <;> rw [h] <;> constructor <;> decide
  · intro i hi
    rw [show (tritsToBigInt u STATE_LENGTH).low
        = u.map (fun t => if t = 0 then MAX_VALUE else if t = 1 then MIN_VALUE else MAX_VALUE)
          ++ List.replicate (STATE_LENGTH - u.length) MAX_VALUE from rfl,
      show (tritsToBigInt u STATE_LENGTH).high
        = u.map (fun t => if t = 0 then MAX_VALUE else if t = 1 then MAX_VALUE else MIN_VALUE)
          ++ List.replicate (STATE_LENGTH - u.length) MAX_VALUE from rfl,
      hmapl _ i hi, hmapl _ i hi]
    rcases hu.getD i with h | h | h <;> rw [h] <;> constructor <;>
      norm_num [MIN_VALUE, Nat.zero_testBit, max_value_testBit hl]

/-- Decoding one represented lane returns the represented buffer. -/
theorem trinaryGet_eq {s : BState} {w : Trits} {lane : ℕ}
    (hw : IsTritVec w) (hwlen : w.length = STATE_LENGTH) (hrep : SliceRep s w lane) :
    trinaryGet s STATE_LENGTH lane = w := by
  obtain ⟨_, _, _, hbits⟩ := hrep
  rw [trinaryGet]
  apply List.ext_getElem
  · rw [List.length_map, List.length_range, hwlen]
  intro i h1 h2
  rw [List.getElem_map, List.getElem_range]
  have hi : i < STATE_LENGTH := by
    rw [List.length_map, List.length_range] at h1
    exact h1
  have hb := hbits i hi
  rw [shift_and_one, shift_and_one, hb.1, hb.2, ← List.getD_eq_getElem w 0 h2]
  rcases hw.getD i with h | h | h <;> rw [h] <;> norm_num

/-- C8: encoding a 729-trit state into the bit-sliced form, applying the
bit-sliced `transform`, and decoding any lane yields exactly the 27-round
Curl transform of the state — every lane computes an independent copy of
the Curl permutation. -/
theorem claim_C8_bitsliced_transform (u : Trits) (hu : IsTritVec u)
    (hlen : u.length = STATE_LENGTH) (lane : ℕ) (hl : lane < 64) :
    trinaryGet (hTransform (tritsToBigInt u STATE_LENGTH)) STATE_LENGTH lane
      = (Curl.transform ⟨27, u⟩).state := by
  have hrep := tritsToBigInt_rep hu hlen hl
  have hrep27 := hRound_iterate_rep hl hu hrep 27
  rw [hTransform, show (Curl.transform ⟨27, u⟩).state = curlRound^[27] u from rfl]
  refine trinaryGet_eq (iterate_curlRound_trits hu 27) ?_ hrep27
  rw [iterate_curlRound_length, if_neg (by omega)]

theorem claim_C8_bitsliced_transform_witness :
    trinaryGet (hTransform (tritsToBigInt (List.replicate STATE_LENGTH (0 : ℤ)) STATE_LENGTH))
        STATE_LENGTH 0
      = (Curl.transform ⟨27, List.replicate STATE_LENGTH (0 : ℤ)⟩).state :=
  claim_C8_bitsliced_transform (List.replicate STATE_LENGTH 0) (by decide)
    (by rw [List.length_replicate]) 0 (by decide)

theorem take_sum_getD (v : Trits) : ∀ (n : ℕ), n ≤ v.length →
    (v.take n).sum = ((List.range n).map fun k => v.getD k 0).sum := by
  intro n
  induction n with
  | zero => intro _; rfl
  | succ n ih =>
      intro h
      rw [List.take_succ, List.sum_append, ih (by omega), List.range_succ, List.map_append,
        List.sum_append, List.getElem?_eq_getElem (by omega : n < v.length)]
      simp only [List.map_cons, List.map_nil, Option.toList_some, List.sum_cons, List.sum_nil]
      rw [List.getD_eq_getElem v 0 (by omega)]

theorem range_sum_split (g : ℕ → ℤ) (a b : ℕ) :
    ((List.range (a + b)).map g).sum
      = ((List.range a).map g).sum + ((List.range b).map fun k => g (a + k)).sum := by
  rw [List.range_add, List.map_append, List.sum_append, List.map_map]
  rfl

theorem map_neg_sum (l : List ℕ) (g : ℕ → ℤ) :
    (l.map fun k => -(g k)).sum = -((l.map g).sum) := by
  induction l with
  | nil => simp
  | cons x xs ih =>
      rw [List.map_cons, List.map_cons, List.sum_cons, List.sum_cons, ih]
      ring

/-- On a represented lane, one third-sum of `check` is the negated sum of
the corresponding 81 decoded trits. -/
theorem laneThirdSum_eq {t : BState} {v : Trits} {lane : ℕ} (hv : IsTritVec v)
    (hrep : SliceRep t v lane) {j : ℕ} (hj : j < 3) :
    laneThirdSum t lane j = -(((List.range 81).map fun k => v.getD (j * 81 + k) 0).sum) := by
  obtain ⟨_, _, _, hbits⟩ := hrep
  rw [laneThirdSum, ← map_neg_sum]
  congr 1
  refine List.map_congr_left fun k hk => ?_
  rw [List.mem_range] at hk
  have hidx : j * 81 + k < STATE_LENGTH := by
    simp only [STATE_LENGTH, HASH_LENGTH]
    omega
  have hb := hbits (j * 81 + k) hidx
  rw [hb.1, hb.2]
  rcases hv.getD (j * 81 + k) with h | h | h <;> rw [h] <;> norm_num

theorem laneCheckGo_lt {s : BState} {lane secL j : ℕ} {sum : ℤ} (h : j < secL) :
    laneCheckGo s lane secL j sum =
      if sum + laneThirdSum s lane j = 0 ∧ j + 1 < secL then false
      else laneCheckGo s lane secL (j + 1) (sum + laneThirdSum s lane j) := by
  rw [laneCheckGo, dif_pos h]

theorem laneCheckGo_ge {s : BState} {lane secL j : ℕ} {sum : ℤ} (h : ¬ j < secL) :
    laneCheckGo s lane secL j sum = decide (sum = 0) := by
  rw [laneCheckGo, dif_neg h]

/-- A passing lane of `check` pins `checksumSecurity` of the decoded rate
to exactly the requested level. -/
theorem laneCheck_checksum {t : BState} {v : Trits} {lane : ℕ} (hv : IsTritVec v)
    (hvlen : v.length = STATE_LENGTH) (hrep : SliceRep t v lane) {sec : ℕ}
    (hsec1 : 1 ≤ sec) (hsec3 : sec ≤ 3) (hpass : laneCheck t lane sec = true) :
    checksumSecurity (v.take HASH_LENGTH) = sec := by
  have hT : ∀ j < 3, laneThirdSum t lane j
      = -(((List.range 81).map fun k => v.getD (j * 81 + k) 0).sum) :=
    fun j hj => laneThirdSum_eq hv hrep hj
  have hlen729 : (729 : ℕ) ≤ v.length := by rw [hvlen]; decide
  have hS1' : (v.take 81).sum = -(laneThirdSum t lane 0) := by
    rw [hT 0 (by omega), neg_neg, take_sum_getD v 81 (by omega)]
    refine congrArg List.sum (List.map_congr_left fun k _ => ?_)
    norm_num
  have hS2' : (v.take 162).sum = -(laneThirdSum t lane 0 + laneThirdSum t lane 1) := by
    rw [hT 0 (by omega), hT 1 (by omega), take_sum_getD v 162 (by omega),
      show (162 : ℕ) = 81 + 81 from rfl, range_sum_split]
    have e0 : ((List.range 81).map fun k => v.getD (0 * 81 + k) 0).sum
        = ((List.range 81).map fun k => v.getD k 0).sum := by
      refine congrArg List.sum (List.map_congr_left fun k _ => ?_)
      norm_num
    have e1 : ((List.range 81).map fun k => v.getD (1 * 81 + k) 0).sum
        = ((List.range 81).map fun k => v.getD (81 + k) 0).sum := by
      refine congrArg List.sum (List.map_congr_left fun k _ => ?_)
      norm_num
    rw [e0, e1]
    ring
  have hS3' : (v.take 243).sum
      = -(laneThirdSum t lane 0 + laneThirdSum t lane 1 + laneThirdSum t lane 2) := by
    rw [hT 0 (by omega), hT 1 (by omega), hT 2 (by omega), take_sum_getD v 243 (by omega),
      show (243 : ℕ) = 81 + 81 + 81 from rfl, range_sum_split, range_sum_split]
    have e0 : ((List.range 81).map fun k => v.getD (0 * 81 + k) 0).sum
        = ((List.range 81).map fun k => v.getD k 0).sum := by
      refine congrArg List.sum (List.map_congr_left fun k _ => ?_)
      norm_num
    have e1 : ((List.range 81).map fun k => v.getD (1 * 81 + k) 0).sum
        = ((List.range 81).map fun k => v.getD (81 + k) 0).sum := by
      refine congrArg List.sum (List.map_congr_left fun k _ => ?_)
      norm_num
    have e2 : ((List.range 81).map fun k => v.getD (2 * 81 + k) 0).sum
        = ((List.range 81).map fun k => v.getD (81 + 81 + k) 0).sum := by
      refine congrArg List.sum (List.map_congr_left fun k _ => ?_)
      norm_num
    rw [e0, e1, e2]
    ring
  have e1 : HASH_LENGTH / 3 = 81 := by decide
  have e2 : 2 * HASH_LENGTH / 3 = 162 := by decide
  have et1 : ((v.take HASH_LENGTH).take 81) = v.take 81 := by
    rw [List.take_take, show (81 : ℕ) ⊓ HASH_LENGTH = 81 from by decide]
  have et2 : ((v.take HASH_LENGTH).take 162) = v.take 162 := by
    rw [List.take_take, show (162 : ℕ) ⊓ HASH_LENGTH = 162 from by decide]
  have et3 : (v.take HASH_LENGTH) = v.take 243 := rfl
  rw [checksumSecurity, e1, e2, et1, et2, et3, hS1', hS2', hS3']
  rw [laneCheck] at hpass
  interval_cases sec
  · rw [laneCheckGo_lt (show (0 : ℕ) < 1 by omega),
      if_neg (show ¬ ((0 : ℤ) + laneThirdSum t lane 0 = 0 ∧ 0 + 1 < 1) from
        fun hc => by omega),
      laneCheckGo_ge (show ¬ ((0 : ℕ) + 1 < 1) by omega)] at hpass
    simp only [decide_eq_true_eq] at hpass
    rw [if_pos (show -(laneThirdSum t lane 0) = 0 by omega)]
  · rw [laneCheckGo_lt (show (0 : ℕ) < 2 by omega)] at hpass
    by_cases h0 : (0 : ℤ) + laneThirdSum t lane 0 = 0
    · rw [if_pos (show (0 : ℤ) + laneThirdSum t lane 0 = 0 ∧ 0 + 1 < 2 from
        ⟨h0, by omega⟩)] at hpass
      exact absurd hpass (by simp)
    · rw [if_neg (show ¬ ((0 : ℤ) + laneThirdSum t lane 0 = 0 ∧ 0 + 1 < 2) from
          fun hc => h0 hc.1),
        laneCheckGo_lt (show (0 : ℕ) + 1 < 2 by omega),
        if_neg (show ¬ ((0 : ℤ) + laneThirdSum t lane 0 + laneThirdSum t lane (0 + 1) = 0 ∧
          0 + 1 + 1 < 2) from fun hc => by omega),
        laneCheckGo_ge (show ¬ ((0 : ℕ) + 1 + 1 < 2) by omega)] at hpass
      simp only [decide_eq_true_eq] at hpass
      have hb1 : laneThirdSum t lane (0 + 1) = laneThirdSum t lane 1 := rfl
      rw [hb1] at hpass
      rw [if_neg (show ¬ (-(laneThirdSum t lane 0) = 0) from by omega),
        if_pos (show -(laneThirdSum t lane 0 + laneThirdSum t lane 1) = 0 by omega)]
  · rw [laneCheckGo_lt (show (0 : ℕ) < 3 by omega)] at hpass
    by_cases h0 : (0 : ℤ) + laneThirdSum t lane 0 = 0
    · rw [if_pos (show (0 : ℤ) + laneThirdSum t lane 0 = 0 ∧ 0 + 1 < 3 from
        ⟨h0, by omega⟩)] at hpass
      exact absurd hpass (by simp)
    · rw [if_neg (show ¬ ((0 : ℤ) + laneThirdSum t lane 0 = 0 ∧ 0 + 1 < 3) from
          fun hc => h0 hc.1),
        laneCheckGo_lt (show (0 : ℕ) + 1 < 3 by omega)] at hpass
      by_cases h1 : (0 : ℤ) + laneThirdSum t lane 0 + laneThirdSum t lane (0 + 1) = 0
      · rw [if_pos (show (0 : ℤ) + laneThirdSum t lane 0 + laneThirdSum t lane (0 + 1) = 0 ∧
          0 + 1 + 1 < 3 from ⟨h1, by omega⟩)] at hpass
        exact absurd hpass (by simp)
      · rw [if_neg (show ¬ ((0 : ℤ) + laneThirdSum t lane 0 + laneThirdSum t lane (0 + 1) = 0 ∧
            0 + 1 + 1 < 3) from fun hc => h1 hc.1),
          laneCheckGo_lt (show (0 : ℕ) + 1 + 1 < 3 by omega),
          if_neg (show ¬ ((0 : ℤ) + laneThirdSum t lane 0 + laneThirdSum t lane (0 + 1) +
            laneThirdSum t lane (0 + 1 + 1) = 0 ∧ 0 + 1 + 1 + 1 < 3) from fun hc => by omega),
          laneCheckGo_ge (show ¬ ((0 : ℕ) + 1 + 1 + 1 < 3) by omega)] at hpass
        simp only [decide_eq_true_eq] at hpass
        have hb1 : laneThirdSum t lane (0 + 1) = laneThirdSum t lane 1 := rfl
        have hb2 : laneThirdSum t lane (0 + 1 + 1) = laneThirdSum t lane 2 := rfl
        rw [hb1] at hpass h1
        rw [hb2] at hpass
        rw [if_neg (show ¬ (-(laneThirdSum t lane 0) = 0) from by omega),
          if_neg (show ¬ (-(laneThirdSum t lane 0 + laneThirdSum t lane 1) = 0) from by omega),
          if_pos (show -(laneThirdSum t lane 0 + laneThirdSum t lane 1 +
            laneThirdSum t lane 2) = 0 by omega)]

/-- A nonzero result of the lane scan is a passing lane below 64. -/
theorem hCheckGo_pass (s : BState) (sec : ℕ) : ∀ (d i : ℕ), 64 - i ≤ d →
    hCheckGo s sec i ≠ 0 →
    laneCheck s (hCheckGo s sec i) sec = true ∧ hCheckGo s sec i < 64 := by
  intro d
  induction d with
  | zero =>
      intro i hd hne
      rw [hCheckGo, dif_neg (by omega)] at hne
      exact absurd rfl hne
  | succ d ih =>
      intro i hd hne
      rcases Nat.lt_or_ge i 64 with h64 | h64
      · rw [hCheckGo, dif_pos h64] at hne ⊢
        by_cases hl : laneCheck s i sec = true
        · rw [if_pos hl] at hne ⊢
          exact ⟨hl, h64⟩
        · rw [if_neg hl] at hne ⊢
          exact ih (i + 1) (by omega) hne
      · rw [hCheckGo, dif_neg (by omega)] at hne
        exact absurd rfl hne

theorem hCheck_pass {s : BState} {sec : ℕ} (h : hCheck s sec ≠ 0) :
    laneCheck s (hCheck s sec) sec = true ∧ hCheck s sec < 64 := by
  rw [hCheck] at h ⊢
  exact hCheckGo_pass s sec 64 0 (by omega) h

/-- C5 (corrected): for every non-negative value `v`, `pascalDecode`
applied to `pascalEncode v` returns `v` together with the encoding's
length, and `pascalEncode 0` is exactly `[1, 0, 0, -1]`.  (On negative
values the encoder does not terminate; see the counterexample.) -/
theorem claim_C5_pascal_roundtrip (v : ℕ) :
    (∃ E, pascalEncode (v : ℤ) = some E ∧ pascalDecode E = some ((v : ℤ), E.length)) ∧
      pascalEncode 0 = some ZERO := by
  refine ⟨?_, pascalEncode_zero⟩
  rcases Nat.eq_zero_or_pos v with rfl | hv
  · refine ⟨ZERO, by simpa using pascalEncode_zero, ?_⟩
    have h := pascalDecode_ZERO []
    rw [List.append_nil] at h
    rw [h]
    rfl
  · obtain ⟨E, h1, _, _, h4⟩ := pascalEncode_spec v hv
    refine ⟨E, h1, ?_⟩
    have h := h4 []
    rw [List.append_nil] at h
    exact h

/-- C5, counterexample to the original claim: the encoder does not
terminate on `-1` (the digit recursion sticks below zero), modelled as
`none`; no round trip exists for negative values. -/
theorem claim_C5_counterexample : pascalEncode (-1) = none :=
  pascalEncode_neg (-1) (by norm_num)

/-- C6: masking any trit payload with a sponge in some well-formed state
and unmasking the result with a fresh sponge in the same state returns the
original payload. -/
theorem claim_C6_mask_unmask (p : Trits) (hp : IsTritVec p) (c : Curl) (hc : GoodCurl c) :
    (unmask (mask p c).1 c).1 = p :=
  (mask_unmask p hp c hc).1

theorem claim_C6_mask_unmask_witness :
    (unmask (mask [0, 1, -1] (Curl.new 27)).1 (Curl.new 27)).1 = [0, 1, -1] :=
  claim_C6_mask_unmask [0, 1, -1] (by decide) (Curl.new 27) (GoodCurl.new 27)

/-- C9: on a 243-trit buffer, `checksumSecurity` returns 1 exactly when
the first 81 trits sum to zero, else 2 when the first 162 do, else 3 when
all of them do, and 0 otherwise — the smallest zero-summing cumulative
third, or 0 when there is none. -/
theorem claim_C9_checksum_security (h : Trits) (hlen : h.length = HASH_LENGTH) :
    (checksumSecurity h = 1 ↔ (h.take 81).sum = 0) ∧
    (checksumSecurity h = 2 ↔ ((h.take 81).sum ≠ 0 ∧ (h.take 162).sum = 0)) ∧
    (checksumSecurity h = 3 ↔ ((h.take 81).sum ≠ 0 ∧ (h.take 162).sum ≠ 0 ∧ h.sum = 0)) ∧
    (checksumSecurity h = 0 ↔ ((h.take 81).sum ≠ 0 ∧ (h.take 162).sum ≠ 0 ∧ h.sum ≠ 0)) := by
  have e1 : HASH_LENGTH / 3 = 81 := by decide
  have e2 : 2 * HASH_LENGTH / 3 = 162 := by decide
  rw [checksumSecurity, e1, e2]
  split_ifs with h1 h2 h3 <;> simp_all

/-- A one-leaf tree is the leaf under a right-less root node carrying the
leaf's own address. -/
theorem merkleTree_single (seed : List Char) (start security : ℕ) :
    merkleTree seed start 1 security =
      MNode.node (MNode.leaf (generateAddress (toTrits seed) (start + 0) security).1
        (generateAddress (toTrits seed) (start + 0) security).2) none
        (generateAddress (toTrits seed) (start + 0) security).1 := by
  rw [merkleTree, show List.range 1 = [0] from rfl, List.map_cons, List.map_nil, buildTree]
  simp [buildPair, MNode.addr]

/-- On a size-one tree `getSubtree` returns the left leaf's private key
and no siblings, whatever the index. -/
theorem getSubtree_single (a k a' : Trits) (i : ℕ) :
    getSubtree (MNode.node (MNode.leaf a k) none a') i = (k, []) := rfl

/-- C4 (code bug): for the single-leaf tree the sibling list from
`getSubtree` is empty, and the static root recalculation on an empty
sibling list returns the rate of a fresh all-zero sponge whatever leaf
address it is given — it ignores its `rate` argument entirely, so it
cannot reproduce the tree's root address. -/
theorem claim_C4_single_leaf_root (seed : List Char) (start security : ℕ) (rate : Trits) :
    (getSubtree (merkleTree seed start 1 security) 0).2 = [] ∧
    merkleRoot rate
      ((((getSubtree (merkleTree seed start 1 security) 0).2).map MNode.addr).flatten) 0
      = List.replicate HASH_LENGTH 0 := by
  have hsub : (getSubtree (merkleTree seed start 1 security) 0).2 = [] := by
    rw [merkleTree_single]
    rfl
  refine ⟨hsub, ?_⟩
  rw [hsub]
  rw [show ((([] : List MNode).map MNode.addr).flatten) = [] from rfl]
  rw [merkleRoot, chunks243_nil]
  show (Curl.new 27).rate HASH_LENGTH = List.replicate HASH_LENGTH 0
  rw [Curl.rate, Curl.new, List.take_replicate]
  congr 1

/-- The frame/advance behaviour `createMessage` must exhibit on the
channel state: all fields but `start`, `index`, `nextRoot` unchanged,
`start`/`index` advanced by the window rule, `nextRoot` set to the next
tree's root. -/
def AdvanceSpec (st st' : ChannelState) : Prop :=
  st'.seed = st.seed ∧ st'.mode = st.mode ∧ st'.sideKey = st.sideKey ∧
  st'.security = st.security ∧ st'.count = st.count ∧ st'.nextCount = st.nextCount ∧
  (if st.index = st.count - 1
    then st'.start = st.nextCount + st.start ∧ st'.index = 0
    else st'.start = st.start ∧ st'.index = st.index + 1) ∧
  st'.nextRoot =
    some (fromTrits (merkleTree st.seed (st.start + st.count) st.nextCount st.security).addr)

/-- Every successful `createMessage` call advances the state by
`AdvanceSpec` and preserves `index < count` (for a well-formed window). -/
def CreateMessageAdvances (fuel : ℕ) (st : ChannelState) (message : List Char) : Prop :=
  ∀ out, createMessageF fuel st message = some out →
    AdvanceSpec st out.2 ∧
    (1 ≤ st.count → st.index < st.count → out.2.index < out.2.count)

/-- C10: `createMessage` mutates only `index`, `start` and `nextRoot`:
when `index = count - 1` it moves `start` up by `nextCount` and resets
`index` to 0, otherwise it increments `index`; the other fields are
untouched, `nextRoot` becomes the next tree's root, and `0 ≤ index <
count` is preserved. -/
theorem claim_C10_advance (fuel : ℕ) (st : ChannelState) (message : List Char) :
    CreateMessageAdvances fuel st message := by
  intro out hout
  rw [createMessageF] at hout
  by_cases htm : isTrytes message
  · rw [if_pos htm] at hout
    cases hsearch : hammingSearch fuel ((buildPre st message).2.rate STATE_LENGTH)
        st.security (HASH_LENGTH / 3) 0 with
    | none =>
        rw [hsearch] at hout
        exact absurd hout (by simp)
    | some nonce =>
        rw [hsearch] at hout
        simp only [Option.some.injEq] at hout
        subst hout
        have h2 : (buildMessage st message nonce).2 = advanceState st
            ((merkleTree st.seed (st.start + st.count) st.nextCount st.security).addr) := rfl
        constructor
        · rw [h2]
          unfold AdvanceSpec advanceState
          by_cases hidx : st.index = st.count - 1
          · rw [if_pos hidx, if_pos hidx]
            exact ⟨rfl, rfl, rfl, rfl, rfl, rfl, ⟨rfl, rfl⟩, rfl⟩
          · rw [if_neg hidx, if_neg hidx]
            exact ⟨rfl, rfl, rfl, rfl, rfl, rfl, ⟨rfl, rfl⟩, rfl⟩
        · intro hcnt hlt
          rw [h2]
          unfold advanceState
          by_cases hidx : st.index = st.count - 1
          · rw [if_pos hidx]
            show (0 : ℕ) < st.count
            omega
          · rw [if_neg hidx]
            show st.index + 1 < st.count
            omega
  · rw [if_neg htm] at hout
    exact absurd hout (by simp)

theorem claim_C9_checksum_security_witness :
    checksumSecurity (List.replicate HASH_LENGTH (0 : ℤ)) = 1 ↔
      ((List.replicate HASH_LENGTH (0 : ℤ)).take 81).sum = 0 :=
  (claim_C9_checksum_security (List.replicate HASH_LENGTH 0) (by rw [List.length_replicate])).1

/-! ## Soundness of the Hamming nonce search (`HammingDiver.search`) -/

/-- The low word a trit gets in `tritsToBigInt` (the body of the `map`). -/
def encLowWord (t : ℤ) : ℕ :=
  if t = 0 then MAX_VALUE else if t = 1 then MIN_VALUE else MAX_VALUE

/-- The high word a trit gets in `tritsToBigInt`. -/
def encHighWord (t : ℤ) : ℕ :=
  if t = 0 then MAX_VALUE else if t = 1 then MAX_VALUE else MIN_VALUE

/-- Well-formedness of a bit-sliced state: 729 slots of 64-bit words, and
no lane of any slot in the impossible `(low, high) = (0, 0)` encoding. -/
def BStateWF (s : BState) : Prop :=
  s.low.length = STATE_LENGTH ∧ s.high.length = STATE_LENGTH ∧
  (∀ j < STATE_LENGTH, s.low.getD j 0 < 2 ^ 64 ∧ s.high.getD j 0 < 2 ^ 64) ∧
  ∀ lane < 64, ∀ j < STATE_LENGTH,
    ((s.low.getD j 0).testBit lane || (s.high.getD j 0).testBit lane) = true

/-- The search-loop invariant: a well-formed bit-sliced state whose slots
from `size` on still hold the plain all-lane encoding of the input trits
(the counter only ever writes below `size`). -/
def DiverInv (trits : Trits) (s : BState) (size : ℕ) : Prop :=
  BStateWF s ∧
  ∀ i, size ≤ i → i < STATE_LENGTH →
    s.low.getD i 0 = encLowWord (trits.getD i 0) ∧
    s.high.getD i 0 = encHighWord (trits.getD i 0)

/-- The slot update of one `increment` step. -/
def stepState (s : BState) (i : ℕ) : BState :=
  ⟨s.low.set i (s.high.getD i 0 ^^^ s.low.getD i 0), s.high.set i (s.low.getD i 0)⟩

theorem getD_set_self {l : List ℕ} {i : ℕ} (h : i < l.length) (v : ℕ) :
    (l.set i v).getD i 0 = v := by
  rw [List.getD_eq_getElem?_getD, List.getElem?_set_self h]
  rfl

theorem getD_set_ne {l : List ℕ} {i j : ℕ} (h : i ≠ j) (v : ℕ) :
    (l.set i v).getD j 0 = l.getD j 0 := by
  rw [List.getD_eq_getElem?_getD, List.getElem?_set_ne h, List.getD_eq_getElem?_getD]

theorem stepState_getD_self {s : BState} {i : ℕ} (hl : i < s.low.length)
    (hh : i < s.high.length) :
    (stepState s i).low.getD i 0 = s.high.getD i 0 ^^^ s.low.getD i 0 ∧
    (stepState s i).high.getD i 0 = s.low.getD i 0 := by
  constructor
  · show (s.low.set i (s.high.getD i 0 ^^^ s.low.getD i 0)).getD i 0 = _
    exact getD_set_self hl _
  · show (s.high.set i (s.low.getD i 0)).getD i 0 = _
    exact getD_set_self hh _

theorem stepState_getD_ne {s : BState} {i j : ℕ} (h : i ≠ j) :
    (stepState s i).low.getD j 0 = s.low.getD j 0 ∧
    (stepState s i).high.getD j 0 = s.high.getD j 0 := by
  constructor
  · show (s.low.set i (s.high.getD i 0 ^^^ s.low.getD i 0)).getD j 0 = _
    exact getD_set_ne h _
  · show (s.high.set i (s.low.getD i 0)).getD j 0 = _
    exact getD_set_ne h _

/-- One `increment` slot update preserves well-formedness: the new pair
`(high XOR low, low)` never encodes `(0, 0)` on a lane where the old pair
did not. -/
theorem stepState_wf {s : BState} {i : ℕ} (hiS : i < STATE_LENGTH) (hs : BStateWF s) :
    BStateWF (stepState s i) := by
  obtain ⟨h1, h2, h3, h4⟩ := hs
  have hil : i < s.low.length := by rw [h1]; exact hiS
  have hih : i < s.high.length := by rw [h2]; exact hiS
  refine ⟨?_, ?_, ?_, ?_⟩
  · show (s.low.set i (s.high.getD i 0 ^^^ s.low.getD i 0)).length = STATE_LENGTH
    rw [List.length_set]
    exact h1
  · show (s.high.set i (s.low.getD i 0)).length = STATE_LENGTH
    rw [List.length_set]
    exact h2
  · intro j hj
    by_cases hij : i = j
    · subst hij
      rw [(stepState_getD_self hil hih).1, (stepState_getD_self hil hih).2]
      have hb := h3 i hj
      exact ⟨Nat.xor_lt_two_pow hb.2 hb.1, hb.1⟩
    · rw [(stepState_getD_ne hij).1, (stepState_getD_ne hij).2]
      exact h3 j hj
  · intro lane hlane j hj
    by_cases hij : i = j
    · subst hij
      rw [(stepState_getD_self hil hih).1, (stepState_getD_self hil hih).2, Nat.testBit_xor]
      have hv := h4 lane hlane i hj
      cases hx : (s.low.getD i 0).testBit lane <;>
        cases hy : (s.high.getD i 0).testBit lane <;>
        rw [hx, hy] at hv <;> first | decide | exact absurd hv (by decide)
    · rw [(stepState_getD_ne hij).1, (stepState_getD_ne hij).2]
      exact h4 lane hlane j hj

theorem incrementGo_stop {s : BState} {i toIndex : ℕ} (h : ¬ i < toIndex) :
    incrementGo s i toIndex = (s, false) := by
  rw [incrementGo, dif_neg h]

theorem incrementGo_step {s : BState} {i toIndex : ℕ} (h : i < toIndex) :
    incrementGo s i toIndex =
      if s.high.getD i 0 &&& bitWiseNot (s.low.getD i 0) = 0 then (stepState s i, true)
      else incrementGo (stepState s i) (i + 1) toIndex := by
  rw [incrementGo, dif_pos h]
  rfl

/-- The counter loop preserves well-formedness and only writes slots in
`[i, toIndex)`. -/
theorem incrementGo_spec : ∀ (d : ℕ) (s : BState) (i toIndex : ℕ), toIndex - i ≤ d →
    toIndex ≤ STATE_LENGTH → BStateWF s →
    BStateWF (incrementGo s i toIndex).1 ∧
    ∀ j, j < i ∨ toIndex ≤ j →
      (incrementGo s i toIndex).1.low.getD j 0 = s.low.getD j 0 ∧
      (incrementGo s i toIndex).1.high.getD j 0 = s.high.getD j 0 := by
  intro d
  induction d with
  | zero =>
      intro s i toIndex hd htS hs
      rw [incrementGo_stop (show ¬ i < toIndex by omega)]
      exact ⟨hs, fun j _ => ⟨rfl, rfl⟩⟩
  | succ d ih =>
      intro s i toIndex hd htS hs
      by_cases hit : i < toIndex
      · have hiS : i < STATE_LENGTH := by omega
        have hwf' := stepState_wf hiS hs
        by_cases hstop : s.high.getD i 0 &&& bitWiseNot (s.low.getD i 0) = 0
        · rw [incrementGo_step hit, if_pos hstop]
          refine ⟨hwf', ?_⟩
          intro j hj
          exact stepState_getD_ne (show i ≠ j by omega)
        · rw [incrementGo_step hit, if_neg hstop]
          obtain ⟨g1, g2⟩ := ih (stepState s i) (i + 1) toIndex (by omega) htS hwf'
          refine ⟨g1, ?_⟩
          intro j hj
          obtain ⟨u1, u2⟩ := g2 j (by omega)
          obtain ⟨v1, v2⟩ := stepState_getD_ne (show i ≠ j by omega)
          exact ⟨u1.trans v1, u2.trans v2⟩
      · rw [incrementGo_stop hit]
        exact ⟨hs, fun j _ => ⟨rfl, rfl⟩⟩

theorem increment_fst (s : BState) (a b : ℕ) :
    (increment s a b).1 = (incrementGo s a b).1 := rfl

/-- `increment` never reports fewer slots than the whole counter window. -/
theorem increment_count_ge (s : BState) (a b : ℕ) : b - a ≤ (increment s a b).2 := by
  show b - a ≤ if (incrementGo s a b).2 then b - a else b - a + 1
  split <;> omega

theorem roundThird_ge (n : ℕ) : n ≤ roundThird n := by
  rw [roundThird]
  split <;> omega

theorem encWord_lt (t : ℤ) : encLowWord t < 2 ^ 64 ∧ encHighWord t < 2 ^ 64 := by
  rw [encLowWord, encHighWord]
  constructor <;> split_ifs <;> decide

theorem encWord_valid (t : ℤ) {lane : ℕ} (hl : lane < 64) :
    ((encLowWord t).testBit lane || (encHighWord t).testBit lane) = true := by
  rw [encLowWord, encHighWord]
  split_ifs <;> simp [MIN_VALUE, Nat.zero_testBit, max_value_testBit hl]

/-- Each pair of counter seed words has some bit set in every lane. -/
theorem seed_words_valid : ∀ lane < 64,
    ((LOW_0.testBit lane || HIGH_0.testBit lane) = true) ∧
    ((LOW_1.testBit lane || HIGH_1.testBit lane) = true) ∧
    ((LOW_2.testBit lane || HIGH_2.testBit lane) = true) ∧
    ((LOW_3.testBit lane || HIGH_3.testBit lane) = true) := by decide

theorem tritsToBigInt_getD {u : Trits} (hlen : u.length = STATE_LENGTH) {i : ℕ}
    (hi : i < STATE_LENGTH) :
    (tritsToBigInt u STATE_LENGTH).low.getD i 0 = encLowWord (u.getD i 0) ∧
    (tritsToBigInt u STATE_LENGTH).high.getD i 0 = encHighWord (u.getD i 0) := by
  have hmapl : ∀ (f : ℤ → ℕ),
      ((u.map f ++ List.replicate (STATE_LENGTH - u.length) MAX_VALUE).getD i 0)
        = f (u.getD i 0) := by
    intro f
    have hiu : i < u.length := by omega
    rw [List.getD_eq_getElem?_getD, List.getElem?_append_left (by rw [List.length_map]; omega),
      List.getElem?_map, List.getElem?_eq_getElem hiu, List.getD_eq_getElem u 0 hiu]
    rfl
  constructor
  · rw [show (tritsToBigInt u STATE_LENGTH).low
        = u.map (fun t => if t = 0 then MAX_VALUE else if t = 1 then MIN_VALUE else MAX_VALUE)
          ++ List.replicate (STATE_LENGTH - u.length) MAX_VALUE from rfl, hmapl]
    rfl
  · rw [show (tritsToBigInt u STATE_LENGTH).high
        = u.map (fun t => if t = 0 then MAX_VALUE else if t = 1 then MAX_VALUE else MIN_VALUE)
          ++ List.replicate (STATE_LENGTH - u.length) MAX_VALUE from rfl, hmapl]
    rfl

/-- Reading through the four seed writes of `prepareTrits`. -/
theorem getD_set4 (A : List ℕ) (w0 w1 w2 w3 : ℕ) (hA : A.length = STATE_LENGTH) {i : ℕ}
    (hi : i < STATE_LENGTH) :
    ((((A.set 0 w0).set 1 w1).set 2 w2).set 3 w3).getD i 0
      = if i = 0 then w0 else if i = 1 then w1 else if i = 2 then w2 else if i = 3 then w3
        else A.getD i 0 := by
  have l0 : (A.set 0 w0).length = STATE_LENGTH := by rw [List.length_set]; exact hA
  have l1 : ((A.set 0 w0).set 1 w1).length = STATE_LENGTH := by rw [List.length_set]; exact l0
  have l2 : (((A.set 0 w0).set 1 w1).set 2 w2).length = STATE_LENGTH := by
    rw [List.length_set]; exact l1
  split_ifs with e0 e1 e2 e3
  · subst e0
    rw [getD_set_ne (show (3 : ℕ) ≠ 0 by decide) w3, getD_set_ne (show (2 : ℕ) ≠ 0 by decide) w2,
      getD_set_ne (show (1 : ℕ) ≠ 0 by decide) w1,
      getD_set_self (show (0 : ℕ) < A.length from by rw [hA]; decide) w0]
  · subst e1
    rw [getD_set_ne (show (3 : ℕ) ≠ 1 by decide) w3, getD_set_ne (show (2 : ℕ) ≠ 1 by decide) w2,
      getD_set_self (show (1 : ℕ) < (A.set 0 w0).length from by rw [l0]; decide) w1]
  · subst e2
    rw [getD_set_ne (show (3 : ℕ) ≠ 2 by decide) w3,
      getD_set_self (show (2 : ℕ) < ((A.set 0 w0).set 1 w1).length from by rw [l1]; decide) w2]
  · subst e3
    rw [getD_set_self
      (show (3 : ℕ) < (((A.set 0 w0).set 1 w1).set 2 w2).length from by rw [l2]; decide) w3]
  · rw [getD_set_ne (Ne.symm e3) w3, getD_set_ne (Ne.symm e2) w2, getD_set_ne (Ne.symm e1) w1,
      getD_set_ne (Ne.symm e0) w0]

/-- `prepareTrits(trits, 0)` establishes the search invariant at
`size = 81`: the four counter seed slots sit below 81, every other slot
keeps the plain encoding of the trits. -/
theorem prepareTrits_inv {trits : Trits} (htr : IsTritVec trits)
    (hlen : trits.length = STATE_LENGTH) : DiverInv trits (prepareTrits trits 0) 81 := by
  have hAl : (tritsToBigInt trits STATE_LENGTH).low.length = STATE_LENGTH := by
    show (trits.map _ ++ List.replicate (STATE_LENGTH - trits.length) MAX_VALUE).length
      = STATE_LENGTH
    rw [List.length_append, List.length_map, List.length_replicate]
    omega
  have hAh : (tritsToBigInt trits STATE_LENGTH).high.length = STATE_LENGTH := by
    show (trits.map _ ++ List.replicate (STATE_LENGTH - trits.length) MAX_VALUE).length
      = STATE_LENGTH
    rw [List.length_append, List.length_map, List.length_replicate]
    omega
  have hlow : ∀ i, i < STATE_LENGTH → (prepareTrits trits 0).low.getD i 0
      = (if i = 0 then LOW_0 else if i = 1 then LOW_1 else if i = 2 then LOW_2
        else if i = 3 then LOW_3 else encLowWord (trits.getD i 0)) := by
    intro i hi
    show (((((tritsToBigInt trits STATE_LENGTH).low.set 0 LOW_0).set 1 LOW_1).set 2
        LOW_2).set 3 LOW_3).getD i 0 = _
    rw [getD_set4 _ LOW_0 LOW_1 LOW_2 LOW_3 hAl hi]
    split_ifs <;> first | rfl | rw [(tritsToBigInt_getD hlen hi).1]
  have hhigh : ∀ i, i < STATE_LENGTH → (prepareTrits trits 0).high.getD i 0
      = (if i = 0 then HIGH_0 else if i = 1 then HIGH_1 else if i = 2 then HIGH_2
        else if i = 3 then HIGH_3 else encHighWord (trits.getD i 0)) := by
    intro i hi
    show (((((tritsToBigInt trits STATE_LENGTH).high.set 0 HIGH_0).set 1 HIGH_1).set 2
        HIGH_2).set 3 HIGH_3).getD i 0 = _
    rw [getD_set4 _ HIGH_0 HIGH_1 HIGH_2 HIGH_3 hAh hi]
    split_ifs <;> first | rfl | rw [(tritsToBigInt_getD hlen hi).2]
  refine ⟨⟨?_, ?_, ?_, ?_⟩, ?_⟩
  · show (((((tritsToBigInt trits STATE_LENGTH).low.set 0 LOW_0).set 1 LOW_1).set 2
        LOW_2).set 3 LOW_3).length = STATE_LENGTH
    rw [List.length_set, List.length_set, List.length_set, List.length_set]
    exact hAl
  · show (((((tritsToBigInt trits STATE_LENGTH).high.set 0 HIGH_0).set 1 HIGH_1).set 2
        HIGH_2).set 3 HIGH_3).length = STATE_LENGTH
    rw [List.length_set, List.length_set, List.length_set, List.length_set]
    exact hAh
  · intro j hj
    rw [hlow j hj, hhigh j hj]
    split_ifs <;> first | decide | exact encWord_lt _
  · intro lane hlane j hj
    rw [hlow j hj, hhigh j hj]
    split_ifs
    · exact (seed_words_valid lane hlane).1
    · exact (seed_words_valid lane hlane).2.1
    · exact (seed_words_valid lane hlane).2.2.1
    · exact (seed_words_valid lane hlane).2.2.2
    · exact encWord_valid _ hlane
  · intro i h81 hiS
    rw [hlow i hiS, hhigh i hiS,
      if_neg (show ¬ i = 0 by omega), if_neg (show ¬ i = 1 by omega),
      if_neg (show ¬ i = 2 by omega), if_neg (show ¬ i = 3 by omega),
      if_neg (show ¬ i = 0 by omega), if_neg (show ¬ i = 1 by omega),
      if_neg (show ¬ i = 2 by omega), if_neg (show ¬ i = 3 by omega)]
    exact ⟨rfl, rfl⟩

theorem trinaryGet_length (s : BState) (n lane : ℕ) : (trinaryGet s n lane).length = n := by
  rw [trinaryGet, List.length_map, List.length_range]

theorem trinaryGet_trits (s : BState) (n lane : ℕ) : IsTritVec (trinaryGet s n lane) := by
  intro x hx
  rw [trinaryGet, List.mem_map] at hx
  obtain ⟨i, _, rfl⟩ := hx
  dsimp only
  split_ifs <;> decide

theorem trinaryGet_getD {s : BState} {n i : ℕ} (lane : ℕ) (h : i < n) :
    (trinaryGet s n lane).getD i 0
      = if (s.low.getD i 0 >>> lane) &&& 1 = 1 ∧ (s.high.getD i 0 >>> lane) &&& 1 = 0
          then (-1 : ℤ)
        else if (s.low.getD i 0 >>> lane) &&& 1 = 0 ∧ (s.high.getD i 0 >>> lane) &&& 1 = 1
          then 1
        else 0 := by
  rw [trinaryGet, getD_map_range _ h]

/-- Decoding a lane of an invariant state yields a representation of that
decoded buffer. -/
theorem DiverInv_rep {trits : Trits} {s : BState} {size : ℕ} (hinv : DiverInv trits s size)
    {lane : ℕ} (hl : lane < 64) : SliceRep s (trinaryGet s STATE_LENGTH lane) lane := by
  obtain ⟨⟨h1, h2, h3, h4⟩, _⟩ := hinv
  refine ⟨h1, h2, h3, ?_⟩
  intro i hi
  rw [trinaryGet_getD lane hi, shift_and_one, shift_and_one]
  have hv := h4 lane hl i hi
  cases hlo : (s.low.getD i 0).testBit lane <;>
    cases hhi : (s.high.getD i 0).testBit lane <;>
    rw [hlo, hhi] at hv <;> first | decide | exact absurd hv (by decide)

/-- The decoded lane agrees with the input trits on every slot the counter
never wrote. -/
theorem DiverInv_decode {trits : Trits} {s : BState} {size : ℕ}
    (htr : IsTritVec trits) (hinv : DiverInv trits s size) {lane : ℕ} (hl : lane < 64)
    {i : ℕ} (hsz : size ≤ i) (hi : i < STATE_LENGTH) :
    (trinaryGet s STATE_LENGTH lane).getD i 0 = trits.getD i 0 := by
  obtain ⟨_, h5⟩ := hinv
  obtain ⟨hlw, hhw⟩ := h5 i hsz hi
  rw [trinaryGet_getD lane hi, shift_and_one, shift_and_one, hlw, hhw]
  rcases htr.getD i with h | h | h <;> rw [h] <;>
    norm_num [encLowWord, encHighWord, MIN_VALUE, Nat.zero_testBit, max_value_testBit hl]

theorem DiverInv_decode_drop {trits : Trits} {s : BState} {size : ℕ}
    (htr : IsTritVec trits) (htlen : trits.length = STATE_LENGTH)
    (hinv : DiverInv trits s size) {lane : ℕ} (hl : lane < 64) :
    (trinaryGet s STATE_LENGTH lane).drop size = trits.drop size := by
  apply List.ext_getElem
  · rw [List.length_drop, List.length_drop, trinaryGet_length, htlen]
  · intro i h1 h2
    rw [List.length_drop, trinaryGet_length] at h1
    rw [List.getElem_drop, List.getElem_drop]
    have hi : size + i < STATE_LENGTH := by omega
    rw [← List.getD_eq_getElem (trinaryGet s STATE_LENGTH lane) 0
        (show size + i < (trinaryGet s STATE_LENGTH lane).length from by
          rw [trinaryGet_length]; exact hi),
      ← List.getD_eq_getElem trits 0 (show size + i < trits.length from by
        rw [htlen]; exact hi)]
    exact DiverInv_decode htr hinv hl (by omega) hi

theorem trinaryGet_take (s : BState) (lane : ℕ) {n : ℕ} (h : n ≤ STATE_LENGTH) :
    trinaryGet s n lane = (trinaryGet s STATE_LENGTH lane).take n := by
  rw [trinaryGet, trinaryGet, ← List.map_take, List.take_range, min_eq_left h]

theorem searchGo_zero (s : BState) (sec offset size : ℕ) :
    searchGo 0 s sec offset size = none := rfl

theorem searchGo_succ (fuel : ℕ) (s : BState) (sec offset size : ℕ) :
    searchGo (fuel + 1) s sec offset size =
      if hCheck (hTransform (increment s (offset + size * 2 / 3) (offset + size)).1) sec = 0 then
        searchGo fuel (increment s (offset + size * 2 / 3) (offset + size)).1 sec offset
          (min (roundThird (offset + size * 2 / 3 +
            (increment s (offset + size * 2 / 3) (offset + size)).2)) HASH_LENGTH - offset)
      else some (trinaryGet (increment s (offset + size * 2 / 3) (offset + size)).1
        (min (roundThird (offset + size * 2 / 3 +
          (increment s (offset + size * 2 / 3) (offset + size)).2)) HASH_LENGTH - offset)
        (hCheck (hTransform (increment s (offset + size * 2 / 3) (offset + size)).1) sec)) := by
  rfl

/-- Soundness of the search loop: any nonce it returns, absorbed into a
27-round Curl sponge holding the invariant's trits, leaves a rate whose
checksum security is exactly the requested level. -/
theorem searchGo_sound : ∀ (fuel : ℕ) (s : BState) (sec size : ℕ) (trits : Trits),
    IsTritVec trits → trits.length = STATE_LENGTH →
    1 ≤ sec → sec ≤ 3 → 81 ≤ size → size ≤ HASH_LENGTH → DiverInv trits s size →
    ∀ nonce, searchGo fuel s sec 0 size = some nonce →
      checksumSecurity (((⟨27, trits⟩ : Curl).absorb nonce 0 nonce.length).rate
        HASH_LENGTH) = sec := by
  intro fuel
  induction fuel with
  | zero =>
      intro s sec size trits _ _ _ _ _ _ _ nonce h
      exact Option.noConfusion ((searchGo_zero s sec 0 size).symm.trans h)
  | succ fuel ih =>
      intro s sec size trits htr htlen hs1 hs3 hsz81 hsz243 hinv nonce hsome
      rw [searchGo_succ] at hsome
      have hH : HASH_LENGTH = 243 := rfl
      have hSL : STATE_LENGTH = 729 := by decide
      have hcnt : (0 + size) - (0 + size * 2 / 3)
          ≤ (increment s (0 + size * 2 / 3) (0 + size)).2 :=
        increment_count_ge s _ _
      set s' := (increment s (0 + size * 2 / 3) (0 + size)).1 with hs'
      set size' := min (roundThird (0 + size * 2 / 3 +
        (increment s (0 + size * 2 / 3) (0 + size)).2)) HASH_LENGTH - 0 with hsize'
      have hrt := roundThird_ge (0 + size * 2 / 3 +
        (increment s (0 + size * 2 / 3) (0 + size)).2)
      have hle : size ≤ size' ∧ 81 ≤ size' ∧ size' ≤ HASH_LENGTH := by
        rw [hsize']
        omega
      obtain ⟨g1, g2⟩ := incrementGo_spec size s (0 + size * 2 / 3) (0 + size)
        (by omega) (by omega) hinv.1
      have hwf' : BStateWF s' := by
        rw [hs', increment_fst]
        exact g1
      have hinv' : DiverInv trits s' size' := by
        refine ⟨hwf', ?_⟩
        intro i hge hiS
        have hun := g2 i (Or.inr (show 0 + size ≤ i by omega))
        have e1 : s'.low.getD i 0 = s.low.getD i 0 := by
          rw [hs', increment_fst]
          exact hun.1
        have e2 : s'.high.getD i 0 = s.high.getD i 0 := by
          rw [hs', increment_fst]
          exact hun.2
        rw [e1, e2]
        exact hinv.2 i (by omega) hiS
      by_cases hidx : hCheck (hTransform s') sec = 0
      · rw [if_pos hidx] at hsome
        exact ih s' sec size' trits htr htlen hs1 hs3 hle.2.1 hle.2.2 hinv' nonce hsome
      · rw [if_neg hidx] at hsome
        injection hsome with hmsg
        have hnonce : nonce = trinaryGet s' size' (hCheck (hTransform s') sec) := hmsg.symm
        obtain ⟨hpassL, hlt64⟩ := hCheck_pass hidx
        set lane := hCheck (hTransform s') sec with hlane
        set w := trinaryGet s' STATE_LENGTH lane with hwdef
        have hwtr : IsTritVec w := by
          rw [hwdef]
          exact trinaryGet_trits s' STATE_LENGTH lane
        have hwlen : w.length = STATE_LENGTH := by
          rw [hwdef]
          exact trinaryGet_length s' STATE_LENGTH lane
        have hrep : SliceRep s' w lane := by
          rw [hwdef]
          exact DiverInv_rep hinv' hlt64
        have hrep27 := hRound_iterate_rep hlt64 hwtr hrep 27
        have hchk : checksumSecurity ((curlRound^[27] w).take HASH_LENGTH) = sec := by
          refine laneCheck_checksum (iterate_curlRound_trits hwtr 27) ?_ hrep27 hs1 hs3 ?_
          · rw [iterate_curlRound_length, if_neg (show ¬ (27 = 0) by omega)]
          · exact (show laneCheck (hRound^[27] s') lane sec = true from hpassL)
        have hnlen : nonce.length = size' := by
          rw [hnonce]
          exact trinaryGet_length s' size' lane
        have htake : nonce = w.take size' := by
          rw [hnonce, hwdef]
          exact trinaryGet_take s' lane (show size' ≤ STATE_LENGTH by omega)
        have hdrop : w.drop size' = trits.drop size' := by
          rw [hwdef]
          exact DiverInv_decode_drop htr htlen hinv' hlt64
        have hsetPre : setPre nonce trits = w := by
          rw [setPre, hnlen, htake, ← hdrop]
          exact List.take_append_drop size' w
        have habs : ((⟨27, trits⟩ : Curl).absorb nonce 0 nonce.length)
            = Curl.transform ⟨27, w⟩ := by
          rw [Curl.absorb, absorbLoop_le (show nonce.length ≤ HASH_LENGTH by omega),
            List.drop_zero, List.take_length,
            show ((⟨27, trits⟩ : Curl)).rounds = 27 from rfl,
            show ((⟨27, trits⟩ : Curl)).state = trits from rfl, hsetPre]
        rw [habs,
          show (Curl.transform ⟨27, w⟩).rate HASH_LENGTH
            = (curlRound^[27] w).take HASH_LENGTH from rfl]
        exact hchk

/-- Soundness of `HammingDiver.search(trits, sec, 81, 0)`: every returned
nonce, absorbed into a 27-round Curl sponge whose state is the given
trits, yields a rate of checksum security at least `sec`. -/
def SearchSound (fuel : ℕ) (trits : Trits) (sec : ℕ) : Prop :=
  ∀ nonce, hammingSearch fuel trits sec 81 0 = some nonce →
    sec ≤ checksumSecurity (((⟨27, trits⟩ : Curl).absorb nonce 0 nonce.length).rate HASH_LENGTH)

theorem hammingSearch_81 (fuel : ℕ) (trits : Trits) (sec : ℕ) :
    hammingSearch fuel trits sec 81 0 = searchGo fuel (prepareTrits trits 0) sec 0 81 := by
  show searchGo fuel (prepareTrits trits 0) sec 0 (min 81 HASH_LENGTH - 0) = _
  rw [show min 81 HASH_LENGTH - 0 = 81 from by decide]

/-- C7: for every 729-trit sponge state and every security level `sec` in
`{1, 2, 3}`, whenever `HammingDiver.search(state, sec, 81, 0)` returns a
nonce, absorbing that nonce into a 27-round Curl sponge whose state equals
the given initial state yields a rate whose `checksumSecurity` is at least
`sec`. -/
theorem claim_C7_search_nonce (fuel : ℕ) (trits : Trits) (sec : ℕ)
    (htr : IsTritVec trits) (htlen : trits.length = STATE_LENGTH)
    (hsec1 : 1 ≤ sec) (hsec3 : sec ≤ 3) : SearchSound fuel trits sec := by
  intro nonce h
  rw [hammingSearch_81] at h
  exact (searchGo_sound fuel (prepareTrits trits 0) sec 81 trits htr htlen hsec1 hsec3
    (le_refl 81) (by decide) (prepareTrits_inv htr htlen) nonce h).ge

theorem claim_C7_search_nonce_witness :
    SearchSound 0 (List.replicate STATE_LENGTH (0 : ℤ)) 1 :=
  claim_C7_search_nonce 0 (List.replicate STATE_LENGTH 0) 1 (by decide)
    (by rw [List.length_replicate]) (by decide) (by decide)

/-! ## Further facts about absorbing, masking and the search output -/

/-- `absorbLoop` only reads the `length` trits from `offset` on: two
buffers that agree there absorb identically. -/
theorem absorbLoop_congr : ∀ (n : ℕ) (c : Curl) (P Q : Trits) (offset : ℕ),
    (P.drop offset).take n = (Q.drop offset).take n →
    c.absorbLoop P offset n = c.absorbLoop Q offset n := by
  intro n
  induction n using Nat.strong_induction_on with
  | _ n ih =>
    intro c P Q offset h
    rcases le_or_lt n HASH_LENGTH with hle | hgt
    · rw [absorbLoop_le hle, absorbLoop_le hle, h]
    · have hchunk : (P.drop offset).take HASH_LENGTH = (Q.drop offset).take HASH_LENGTH := by
        have e2 : ∀ R : Trits, (R.drop offset).take HASH_LENGTH
            = ((R.drop offset).take n).take HASH_LENGTH := by
          intro R
          rw [List.take_take, min_eq_left (le_of_lt hgt)]
        rw [e2 P, e2 Q, h]
      have e1 : ∀ R : Trits, ((R.drop offset).take n).drop HASH_LENGTH
          = (R.drop (offset + HASH_LENGTH)).take (n - HASH_LENGTH) := by
        intro R
        rw [List.drop_take, List.drop_drop]
      have h' : (P.drop (offset + HASH_LENGTH)).take (n - HASH_LENGTH)
          = (Q.drop (offset + HASH_LENGTH)).take (n - HASH_LENGTH) := by
        rw [← e1 P, ← e1 Q, h]
      rw [absorbLoop_gt hgt, absorbLoop_gt hgt, hchunk]
      exact ih (n - HASH_LENGTH) (by simp only [HASH_LENGTH] at *; omega) _ P Q
        (offset + HASH_LENGTH) h'

theorem absorb_congr {P Q : Trits} {n : ℕ} (h : P.take n = Q.take n) (c : Curl) :
    c.absorb P 0 n = c.absorb Q 0 n := by
  rw [Curl.absorb, Curl.absorb]
  exact absorbLoop_congr n c P Q 0 (by rw [List.drop_zero, List.drop_zero, h])

theorem squeeze_rate (c : Curl) : (c.squeeze HASH_LENGTH).1 = c.rate HASH_LENGTH := by
  rw [Curl.squeeze, squeezeLoop_le (le_refl _)]
  rfl

theorem tritSum_trit {x y : ℤ} (hx : IsTrit x) (hy : IsTrit y) : IsTrit (tritSum x y) := by
  rcases hx with rfl | rfl | rfl <;> rcases hy with rfl | rfl | rfl <;> decide

theorem zipWith_trits (f : ℤ → ℤ → ℤ) (hf : ∀ x y, IsTrit x → IsTrit y → IsTrit (f x y)) :
    ∀ (a b : Trits), IsTritVec a → IsTritVec b → IsTritVec (List.zipWith f a b) := by
  intro a
  induction a with
  | nil =>
      intro b _ _ z hz
      rw [List.zipWith_nil_left] at hz
      exact absurd hz (List.not_mem_nil z)
  | cons x a' ih =>
      intro b ha hb
      cases b with
      | nil =>
          intro z hz
          rw [List.zipWith_nil_right] at hz
          exact absurd hz (List.not_mem_nil z)
      | cons y b' =>
          rw [List.zipWith_cons_cons]
          intro z hz
          rcases List.mem_cons.mp hz with rfl | hz
          · exact hf x y (ha x (by simp)) (hb y (by simp))
          · exact ih b' (fun w hw => ha w (by simp [hw])) (fun w hw => hb w (by simp [hw])) z hz

/-- `mask` keeps the payload's length and trit-ness, and leaves a
well-formed sponge. -/
theorem mask_props : ∀ (N : ℕ) (p : Trits), p.length ≤ N → IsTritVec p →
    ∀ c : Curl, GoodCurl c →
    (mask p c).1.length = p.length ∧ IsTritVec (mask p c).1 ∧ GoodCurl (mask p c).2 := by
  intro N
  induction N with
  | zero =>
      intro p hpN _ c hc
      have hpe : p = [] := List.eq_nil_of_length_eq_zero (by omega)
      subst hpe
      rw [mask, chunks243_nil, maskGo_nil]
      exact ⟨rfl, fun x hx => absurd hx (List.not_mem_nil x), hc⟩
  | succ N ih =>
      intro p hpN hp c hc
      by_cases hpe : p = []
      · subst hpe
        rw [mask, chunks243_nil, maskGo_nil]
        exact ⟨rfl, fun x hx => absurd hx (List.not_mem_nil x), hc⟩
      · have hkey_len := rate_length hc
        have hkey_tr := rate_trits hc
        rcases le_or_lt p.length HASH_LENGTH with hple | hpgt
        · have htake : p.take HASH_LENGTH = p := List.take_of_length_le hple
          have hdrop : p.drop HASH_LENGTH = [] := List.drop_eq_nil_of_le hple
          have hm : mask p c = (List.zipWith tritSum p (c.rate HASH_LENGTH),
              c.absorb p 0 p.length) := by
            rw [mask, chunks243_cons hpe, maskGo_cons, hdrop, chunks243_nil, maskGo_nil, htake]
            simp
          rw [hm]
          refine ⟨?_, ?_, ?_⟩
          · rw [List.length_zipWith, hkey_len]
            omega
          · exact zipWith_trits tritSum (fun x y hx hy => tritSum_trit hx hy) p _ hp hkey_tr
          · exact GoodCurl.absorb hc hp 0 _
        · have hchunk_tr : IsTritVec (p.take HASH_LENGTH) := take_trits hp _
          have hchunk_len : (p.take HASH_LENGTH).length = HASH_LENGTH := by
            rw [List.length_take]
            omega
          have hc' : GoodCurl (c.absorb (p.take HASH_LENGTH) 0 (p.take HASH_LENGTH).length) :=
            GoodCurl.absorb hc hchunk_tr 0 _
          have hkey' : setPre ((((c.absorb (p.take HASH_LENGTH) 0 (p.take HASH_LENGTH).length).rate
              HASH_LENGTH)).take (p.take HASH_LENGTH).length) (c.rate HASH_LENGTH)
              = (c.absorb (p.take HASH_LENGTH) 0 (p.take HASH_LENGTH).length).rate HASH_LENGTH := by
            rw [List.take_of_length_le (le_of_eq (by rw [rate_length hc', hchunk_len])), setPre,
              List.drop_eq_nil_of_le (le_of_eq (by rw [hkey_len, rate_length hc'])),
              List.append_nil]
          have hm : mask p c = (List.zipWith tritSum (p.take HASH_LENGTH) (c.rate HASH_LENGTH) ++
              (mask (p.drop HASH_LENGTH)
                (c.absorb (p.take HASH_LENGTH) 0 (p.take HASH_LENGTH).length)).1,
              (mask (p.drop HASH_LENGTH)
                (c.absorb (p.take HASH_LENGTH) 0 (p.take HASH_LENGTH).length)).2) := by
            rw [mask, chunks243_cons hpe, maskGo_cons, hkey', mask]
          obtain ⟨ih1, ih2, ih3⟩ := ih (p.drop HASH_LENGTH)
            (by rw [List.length_drop]; simp only [HASH_LENGTH] at *; omega)
            (drop_trits hp _) _ hc'
          rw [hm]
          refine ⟨?_, ?_, ?_⟩
          · rw [List.length_append, ih1, List.length_zipWith, hkey_len, List.length_take,
              List.length_drop]
            omega
          · exact append_trits
              (zipWith_trits tritSum (fun x y hx hy => tritSum_trit hx hy) _ _ hchunk_tr hkey_tr)
              ih2
          · exact ih3

theorem mask_length {p : Trits} {c : Curl} (hp : IsTritVec p) (hc : GoodCurl c) :
    (mask p c).1.length = p.length :=
  (mask_props p.length p (le_refl _) hp c hc).1

theorem mask_trits {p : Trits} {c : Curl} (hp : IsTritVec p) (hc : GoodCurl c) :
    IsTritVec (mask p c).1 :=
  (mask_props p.length p (le_refl _) hp c hc).2.1

theorem mask_good {p : Trits} {c : Curl} (hp : IsTritVec p) (hc : GoodCurl c) :
    GoodCurl (mask p c).2 :=
  (mask_props p.length p (le_refl _) hp c hc).2.2

theorem maskGo_rounds : ∀ (chunks : List Trits) (c : Curl) (k : Trits),
    (maskGo c k chunks).2.rounds = c.rounds := by
  intro chunks
  induction chunks with
  | nil => intro c k; rfl
  | cons chunk rest ih =>
      intro c k
      rw [maskGo_cons]
      exact (ih _ _).trans (Curl.absorb_rounds c chunk 0 chunk.length)

theorem mask_rounds (p : Trits) (c : Curl) : (mask p c).2.rounds = c.rounds :=
  maskGo_rounds (chunks243 p) c (c.rate HASH_LENGTH)

/-- A single-chunk `mask` advances the sponge by one absorb of the plain
payload. -/
theorem mask_single_sponge {p : Trits} (h0 : p ≠ []) (hle : p.length ≤ HASH_LENGTH) (c : Curl) :
    (mask p c).2 = c.absorb p 0 p.length := by
  rw [mask, chunks243_cons h0, List.take_of_length_le hle, List.drop_eq_nil_of_le hle,
    chunks243_nil, maskGo_cons, maskGo_nil]

/-- One chunk step of `unmask`. -/
theorem unmask_step {x : Trits} (h0 : x ≠ []) (c : Curl) :
    unmask x c =
      (List.zipWith (fun a s => tritSum a (-s)) (x.take HASH_LENGTH) (c.rate HASH_LENGTH) ++
        (unmask (x.drop HASH_LENGTH)
          (c.absorb (List.zipWith (fun a s => tritSum a (-s)) (x.take HASH_LENGTH)
            (c.rate HASH_LENGTH)) 0 HASH_LENGTH)).1,
       (unmask (x.drop HASH_LENGTH)
          (c.absorb (List.zipWith (fun a s => tritSum a (-s)) (x.take HASH_LENGTH)
            (c.rate HASH_LENGTH)) 0 HASH_LENGTH)).2) := by
  rw [unmask, chunks243_cons h0, unmaskGo_cons]
  rfl

/-- `unmask` keeps the buffer's length and trit-ness and leaves a
well-formed sponge. -/
theorem unmask_props : ∀ (N : ℕ) (x : Trits), x.length ≤ N → IsTritVec x →
    ∀ c : Curl, GoodCurl c →
    (unmask x c).1.length = x.length ∧ IsTritVec (unmask x c).1 ∧ GoodCurl (unmask x c).2 := by
  intro N
  induction N with
  | zero =>
      intro x hxN _ c hc
      have hxe : x = [] := List.eq_nil_of_length_eq_zero (by omega)
      subst hxe
      rw [unmask, chunks243_nil, unmaskGo_nil]
      exact ⟨rfl, fun z hz => absurd hz (List.not_mem_nil z), hc⟩
  | succ N ih =>
      intro x hxN hx c hc
      by_cases hxe : x = []
      · subst hxe
        rw [unmask, chunks243_nil, unmaskGo_nil]
        exact ⟨rfl, fun z hz => absurd hz (List.not_mem_nil z), hc⟩
      · have hxpos : 0 < x.length := List.length_pos.mpr hxe
        have hrec_tr : IsTritVec (List.zipWith (fun a s => tritSum a (-s)) (x.take HASH_LENGTH)
            (c.rate HASH_LENGTH)) :=
          zipWith_trits _ (fun a b ha hb => tritSum_trit ha (IsTrit.neg hb)) _ _
            (take_trits hx _) (rate_trits hc)
        have hc' : GoodCurl (c.absorb (List.zipWith (fun a s => tritSum a (-s))
            (x.take HASH_LENGTH) (c.rate HASH_LENGTH)) 0 HASH_LENGTH) :=
          GoodCurl.absorb hc hrec_tr 0 _
        obtain ⟨ih1, ih2, ih3⟩ := ih (x.drop HASH_LENGTH)
          (by rw [List.length_drop]; simp only [HASH_LENGTH]; omega) (drop_trits hx _) _ hc'
        rw [unmask_step hxe]
        refine ⟨?_, append_trits hrec_tr ih2, ih3⟩
        rw [List.length_append, ih1, List.length_zipWith, List.length_take, rate_length hc,
          List.length_drop]
        omega

/-- Splitting `unmask` at an exact 243-trit chunk boundary. -/
theorem unmask_chunk_append {x1 : Trits} (h : x1.length = HASH_LENGTH) (x2 : Trits) (c : Curl) :
    unmask (x1 ++ x2) c = ((unmask x1 c).1 ++ (unmask x2 (unmask x1 c).2).1,
      (unmask x2 (unmask x1 c).2).2) := by
  have hx1ne : x1 ≠ [] := by
    intro hcon
    rw [hcon] at h
    simp only [List.length_nil, HASH_LENGTH] at h
    omega
  have hne : x1 ++ x2 ≠ [] := by
    intro hcon
    have h2 := congrArg List.length hcon
    rw [List.length_append, h] at h2
    simp only [List.length_nil, HASH_LENGTH] at h2
    omega
  have hu1 : unmask x1 c
      = (List.zipWith (fun a s => tritSum a (-s)) x1 (c.rate HASH_LENGTH),
         c.absorb (List.zipWith (fun a s => tritSum a (-s)) x1 (c.rate HASH_LENGTH))
           0 HASH_LENGTH) := by
    rw [unmask_step hx1ne, List.take_of_length_le (le_of_eq h),
      List.drop_eq_nil_of_le (le_of_eq h), unmask, chunks243_nil, unmaskGo_nil]
    simp
  rw [unmask, chunks243_cons hne, take_append_len h, drop_append_len h, unmaskGo_cons, hu1]
  rfl

/-- `zipWith` never reads the second list past the first's length. -/
theorem zipWith_take_right (f : ℤ → ℤ → ℤ) :
    ∀ (a b : List ℤ), List.zipWith f a (b.take a.length) = List.zipWith f a b := by
  intro a
  induction a with
  | nil => intro b; rfl
  | cons x a' ih =>
      intro b
      cases b with
      | nil => rfl
      | cons y b' =>
          rw [List.length_cons, List.take_succ_cons, List.zipWith_cons_cons,
            List.zipWith_cons_cons, ih]

/-- The recovered prefix of `unmask` does not depend on trits appended
after the buffer (the source only ever reads completed positions). -/
theorem unmask_prefix : ∀ (N : ℕ) (x : Trits), x.length ≤ N → IsTritVec x →
    ∀ (extra : Trits) (c : Curl), GoodCurl c →
    (unmask (x ++ extra) c).1.take x.length = (unmask x c).1 := by
  intro N
  induction N with
  | zero =>
      intro x hxN _ extra c _
      have hxe : x = [] := List.eq_nil_of_length_eq_zero (by omega)
      subst hxe
      rw [List.length_nil, List.take_zero, unmask, chunks243_nil, unmaskGo_nil]
  | succ N ih =>
      intro x hxN hx extra c hc
      by_cases hxe : x = []
      · subst hxe
        rw [List.length_nil, List.take_zero, unmask, chunks243_nil, unmaskGo_nil]
      · have hxpos : 0 < x.length := List.length_pos.mpr hxe
        have hkey_len := rate_length hc
        rcases le_or_lt HASH_LENGTH x.length with hfull | hpart
        · -- the first chunk lies entirely inside `x`
          have hne2 : x ++ extra ≠ [] := by
            intro hcon
            have h2 := congrArg List.length hcon
            rw [List.length_append] at h2
            simp only [List.length_nil] at h2
            omega
          have ht : (x ++ extra).take HASH_LENGTH = x.take HASH_LENGTH :=
            List.take_append_of_le_length hfull
          have hd : (x ++ extra).drop HASH_LENGTH = x.drop HASH_LENGTH ++ extra :=
            List.drop_append_of_le_length hfull
          have hrec_tr : IsTritVec (List.zipWith (fun a s => tritSum a (-s)) (x.take HASH_LENGTH)
              (c.rate HASH_LENGTH)) :=
            zipWith_trits _ (fun a b ha hb => tritSum_trit ha (IsTrit.neg hb)) _ _
              (take_trits hx _) (rate_trits hc)
          have hc' : GoodCurl (c.absorb (List.zipWith (fun a s => tritSum a (-s))
              (x.take HASH_LENGTH) (c.rate HASH_LENGTH)) 0 HASH_LENGTH) :=
            GoodCurl.absorb hc hrec_tr 0 _
          have hreclen : (List.zipWith (fun a s => tritSum a (-s)) (x.take HASH_LENGTH)
              (c.rate HASH_LENGTH)).length = HASH_LENGTH := by
            rw [List.length_zipWith, List.length_take, hkey_len]
            omega
          rw [unmask_step hne2, ht, hd, unmask_step hxe]
          rw [show x.length = (List.zipWith (fun a s => tritSum a (-s)) (x.take HASH_LENGTH)
              (c.rate HASH_LENGTH)).length + (x.length - HASH_LENGTH) from by
            rw [hreclen]; omega]
          rw [List.take_append]
          rw [show x.length - HASH_LENGTH = (x.drop HASH_LENGTH).length from by
            rw [List.length_drop]]
          rw [ih (x.drop HASH_LENGTH)
            (by rw [List.length_drop]; simp only [HASH_LENGTH]; omega) (drop_trits hx _)
            extra _ hc']
        · -- the whole of `x` sits inside the first (partial) chunk
          have hne2 : x ++ extra ≠ [] := by
            intro hcon
            have h2 := congrArg List.length hcon
            rw [List.length_append] at h2
            simp only [List.length_nil] at h2
            omega
          have hx' : x.take HASH_LENGTH = x := List.take_of_length_le (le_of_lt hpart)
          have hx'' : x.drop HASH_LENGTH = [] := List.drop_eq_nil_of_le (le_of_lt hpart)
          have hu : unmask x c
              = (List.zipWith (fun a s => tritSum a (-s)) x (c.rate HASH_LENGTH),
                 c.absorb (List.zipWith (fun a s => tritSum a (-s)) x (c.rate HASH_LENGTH))
                   0 HASH_LENGTH) := by
            rw [unmask_step hxe, hx', hx'', unmask, chunks243_nil, unmaskGo_nil]
            simp
          rw [unmask_step hne2, hu]
          have hlen1 : x.length ≤ (List.zipWith (fun a s => tritSum a (-s))
              ((x ++ extra).take HASH_LENGTH) (c.rate HASH_LENGTH)).length := by
            rw [List.length_zipWith, List.length_take, List.length_append, hkey_len]
            omega
          rw [List.take_append_of_le_length hlen1]
          rw [List.take_zipWith]
          rw [List.take_take, min_eq_left (le_of_lt hpart), take_append_len rfl,
            zipWith_take_right]

theorem searchGo_trits : ∀ (fuel : ℕ) (s : BState) (sec offset size : ℕ) (nonce : Trits),
    searchGo fuel s sec offset size = some nonce → IsTritVec nonce := by
  intro fuel
  induction fuel with
  | zero =>
      intro s sec offset size nonce h
      exact Option.noConfusion ((searchGo_zero s sec offset size).symm.trans h)
  | succ fuel ih =>
      intro s sec offset size nonce h
      rw [searchGo_succ] at h
      by_cases hidx : hCheck (hTransform
          (increment s (offset + size * 2 / 3) (offset + size)).1) sec = 0
      · rw [if_pos hidx] at h
        exact ih _ _ _ _ _ h
      · rw [if_neg hidx] at h
        injection h with h2
        rw [← h2]
        exact trinaryGet_trits _ _ _

theorem hammingSearch_trits {fuel : ℕ} {trits : Trits} {sec len off : ℕ} {nonce : Trits}
    (h : hammingSearch fuel trits sec len off = some nonce) : IsTritVec nonce :=
  searchGo_trits fuel (prepareTrits trits off) sec off (min len HASH_LENGTH - off) nonce h

/-! ## Facts about addresses, subseeds and keys -/

theorem incTrits_trits : ∀ {t : Trits}, IsTritVec t → IsTritVec (incTrits t) := by
  intro t
  induction t with
  | nil => intro _; exact fun x hx => absurd hx (List.not_mem_nil x)
  | cons x rest ih =>
      intro h
      have hx : IsTrit x := h x (List.mem_cons_self x rest)
      have hrest : IsTritVec rest := fun z hz => h z (List.mem_cons_of_mem x hz)
      by_cases h1 : 1 ≤ x
      · rw [show incTrits (x :: rest) = -1 :: incTrits rest from by rw [incTrits, if_pos h1]]
        intro z hz
        rcases List.mem_cons.mp hz with rfl | hz
        · decide
        · exact ih hrest z hz
      · rw [show incTrits (x :: rest) = (x + 1) :: rest from by rw [incTrits, if_neg h1]]
        intro z hz
        rcases List.mem_cons.mp hz with rfl | hz
        · rcases hx with rfl | rfl | rfl
          · decide
          · decide
          · exact absurd (le_refl (1 : ℤ)) h1
        · exact hrest z hz

theorem incTrits_iterate_trits {s : Trits} (hs : IsTritVec s) (n : ℕ) :
    IsTritVec (incTrits^[n] s) := by
  induction n with
  | zero => exact hs
  | succ n ih =>
      rw [Function.iterate_succ_apply']
      exact incTrits_trits ih

theorem subseed_trits {s : Trits} (hs : IsTritVec s) (i : ℕ) : IsTritVec (subseed s i) := by
  show IsTritVec (((Curl.new 27).absorb (incTrits^[i] s) 0
    (incTrits^[i] s).length).squeeze HASH_LENGTH).1
  rw [squeeze_rate]
  exact rate_trits (GoodCurl.absorb (GoodCurl.new 27) (incTrits_iterate_trits hs i) 0 _)

theorem digestFromSubseed_facts {ss : Trits} (hss : IsTritVec ss) {L : ℕ} (hL : 1 ≤ L) :
    IsTritVec (digestFromSubseed ss L) ∧ (digestFromSubseed ss L).length = HASH_LENGTH := by
  rw [digestFromSubseed_spec ss hss L hL]
  have hgood : GoodCurl ((Curl.new 27).absorb ss 0 ss.length) :=
    GoodCurl.absorb (GoodCurl.new 27) hss 0 _
  have htr : IsTritVec (concatFrags (fun i =>
      fragHash^[27]
        ((Curl.transform^[i] ((Curl.new 27).absorb ss 0 ss.length)).state.take HASH_LENGTH))
      (L * 27)) := by
    refine concatFrags_trits fun i hi => ?_
    refine (fragHash_iterate (take_trits (GoodCurl.iterate_transform hgood i).2 _) ?_ 27).1
    rw [List.length_take, (GoodCurl.iterate_transform hgood i).1]
    decide
  exact ⟨fragHash_trits htr, fragHash_length htr⟩

theorem address_eq (D : Trits) :
    address D = ((Curl.new 27).absorb D 0 D.length).rate HASH_LENGTH := by
  show (((Curl.new 27).absorb D 0 D.length).squeeze HASH_LENGTH).1 = _
  exact squeeze_rate _

theorem address_facts {D : Trits} (hD : IsTritVec D) :
    IsTritVec (address D) ∧ (address D).length = HASH_LENGTH := by
  rw [address_eq]
  have hg : GoodCurl ((Curl.new 27).absorb D 0 D.length) :=
    GoodCurl.absorb (GoodCurl.new 27) hD 0 _
  exact ⟨rate_trits hg, rate_length hg⟩

theorem privateKey_len {ss : Trits} (hss : IsTritVec ss) {L : ℕ} (hL1 : 1 ≤ L) :
    (privateKeyFromSubseed ss L).length = HASH_LENGTH * (L * 27) := by
  have hgood : GoodCurl ((Curl.new 27).absorb ss 0 ss.length) :=
    GoodCurl.absorb (GoodCurl.new 27) hss 0 _
  rw [privateKey_spec ss hss L hL1]
  exact concatFrags_length fun i _ =>
    fragHash_length (take_trits (GoodCurl.iterate_transform hgood i).2 _)

theorem hashTryte_bounds {h : Trits} (hh : IsTritVec h) (i : ℕ) :
    MIN_TRYTE_VALUE ≤ hashTryte h i ∧ hashTryte h i ≤ MAX_TRYTE_VALUE := by
  have h1 := hh.getD (i * 3)
  have h2 := hh.getD (i * 3 + 1)
  have h3 := hh.getD (i * 3 + 2)
  rcases h1 with e | e | e <;> rcases h2 with f | f | f <;> rcases h3 with g | g | g <;>
    rw [hashTryte, e, f, g] <;> exact ⟨by decide, by decide⟩

/-! ## The message round trip -/

/-- The payload `createMessage` assembles, before the zero padding: the
pascal header, then the masked `nextRoot || message`, masked nonce and
masked `signature || siblings header || siblings`. -/
def buildBody (st : ChannelState) (message : List Char) (nonce : Trits) : Trits :=
  (buildPre st message).1 ++
    (mask nonce (buildPre st message).2).1 ++
    (mask (signature ((mask nonce (buildPre st message).2).2.rate HASH_LENGTH)
        (getSubtree (merkleTree st.seed st.start st.count st.security) st.index).1 ++
      (pascalEncode
        (((((getSubtree (merkleTree st.seed st.start st.count st.security) st.index).2).map
          MNode.addr).flatten).length / HASH_LENGTH)).getD [] ++
      ((((getSubtree (merkleTree st.seed st.start st.count st.security) st.index).2).map
        MNode.addr).flatten))
      (mask nonce (buildPre st message).2).2).1

theorem buildMessage_payload (st : ChannelState) (message : List Char) (nonce : Trits) :
    (buildMessage st message nonce).1.payload
      = fromTrits (buildBody st message nonce ++
          List.replicate ((3 - (buildBody st message nonce).length % 3) % 3) 0) := rfl

theorem buildMessage_root (st : ChannelState) (message : List Char) (nonce : Trits) :
    (buildMessage st message nonce).1.root
      = fromTrits (merkleTree st.seed st.start st.count st.security).addr := rfl

theorem buildMessage_state (st : ChannelState) (message : List Char) (nonce : Trits) :
    (buildMessage st message nonce).2
      = advanceState st
          (merkleTree st.seed (st.start + st.count) st.nextCount st.security).addr := rfl

theorem createMessageF_eq {fuel : ℕ} {st : ChannelState} {message : List Char} {nonce : Trits}
    (htm : isTrytes message)
    (hs : hammingSearch fuel ((buildPre st message).2.rate STATE_LENGTH) st.security
      (HASH_LENGTH / 3) 0 = some nonce) :
    createMessageF fuel st message = some (buildMessage st message nonce) := by
  rw [createMessageF, if_pos htm, hs]

/-- The heart of the round trip: on a one-leaf channel window, parsing the
payload `createMessage` builds (with any trailing padding trits keeping
the length a multiple of 3) against the message's root and the channel's
side key recovers the message trytes and the next root. -/
theorem parse_of_build
    (st : ChannelState) (message : List Char) (nonce : Trits) (fuel : ℕ)
    (hcount : st.count = 1) (hnext : st.nextCount = 1) (hidx : st.index = 0)
    (hsec1 : 1 ≤ st.security) (hsec3 : st.security ≤ 3)
    (htm : isTrytes message)
    (hsearch : hammingSearch fuel ((buildPre st message).2.rate STATE_LENGTH) st.security
      (HASH_LENGTH / 3) 0 = some nonce)
    (hn81 : nonce.length = 81)
    (pad : Trits) (hpadtr : IsTritVec pad)
    (hpadlen : (buildBody st message nonce ++ pad).length % 3 = 0) :
    parseMessageF (fromTrits (buildBody st message nonce ++ pad))
        (fromTrits (merkleTree st.seed st.start st.count st.security).addr) st.sideKey
      = some (message,
          fromTrits (merkleTree st.seed (st.start + st.count) st.nextCount st.security).addr) := by
  have htree1 : merkleTree st.seed st.start st.count st.security
      = MNode.node (MNode.leaf (generateAddress (toTrits st.seed) (st.start + 0) st.security).1
          (generateAddress (toTrits st.seed) (st.start + 0) st.security).2) none
          (generateAddress (toTrits st.seed) (st.start + 0) st.security).1 := by
    rw [hcount]
    exact merkleTree_single st.seed st.start st.security
  have htreeaddr : (merkleTree st.seed st.start st.count st.security).addr
      = (generateAddress (toTrits st.seed) (st.start + 0) st.security).1 := by
    rw [htree1]
    rfl
  have hsub : getSubtree (merkleTree st.seed st.start st.count st.security) st.index
      = ((generateAddress (toTrits st.seed) (st.start + 0) st.security).2,
         ([] : List MNode)) := by
    rw [htree1]
    exact getSubtree_single _ _ _ _
  have hnrtree : merkleTree st.seed (st.start + st.count) st.nextCount st.security
      = MNode.node (MNode.leaf
          (generateAddress (toTrits st.seed) (st.start + st.count + 0) st.security).1
          (generateAddress (toTrits st.seed) (st.start + st.count + 0) st.security).2) none
          (generateAddress (toTrits st.seed) (st.start + st.count + 0) st.security).1 := by
    rw [hnext]
    exact merkleTree_single st.seed (st.start + st.count) st.security
  have hnraddr : (merkleTree st.seed (st.start + st.count) st.nextCount st.security).addr
      = (generateAddress (toTrits st.seed) (st.start + st.count + 0) st.security).1 := by
    rw [hnrtree]
    rfl
  set A := (generateAddress (toTrits st.seed) (st.start + 0) st.security).1 with hAdef
  set K := (generateAddress (toTrits st.seed) (st.start + 0) st.security).2 with hKdef
  set nr := (generateAddress (toTrits st.seed) (st.start + st.count + 0) st.security).1
    with hnrdef
  set ss := subseed (toTrits st.seed) (st.start + 0) with hssdef
  set ss2 := subseed (toTrits st.seed) (st.start + st.count + 0) with hss2def
  have hAeq : A = address (digestFromSubseed ss st.security) := rfl
  have hKeq : K = privateKeyFromSubseed ss st.security := rfl
  have hnreq : nr = address (digestFromSubseed ss2 st.security) := rfl
  have hsstr : IsTritVec ss := by
    rw [hssdef]
    exact subseed_trits (toTrits_trits st.seed) _
  have hss2tr : IsTritVec ss2 := by
    rw [hss2def]
    exact subseed_trits (toTrits_trits st.seed) _
  obtain ⟨hDtr, hDlen⟩ := digestFromSubseed_facts hsstr hsec1
  obtain ⟨hD2tr, hD2len⟩ := digestFromSubseed_facts hss2tr hsec1
  have hAfacts : IsTritVec A ∧ A.length = HASH_LENGTH := by
    rw [hAeq]
    exact address_facts hDtr
  obtain ⟨hAtr, hAlen⟩ := hAfacts
  have hnrfacts : IsTritVec nr ∧ nr.length = HASH_LENGTH := by
    rw [hnreq]
    exact address_facts hD2tr
  obtain ⟨hnrtr, hnrlen⟩ := hnrfacts
  have hmttr : IsTritVec (toTrits message) := toTrits_trits message
  have hmtlen3 : (toTrits message).length = 3 * message.length := toTrits_length message
  have hmlen1 : 1 ≤ (toTrits message).length := by
    have h1 : 0 < message.length := List.length_pos.mpr htm.1
    omega
  obtain ⟨E, hE1, hElen, hEtr, hEdec⟩ := pascalEncode_spec (toTrits message).length hmlen1
  have hiT : (pascalEncode (st.index : ℤ)).getD [] = ZERO := by
    rw [hidx, Nat.cast_zero, pascalEncode_zero]
    rfl
  have hlT : (pascalEncode ((toTrits message).length : ℤ)).getD [] = E := by
    rw [hE1]
    rfl
  set skT := channelKeyTrits st.sideKey with hskTdef
  have hskTtr : IsTritVec skT := by
    rw [hskTdef, channelKeyTrits]
    exact toTrits_trits _
  set spA := (((Curl.new 27).absorb skT 0 skT.length).absorb A 0 A.length).absorb
    (ZERO ++ E) 0 (ZERO ++ E).length with hspAdef
  have hpre : buildPre st message
      = ((ZERO ++ E) ++ (mask (nr ++ toTrits message) spA).1,
         (mask (nr ++ toTrits message) spA).2) := by
    rw [buildPre]
    rw [htreeaddr, hnraddr, hiT, hlT, ← hskTdef, ← hspAdef]
  have hsptr : GoodCurl spA := by
    rw [hspAdef]
    exact GoodCurl.absorb (GoodCurl.absorb (GoodCurl.absorb (GoodCurl.new 27) hskTtr 0 _)
      hAtr 0 _) (append_trits (by decide) hEtr) 0 _
  have hsprounds : spA.rounds = 27 := by
    rw [hspAdef, Curl.absorb_rounds, Curl.absorb_rounds, Curl.absorb_rounds]
    rfl
  have hm12tr : IsTritVec (nr ++ toTrits message) := append_trits hnrtr hmttr
  set cm := (mask (nr ++ toTrits message) spA).2 with hcmdef
  set y1 := (mask (nr ++ toTrits message) spA).1 with hy1def
  have hmtr : IsTritVec y1 := by
    rw [hy1def]
    exact mask_trits hm12tr hsptr
  have hy1len : y1.length = HASH_LENGTH + (toTrits message).length := by
    rw [hy1def, mask_length hm12tr hsptr, List.length_append, hnrlen]
  have hcmgood : GoodCurl cm := by
    rw [hcmdef]
    exact mask_good hm12tr hsptr
  have hcmrounds : cm.rounds = 27 := by
    rw [hcmdef, mask_rounds]
    exact hsprounds
  have hnztr : IsTritVec nonce := hammingSearch_trits hsearch
  have hnzne : nonce ≠ [] := by
    intro hcon
    rw [hcon] at hn81
    exact absurd hn81 (by decide)
  set y2 := (mask nonce cm).1 with hy2def
  set c2 := (mask nonce cm).2 with hc2def
  have hy2tr : IsTritVec y2 := by
    rw [hy2def]
    exact mask_trits hnztr hcmgood
  have hy2len : y2.length = 81 := by
    rw [hy2def, mask_length hnztr hcmgood, hn81]
  have hc2good : GoodCurl c2 := by
    rw [hc2def]
    exact mask_good hnztr hcmgood
  set hmac := c2.rate HASH_LENGTH with hhmac
  have hmactr : IsTritVec hmac := by
    rw [hhmac]
    exact rate_trits hc2good
  have hsec_eq : checksumSecurity hmac = st.security := by
    rw [hhmac, hc2def]
    rw [mask_single_sponge hnzne (by rw [hn81]; decide) cm]
    have h2 : cm.absorb nonce 0 nonce.length
        = (⟨27, (buildPre st message).2.rate STATE_LENGTH⟩ : Curl).absorb nonce 0
            nonce.length := by
      rw [Curl.absorb, Curl.absorb, absorbLoop_le (by rw [hn81]; decide),
        absorbLoop_le (by rw [hn81]; decide), hcmrounds]
      have h3 : (buildPre st message).2.rate STATE_LENGTH = cm.state := by
        rw [hpre]
        show cm.rate STATE_LENGTH = cm.state
        rw [Curl.rate]
        exact List.take_of_length_le (le_of_eq hcmgood.1)
      rw [h3]
    rw [h2]
    have htr0 : IsTritVec ((buildPre st message).2.rate STATE_LENGTH) := by
      rw [hpre]
      show IsTritVec (cm.rate STATE_LENGTH)
      rw [Curl.rate]
      exact take_trits hcmgood.2 _
    have hlen0 : ((buildPre st message).2.rate STATE_LENGTH).length = STATE_LENGTH := by
      rw [hpre]
      show (cm.rate STATE_LENGTH).length = STATE_LENGTH
      rw [Curl.rate, List.length_take, hcmgood.1]
      exact min_self _
    rw [show HASH_LENGTH / 3 = 81 from by decide] at hsearch
    rw [hammingSearch_81] at hsearch
    exact searchGo_sound fuel (prepareTrits ((buildPre st message).2.rate STATE_LENGTH) 0)
      st.security 81 ((buildPre st message).2.rate STATE_LENGTH) htr0 hlen0 hsec1 hsec3
      (le_refl 81) (by decide) (prepareTrits_inv htr0 hlen0) nonce hsearch
  obtain ⟨hdig_eq, hsiglen0, hsigtr0⟩ := sig_digest_eq hmac ss hsstr st.security hsec1
    (fun i _ => hashTryte_bounds hmactr i)
  have hsigtr : IsTritVec (signature hmac K) := by
    rw [hKeq]
    exact hsigtr0
  have hsiglen : (signature hmac K).length = st.security * PRIVATE_KEY_FRAGMENT_LENGTH := by
    rw [hKeq, hsiglen0]
    simp only [PRIVATE_KEY_FRAGMENT_LENGTH, HASH_LENGTH]
    ring
  have hdigest : address (digestFromSignature hmac (signature hmac K)) = A := by
    rw [hKeq, hdig_eq]
    exact hAeq.symm
  set y3 := (mask (signature hmac K ++ ZERO) c2).1 with hy3def
  have hme_tr : IsTritVec (signature hmac K ++ ZERO) := append_trits hsigtr (by decide)
  have hy3tr : IsTritVec y3 := by
    rw [hy3def]
    exact mask_trits hme_tr hc2good
  have hy3len : y3.length = st.security * PRIVATE_KEY_FRAGMENT_LENGTH + 4 := by
    rw [hy3def, mask_length hme_tr hc2good, List.length_append, hsiglen]
    rfl
  have hbody : buildBody st message nonce = ((ZERO ++ E) ++ y1) ++ y2 ++ y3 := by
    rw [buildBody, hpre]
    dsimp only
    rw [hsub]
    dsimp only
    rw [← hc2def, ← hhmac, ← hy2def]
    rw [List.map_nil, List.flatten_nil, List.length_nil, Nat.cast_zero,
      show (0 : ℤ) / (HASH_LENGTH : ℤ) = 0 from by decide,
      pascalEncode_zero, Option.getD_some, List.append_nil]
  have hbodyfull : buildBody st message nonce ++ pad
      = ZERO ++ (E ++ (y1 ++ (y2 ++ (y3 ++ pad)))) := by
    rw [hbody]
    simp [List.append_assoc]
  have hPtr : IsTritVec (buildBody st message nonce ++ pad) := by
    rw [hbodyfull]
    exact append_trits (by decide)
      (append_trits hEtr (append_trits hmtr (append_trits hy2tr (append_trits hy3tr hpadtr))))
  have hPP : toTrits (fromTrits (buildBody st message nonce ++ pad))
      = buildBody st message nonce ++ pad :=
    toTrits_fromTrits hPtr hpadlen
  have hroot : toTrits (fromTrits A) = A :=
    toTrits_fromTrits hAtr (by rw [hAlen]; decide)
  have h1t : (y1.take HASH_LENGTH).length = HASH_LENGTH := by
    rw [List.length_take, hy1len]
    omega
  obtain ⟨hum1, hum2⟩ := mask_unmask (nr ++ toTrits message) hm12tr spA hsptr
  rw [← hy1def] at hum1 hum2
  rw [← hcmdef] at hum2
  have hsplit := unmask_chunk_append h1t (y1.drop HASH_LENGTH) spA
  rw [List.take_append_drop] at hsplit
  have hfst : (unmask y1 spA).1
      = (unmask (y1.take HASH_LENGTH) spA).1 ++
        (unmask (y1.drop HASH_LENGTH) (unmask (y1.take HASH_LENGTH) spA).2).1 :=
    congrArg Prod.fst hsplit
  have hsnd : (unmask y1 spA).2
      = (unmask (y1.drop HASH_LENGTH) (unmask (y1.take HASH_LENGTH) spA).2).2 := by
    rw [hsplit]
  have hu1len : (unmask (y1.take HASH_LENGTH) spA).1.length = HASH_LENGTH := by
    rw [(unmask_props (y1.take HASH_LENGTH).length (y1.take HASH_LENGTH) (le_refl _)
      (take_trits hmtr _) spA hsptr).1, h1t]
  obtain ⟨hu1eq, hu2eq⟩ := List.append_inj (hfst.symm.trans hum1) (by rw [hu1len, hnrlen])
  have hu2sponge : (unmask (y1.drop HASH_LENGTH) (unmask (y1.take HASH_LENGTH) spA).2).2
      = cm :=
    hsnd.symm.trans hum2
  obtain ⟨hun1, hun2⟩ := mask_unmask nonce hnztr cm hcmgood
  rw [← hy2def] at hun1 hun2
  rw [← hc2def] at hun2
  obtain ⟨hme1, hme2⟩ := mask_unmask (signature hmac K ++ ZERO) hme_tr c2 hc2good
  rw [← hy3def] at hme1
  have hprefix : (unmask (y3 ++ pad) c2).1.take y3.length = (unmask y3 c2).1 :=
    unmask_prefix y3.length y3 (le_refl _) hy3tr pad c2 hc2good
  have hdmsig : (unmask (y3 ++ pad) c2).1.take (st.security * PRIVATE_KEY_FRAGMENT_LENGTH)
      = signature hmac K := by
    rw [show st.security * PRIVATE_KEY_FRAGMENT_LENGTH
        = min (st.security * PRIVATE_KEY_FRAGMENT_LENGTH) y3.length from
        (min_eq_left (by rw [hy3len]; omega)).symm,
      ← List.take_take, hprefix, hme1]
    exact take_append_len hsiglen
  have hdmz : ((unmask (y3 ++ pad) c2).1.drop
      (st.security * PRIVATE_KEY_FRAGMENT_LENGTH)).take 4 = ZERO := by
    have e0 : ((unmask (y3 ++ pad) c2).1.drop
        (st.security * PRIVATE_KEY_FRAGMENT_LENGTH)).take 4
        = ((unmask (y3 ++ pad) c2).1.take
            (st.security * PRIVATE_KEY_FRAGMENT_LENGTH + 4)).drop
            (st.security * PRIVATE_KEY_FRAGMENT_LENGTH) := by
      rw [List.drop_take]
      congr 1
      omega
    rw [e0, show st.security * PRIVATE_KEY_FRAGMENT_LENGTH + 4 = y3.length from hy3len.symm,
      hprefix, hme1]
    exact drop_append_len hsiglen
  have hstep1 : (ZERO ++ (E ++ (y1 ++ (y2 ++ (y3 ++ pad))))).drop (4 + E.length)
      = y1 ++ (y2 ++ (y3 ++ pad)) := by
    rw [show (4 : ℕ) + E.length = (ZERO : Trits).length + E.length from rfl, List.drop_append]
    exact drop_append_len rfl
  have hstep2 : (ZERO ++ (E ++ (y1 ++ (y2 ++ (y3 ++ pad))))).drop
      (4 + E.length + HASH_LENGTH) = y1.drop HASH_LENGTH ++ (y2 ++ (y3 ++ pad)) := by
    rw [← List.drop_drop, hstep1]
    exact List.drop_append_of_le_length (by rw [hy1len]; omega)
  have hstep3 : (ZERO ++ (E ++ (y1 ++ (y2 ++ (y3 ++ pad))))).drop
      (4 + E.length + HASH_LENGTH + (toTrits message).length) = y2 ++ (y3 ++ pad) := by
    rw [← List.drop_drop, hstep2]
    exact drop_append_len (by rw [List.length_drop, hy1len]; omega)
  have hstep4 : (ZERO ++ (E ++ (y1 ++ (y2 ++ (y3 ++ pad))))).drop
      (4 + E.length + HASH_LENGTH + (toTrits message).length + 81) = y3 ++ pad := by
    rw [← List.drop_drop, hstep3]
    exact drop_append_len hy2len
  have htk1 : (y1 ++ (y2 ++ (y3 ++ pad))).take HASH_LENGTH = y1.take HASH_LENGTH :=
    List.take_append_of_le_length (by rw [hy1len]; omega)
  have htk2 : (y1.drop HASH_LENGTH ++ (y2 ++ (y3 ++ pad))).take (toTrits message).length
      = y1.drop HASH_LENGTH :=
    take_append_len (by rw [List.length_drop, hy1len]; omega)
  have hb1 : (ZERO ++ (E ++ (y1 ++ (y2 ++ (y3 ++ pad))))).take (4 + E.length)
      = ZERO ++ E := by
    rw [show (4 : ℕ) + E.length = (ZERO : Trits).length + E.length from rfl, List.take_append]
    rw [List.take_append_of_le_length (le_refl E.length), List.take_length]
  have hb2 : (ZERO ++ E : Trits).take (4 + E.length) = ZERO ++ E := by
    apply List.take_of_length_le
    rw [List.length_append, show (ZERO : Trits).length = 4 from rfl]
  have habs3 : ∀ c : Curl,
      c.absorb (ZERO ++ (E ++ (y1 ++ (y2 ++ (y3 ++ pad))))) 0 (4 + E.length)
        = c.absorb (ZERO ++ E) 0 (ZERO ++ E).length := by
    intro c
    rw [show (ZERO ++ E : Trits).length = 4 + E.length from by
      rw [List.length_append, show (ZERO : Trits).length = 4 from rfl]]
    exact absorb_congr (by rw [hb1, hb2]) c
  rw [htreeaddr, hnraddr, parseMessageF]
  simp only [hbodyfull, hroot]
  have hPP2 : toTrits (fromTrits (ZERO ++ (E ++ (y1 ++ (y2 ++ (y3 ++ pad))))))
      = ZERO ++ (E ++ (y1 ++ (y2 ++ (y3 ++ pad)))) := by
    rw [← hbodyfull]
    exact hPP
  rw [hPP2]
  rw [pascalDecode_ZERO]
  simp only []
  rw [show (ZERO ++ (E ++ (y1 ++ (y2 ++ (y3 ++ pad))))).drop 4
    = E ++ (y1 ++ (y2 ++ (y3 ++ pad))) from drop_append_len rfl]
  rw [hEdec (y1 ++ (y2 ++ (y3 ++ pad)))]
  simp only []
  rw [Int.toNat_natCast]
  rw [← hskTdef]
  rw [habs3, ← hspAdef]
  rw [hstep1, htk1]
  rw [hstep2, htk2]
  rw [hstep3]
  rw [show HASH_LENGTH / 3 = 81 from by decide]
  rw [take_append_len hy2len]
  rw [hu2sponge]
  rw [hun1, hn81]
  rw [hun2]
  rw [hstep4]
  rw [← hhmac]
  rw [hsec_eq]
  rw [if_neg (show ¬ st.security = 0 from by omega)]
  rw [hdmsig]
  rw [show pascalDecode ((unmask (y3 ++ pad) c2).1.drop
      (st.security * PRIVATE_KEY_FRAGMENT_LENGTH)) = some ((0 : ℤ), 4) from by
    rw [pascalDecode, if_pos hdmz]]
  simp only []
  rw [if_pos trivial]
  rw [show ((Curl.new 27).absorb (digestFromSignature hmac (signature hmac K)) 0
      (digestFromSignature hmac (signature hmac K)).length).rate HASH_LENGTH
      = A from by rw [← address_eq]; exact hdigest]
  rw [if_pos (show fromTrits A = fromTrits A from rfl)]
  rw [hu2eq, hu1eq, fromTrits_toTrits htm.2]

/-- A channel whose Merkle window is a single leaf, as produced by
`createChannel` (and preserved by every `advanceState`). -/
def SmallChannel (st : ChannelState) : Prop :=
  st.count = 1 ∧ st.nextCount = 1 ∧ st.index = 0 ∧ 1 ≤ st.security ∧ st.security ≤ 3

theorem createMessageF_inv {fuel : ℕ} {st : ChannelState} {m : List Char}
    {out : MamMessage × ChannelState}
    (h : createMessageF fuel st m = some out) :
    isTrytes m ∧ ∃ nonce,
      hammingSearch fuel ((buildPre st m).2.rate STATE_LENGTH) st.security
        (HASH_LENGTH / 3) 0 = some nonce ∧ out = buildMessage st m nonce := by
  rw [createMessageF] at h
  by_cases htm : isTrytes m
  · rw [if_pos htm] at h
    cases hsearch : hammingSearch fuel ((buildPre st m).2.rate STATE_LENGTH) st.security
        (HASH_LENGTH / 3) 0 with
    | none =>
        rw [hsearch] at h
        exact absurd h (by simp)
    | some nonce =>
        rw [hsearch] at h
        simp only [Option.some.injEq] at h
        exact ⟨htm, nonce, rfl, h.symm⟩
  · rw [if_neg htm] at h
    exact absurd h (by simp)

theorem channelRoot_advance {st : ChannelState} (hcount : st.count = 1)
    (hnext : st.nextCount = 1) (hidx : st.index = 0) :
    channelRoot (advanceState st
        (merkleTree st.seed (st.start + st.count) st.nextCount st.security).addr)
      = fromTrits (merkleTree st.seed (st.start + st.count) st.nextCount st.security).addr := by
  rw [channelRoot, advanceState, if_pos (show st.index = st.count - 1 from by omega)]
  dsimp only
  rw [hcount, hnext, Nat.add_comm]

/-- The round-trip property for one `createMessage`/`parseMessage` pair:
whenever the nonce search succeeds with a nominal 81-trit nonce and
`createMessage` emits a message, `parseMessage` on its payload and root
(with the channel's side key) returns the original message trytes and a
`nextRoot` equal to the root every following `createMessage` call on the
advanced state publishes. -/
def MessageRoundTrip (fuel : ℕ) (st : ChannelState) (message : List Char) : Prop :=
  ∀ nonce out,
    hammingSearch fuel ((buildPre st message).2.rate STATE_LENGTH) st.security
      (HASH_LENGTH / 3) 0 = some nonce →
    nonce.length = HASH_LENGTH / 3 →
    createMessageF fuel st message = some out →
    parseMessageF out.1.payload out.1.root st.sideKey = some (message, channelRoot out.2) ∧
    ∀ fuel2 m2 out2, createMessageF fuel2 out.2 m2 = some out2 →
      out2.1.root = channelRoot out.2

/-- C1: on a single-leaf channel window (the shape `createChannel` creates
and every advance preserves), `createMessage` followed by
`parseMessage(payload, root, sideKey)` returns the original message trytes
and a `nextRoot` equal to the root of the message the following
`createMessage` call produces, provided the Hamming search returned a
nonce of the nominal 81-trit length. -/
theorem claim_C1_message_roundtrip (fuel : ℕ) (st : ChannelState) (message : List Char)
    (h : SmallChannel st) : MessageRoundTrip fuel st message := by
  obtain ⟨hcount, hnext, hidx, hsec1, hsec3⟩ := h
  intro nonce out hsearch hn81 hout
  obtain ⟨htm, nonce2, hsearch2, hout2⟩ := createMessageF_inv hout
  rw [hsearch] at hsearch2
  injection hsearch2 with hnn
  subst hnn
  subst hout2
  constructor
  · rw [buildMessage_payload, buildMessage_root, buildMessage_state,
      channelRoot_advance hcount hnext hidx]
    exact parse_of_build st message nonce fuel hcount hnext hidx hsec1 hsec3 htm hsearch
      (by rw [hn81]; decide) _ (replicate_zero_trits _)
      (by rw [List.length_append, List.length_replicate]; omega)
  · intro fuel2 m2 out2 hout2
    obtain ⟨_, nz, _, hoeq⟩ := createMessageF_inv hout2
    rw [hoeq, buildMessage_root, channelRoot]

theorem claim_C1_message_roundtrip_witness :
    SmallChannel ⟨List.replicate 81 'A', MamMode.pub, none, 1, 0, 1, 1, 0, none⟩ ∧
      MessageRoundTrip 0 ⟨List.replicate 81 'A', MamMode.pub, none, 1, 0, 1, 1, 0, none⟩
        ['A'] :=
  ⟨⟨rfl, rfl, rfl, by decide, by decide⟩,
   claim_C1_message_roundtrip 0 ⟨List.replicate 81 'A', MamMode.pub, none, 1, 0, 1, 1, 0, none⟩
     ['A'] ⟨rfl, rfl, rfl, by decide, by decide⟩⟩

/-- The zero-trit padding `createMessage` appends to round the payload up
to a whole number of trytes is not authenticated: replacing it by *any*
trit vector of any length (keeping the payload a whole number of trytes)
leaves `parseMessage` succeeding with the same result, instead of
rejecting the mutated payload. -/
def PaddingDropped (fuel : ℕ) (st : ChannelState) (message : List Char) : Prop :=
  ∀ nonce out,
    hammingSearch fuel ((buildPre st message).2.rate STATE_LENGTH) st.security
      (HASH_LENGTH / 3) 0 = some nonce →
    nonce.length = HASH_LENGTH / 3 →
    createMessageF fuel st message = some out →
    ∀ pad : Trits, IsTritVec pad →
      (buildBody st message nonce ++ pad).length % 3 = 0 →
      parseMessageF (fromTrits (buildBody st message nonce ++ pad)) out.1.root st.sideKey
        = some (message, channelRoot out.2)

set_option maxHeartbeats 1000000

/-- C2 (refuted for the padding region): the final zero trits
`createMessage` pads the payload with are dropped by `parseMessage`
without any authentication, so flipping a trit there (or appending whole
trytes of arbitrary trits) does not cause a rejection — `parseMessage`
still returns the original message and next root. -/
theorem claim_C2_padding_unauthenticated (fuel : ℕ) (st : ChannelState)
    (message : List Char) (h : SmallChannel st) : PaddingDropped fuel st message := by
  obtain ⟨hcount, hnext, hidx, hsec1, hsec3⟩ := h
  intro nonce out hsearch hn81 hout pad hpadtr hpadlen
  obtain ⟨htm, nonce2, hsearch2, hout2⟩ := createMessageF_inv hout
  rw [hsearch] at hsearch2
  injection hsearch2 with hnn
  subst hnn
  subst hout2
  rw [buildMessage_root, buildMessage_state, channelRoot_advance hcount hnext hidx]
  exact parse_of_build st message nonce fuel hcount hnext hidx hsec1 hsec3 htm hsearch
    (by rw [hn81]; decide) pad hpadtr hpadlen

theorem claim_C2_padding_unauthenticated_witness :
    SmallChannel ⟨List.replicate 81 'A', MamMode.pub, none, 1, 0, 1, 1, 0, none⟩ ∧
      PaddingDropped 0 ⟨List.replicate 81 'A', MamMode.pub, none, 1, 0, 1, 1, 0, none⟩
        ['A'] :=
  ⟨⟨rfl, rfl, rfl, by decide, by decide⟩,
   claim_C2_padding_unauthenticated 0
     ⟨List.replicate 81 'A', MamMode.pub, none, 1, 0, 1, 1, 0, none⟩ ['A']
     ⟨rfl, rfl, rfl, by decide, by decide⟩⟩

end Mam
